import Mathlib

/-!
# miniFP: an 11-bit floating-point format (1 sign, 4 exponent, 6 fraction bits)

A shallow embedding of `src/minifp.c` together with theorems about it.

Conventions of the embedding.

* An encoded value (`minifp_s`) is a natural number; the statements range over
  the 11-bit patterns `v < 2048`.
* `unsigned int` variables are natural numbers reduced modulo `2^32` after
  every operation that can leave the range; `int` variables are integers.
* Every `while` loop is a function that is recursive in a fuel argument.  The
  loop condition is tested first, an iteration costs one unit of fuel, and the
  loop returns its final state together with the fuel that is left, so that
  the fuel given to a function bounds the total number of loop iterations of
  one call.  Running out of fuel is `none`.
-/

namespace MiniFP

/-- Modelled from the spec: the type `minifp_s` is declared in `minifp.h`,
which is not among the sources.  An encoded value is an 11-bit unsigned bit
pattern (sign at bit 10, exponent at bits 9-6, fraction at bits 5-0) carried
in a wider integer storage type; here it is a natural number. -/
abbrev minifp_s : Type := Nat

/-! ## Constants (`#define`s of `minifp.c`) -/

/-- The canonical NaN, `#define NAN 0x7ff`. -/
def NAN : minifp_s := 0x7ff
/-- Positive infinity, `#define POS_INFINITY 0x3c0`. -/
def POS_INFINITY : minifp_s := 0x3c0
/-- Negative infinity, `#define NEG_INFINITY 0x7c0`. -/
def NEG_INFINITY : minifp_s := 0x7c0
/-- Positive zero, `#define POS_ZERO 0x000`. -/
def POS_ZERO : minifp_s := 0x000
/-- The exponent bias, `#define BIAS 7`. -/
def BIAS : Int := 7
/-- The exponent of denormalized values, `#define DENORM_E -6`. -/
def DENORM_E : Int := -6

/-- The modulus of `unsigned int` arithmetic. -/
def U32 : Nat := 4294967296

/-! ## Predicates -/

/-- Source `is_nan`: exponent field is 15 and the fraction field is positive. -/
def is_nan (val : minifp_s) : Bool :=
  ((val &&& (0xf <<< 6)) >>> 6 == 0xf) && ((val &&& 0x3f) > 0)

/-- Source `is_infinity`. -/
def is_infinity (val : minifp_s) : Bool :=
  val == POS_INFINITY || val == NEG_INFINITY

/-- Source `is_denorm`: exponent field is 0. -/
def is_denorm (val : minifp_s) : Bool :=
  (val &&& (0xf <<< 6)) >>> 6 == 0

/-- Source `is_negative`: the sign bit, as 0 or 1. -/
def is_negative (val : minifp_s) : Nat :=
  (val &&& (1 <<< 10)) >>> 10

/-- Source `is_zero`: exponent and fraction fields are both 0. -/
def is_zero (val : minifp_s) : Bool :=
  (val &&& 0x3ff) == 0

/-- The exponent field (bits 9-6), the expression
`(val & (0xf << 6)) >> 6` of the source. -/
def expField (val : minifp_s) : Nat := (val &&& (0xf <<< 6)) >>> 6

/-- The fraction field (bits 5-0), the expression `val & 0x3f` of the
source. -/
def fracField (val : minifp_s) : Nat := val &&& 0x3f

/-! ## The two shifts of a whole/fraction pair

The source repeats these two statement blocks in every loop. -/

/-- One right shift of the pair: `lsb = 1 & whole; whole >>= 1; frac >>= 1;
frac += lsb << 31`. -/
def shiftRight1 (whole frac : Nat) : Nat × Nat :=
  let lsb := 1 &&& whole
  (whole >>> 1, ((frac >>> 1) + (lsb <<< 31)) % U32)

/-- One left shift of the pair: `msb = ((1 << 31) & frac) >> 31; frac <<= 1;
whole <<= 1; whole += msb`. -/
def shiftLeft1 (whole frac : Nat) : Nat × Nat :=
  let msb := ((1 <<< 31) &&& frac) >>> 31
  (((whole <<< 1) % U32 + msb) % U32, (frac <<< 1) % U32)

/-! ## `float_to_base10` -/

/-- First loop of `float_to_base10`, `while(E1 != E2)`: shifts the first
operand until its exponent is `E2`.  Returns `(whole1, frac1, E1)` and the
fuel left. -/
def alignLoop (fuel : Nat) (E1 E2 : Int) (whole1 frac1 : Nat) :
    Option ((Nat × Nat × Int) × Nat) :=
  if E1 = E2 then some ((whole1, frac1, E1), fuel)
  else
    match fuel with
    | 0 => none
    | n + 1 =>
      if E1 < E2 then
        alignLoop n (E1 + 1) E2 (shiftRight1 whole1 frac1).1 (shiftRight1 whole1 frac1).2
      else
        alignLoop n (E1 - 1) E2 (shiftLeft1 whole1 frac1).1 (shiftLeft1 whole1 frac1).2

/-- Second loop of `float_to_base10`, `while(frac1 != 0 || frac2 != 0)`:
shifts both operands left until both fractions are zero.  Returns
`(whole1, whole2, result_E)` and the fuel left. -/
def clearLoop (fuel : Nat) (whole1 frac1 whole2 frac2 : Nat) (result_E : Int) :
    Option ((Nat × Nat × Int) × Nat) :=
  if frac1 = 0 ∧ frac2 = 0 then some ((whole1, whole2, result_E), fuel)
  else
    match fuel with
    | 0 => none
    | n + 1 =>
      clearLoop n (shiftLeft1 whole1 frac1).1 (shiftLeft1 whole1 frac1).2
        (shiftLeft1 whole2 frac2).1 (shiftLeft1 whole2 frac2).2 (result_E - 1)

/-- Source `float_to_base10`: the out-parameters `(M1, M2, E)`. -/
def float_to_base10 (fuel : Nat) (val1 val2 : minifp_s) : Option (Nat × Nat × Int) :=
  let E1 : Int := if is_denorm val1 then DENORM_E else (((val1 &&& (0xf <<< 6)) >>> 6 : Nat) : Int) - BIAS
  let E2 : Int := if is_denorm val2 then DENORM_E else (((val2 &&& (0xf <<< 6)) >>> 6 : Nat) : Int) - BIAS
  let whole1 : Nat := if is_denorm val1 then 0 else 1
  let whole2 : Nat := if is_denorm val2 then 0 else 1
  let frac1 : Nat := ((val1 &&& 0x3f) <<< 26) % U32
  let frac2 : Nat := ((val2 &&& 0x3f) <<< 26) % U32
  match alignLoop fuel E1 E2 whole1 frac1 with
  | none => none
  | some ((w1, f1, E1'), fuel') =>
    match clearLoop fuel' w1 f1 whole2 frac2 E1' with
    | none => none
    | some (r, _) => some r

/-! ## `base10_to_float` -/

/-- First loop of `base10_to_float`, `while(whole > 1)`.  Returns
`(whole, frac, E)` and the fuel left. -/
def normLoop (fuel : Nat) (whole frac : Nat) (E : Int) :
    Option ((Nat × Nat × Int) × Nat) :=
  if whole > 1 then
    match fuel with
    | 0 => none
    | n + 1 => normLoop n (shiftRight1 whole frac).1 (shiftRight1 whole frac).2 (E + 1)
  else some ((whole, frac, E), fuel)

/-- Second loop of `base10_to_float`, `while(E != DENORM_E)`, shifting
right.  Returns `(whole, frac, E)` and the fuel left. -/
def denormLoop (fuel : Nat) (whole frac : Nat) (E : Int) :
    Option ((Nat × Nat × Int) × Nat) :=
  if E ≠ DENORM_E then
    match fuel with
    | 0 => none
    | n + 1 => denormLoop n (shiftRight1 whole frac).1 (shiftRight1 whole frac).2 (E + 1)
  else some ((whole, frac, E), fuel)

/-- Source `base10_to_float`.  `exp & 0xF` of the two's-complement `int`
is `exp % 16`. -/
def base10_to_float (fuel : Nat) (M : Nat) (E : Int) (S : Nat) : Option minifp_s :=
  if M = 0 then some (POS_ZERO ^^^ S)
  else
    match normLoop fuel M 0 E with
    | none => none
    | some ((_, frac, E'), fuel') =>
      let exp : Int := BIAS + E'
      if exp ≥ 15 then some (POS_INFINITY ^^^ S)
      else
        let denorm : Option (Int × Nat) :=
          if exp ≤ 0 then
            match denormLoop fuel' M 0 E with
            | none => none
            | some ((_, frac', _), _) => some (0, frac')
          else some (exp, frac)
        match denorm with
        | none => none
        | some (exp, frac) => some (S + ((exp % 16).toNat <<< 6) + (frac >>> 26))

/-! ## Operations on encoded values -/

/-- Source `negateMiniFP`. -/
def negateMiniFP (value : minifp_s) : minifp_s :=
  value ^^^ (1 <<< 10)

/-- Source `mulMiniFP`; `fuel` bounds the loop iterations of each of the two
helper calls. -/
def mulMiniFP (fuel : Nat) (val1 val2 : minifp_s) : Option minifp_s :=
  let sign : minifp_s := if (is_negative val1 ^^^ is_negative val2) ≠ 0 then 0x400 else 0x000
  if is_nan val1 || is_nan val2 then some NAN
  else if (is_infinity val1 && is_zero val2) || (is_infinity val2 && is_zero val1) then some NAN
  else if is_infinity val1 && is_infinity val2 then some (POS_INFINITY ^^^ sign)
  else if is_infinity val1 || is_infinity val2 then some (POS_INFINITY ^^^ sign)
  else if is_zero val1 || is_zero val2 then some (POS_ZERO ^^^ sign)
  else
    match float_to_base10 fuel val1 val2 with
    | none => none
    | some (M1, M2, E) =>
      let E := E * 2
      let product := (M1 * M2) % U32
      base10_to_float fuel product E sign

/-- Conversion `(int) M` of an `unsigned int` (two's complement). -/
def toInt32 (M : Nat) : Int :=
  if M % U32 < 2147483648 then ((M % U32 : Nat) : Int) else ((M % U32 : Nat) : Int) - 4294967296

/-- Wrap an integer into the range of `int` (two's complement). -/
def wrapInt32 (x : Int) : Int :=
  toInt32 (x % 4294967296).toNat

/-- Source `addMiniFP`; `fuel` bounds the loop iterations of each of the two
helper calls. -/
def addMiniFP (fuel : Nat) (val1 val2 : minifp_s) : Option minifp_s :=
  let sign : minifp_s := if is_negative val1 ≠ 0 ∧ is_negative val2 ≠ 0 then 0x400 else 0x000
  if (val1 = POS_INFINITY ∧ val2 = NEG_INFINITY) ∨ (val1 = NEG_INFINITY ∧ val2 = POS_INFINITY) then
    some NAN
  else if is_nan val1 || is_nan val2 then some NAN
  else if is_infinity val1 && is_infinity val2 then some (POS_INFINITY ^^^ sign)
  else if val1 = negateMiniFP val1 then some POS_ZERO
  else if val1 = POS_INFINITY ∨ val2 = POS_INFINITY then some POS_INFINITY
  else if val1 = NEG_INFINITY ∨ val2 = NEG_INFINITY then some NEG_INFINITY
  else if is_zero val1 && is_zero val2 then some (POS_ZERO ^^^ sign)
  else if is_zero val1 then some val2
  else if is_zero val2 then some val1
  else
    match float_to_base10 fuel val1 val2 with
    | none => none
    | some (M1, M2, E) =>
      let addend_1 : Int :=
        if (val1 &&& (1 <<< 10)) >>> 10 ≠ 0 then wrapInt32 (-(toInt32 M1)) else toInt32 M1
      let addend_2 : Int :=
        if (val2 &&& (1 <<< 10)) >>> 10 ≠ 0 then wrapInt32 (-(toInt32 M2)) else toInt32 M2
      let sum : Int := wrapInt32 (addend_1 + addend_2)
      let sign : minifp_s := if sum < 0 then 0x400 else 0x000
      base10_to_float fuel (sum.natAbs % U32) E sign

/-- Source `subMiniFP`. -/
def subMiniFP (fuel : Nat) (val1 val2 : minifp_s) : Option minifp_s :=
  addMiniFP fuel val1 (negateMiniFP val2)

/-! ## Conversions between encoded values and `Number_s` -/

/-- Modelled from the spec: the struct `Number_s` is declared in
`common_structs.h`, which is not among the sources.  It has an unsigned
whole part, an unsigned fraction part (a fixed-point fraction whose most
significant bit weighs `2^-1`) and boolean flags for sign, Infinity and NaN.
The parts are 32-bit: the source copies them into `unsigned int` variables. -/
structure Number_s where
  /-- Sign flag. -/
  is_negative : Bool
  /-- Infinity flag. -/
  is_infinity : Bool
  /-- NaN flag. -/
  is_nan : Bool
  /-- Whole part. -/
  whole : Nat
  /-- Fraction part. -/
  fraction : Nat
  deriving DecidableEq, Repr

/-- First loop of `toMiniFP`, `while(whole != 1)`: shifts right while the
whole part exceeds 1 and left while it is 0.  Returns
`(whole, fraction, E)` and the fuel left. -/
def rangeLoop (fuel : Nat) (whole fraction : Nat) (E : Int) :
    Option ((Nat × Nat × Int) × Nat) :=
  if whole ≠ 1 then
    match fuel with
    | 0 => none
    | n + 1 =>
      if whole > 1 then
        rangeLoop n (shiftRight1 whole fraction).1 (shiftRight1 whole fraction).2 (E + 1)
      else
        rangeLoop n (shiftLeft1 whole fraction).1 (shiftLeft1 whole fraction).2 (E - 1)
  else some ((whole, fraction, E), fuel)

/-- Second loop of `toMiniFP`, `while(E != DENORM_E)`, shifting left.
Returns `(whole, fraction, E)` and the fuel left. -/
def denormLeftLoop (fuel : Nat) (whole fraction : Nat) (E : Int) :
    Option ((Nat × Nat × Int) × Nat) :=
  if E ≠ DENORM_E then
    match fuel with
    | 0 => none
    | n + 1 =>
      denormLeftLoop n (shiftLeft1 whole fraction).1 (shiftLeft1 whole fraction).2 (E - 1)
  else some ((whole, fraction, E), fuel)

/-- Source `toMiniFP`; a null pointer is `none`. -/
def toMiniFP (fuel : Nat) (number : Option Number_s) : Option minifp_s :=
  match number with
  | none => some NAN
  | some number =>
    if number.is_nan then some NAN
    else if (decide (number.whole ≥ 256) || number.is_infinity) && number.is_negative then
      some NEG_INFINITY
    else if (decide (number.whole ≥ 256) || number.is_infinity) && !number.is_negative then
      some POS_INFINITY
    else if number.whole = 0 ∧ number.fraction = 0 then some 0
    else
      let minifp : minifp_s := if number.is_negative then 0x400 else 0x000
      let whole : Nat := number.whole % U32
      let fraction : Nat := number.fraction % U32
      match rangeLoop fuel whole fraction 0 with
      | none => none
      | some ((_, fraction1, E), fuel') =>
        let exp : Int := BIAS + E
        let denorm : Option (Int × Nat) :=
          if exp ≤ 0 then
            match denormLeftLoop fuel' (number.whole % U32) (number.fraction % U32) 0 with
            | none => none
            | some ((_, fraction2, _), _) => some (0, fraction2)
          else some (exp, fraction1)
        match denorm with
        | none => none
        | some (exp, fraction) =>
          some (minifp + ((exp % 16).toNat <<< 6) + (fraction >>> 26))

/-- Loop of `toNumber`, `while(E != 0)`: shifts right while `E` is negative
and left while it is positive.  Returns `(whole, fraction, E)` and the fuel
left. -/
def decodeLoop (fuel : Nat) (whole fraction : Nat) (E : Int) :
    Option ((Nat × Nat × Int) × Nat) :=
  if E ≠ 0 then
    match fuel with
    | 0 => none
    | n + 1 =>
      if E < 0 then
        decodeLoop n (shiftRight1 whole fraction).1 (shiftRight1 whole fraction).2 (E + 1)
      else
        decodeLoop n (shiftLeft1 whole fraction).1 (shiftLeft1 whole fraction).2 (E - 1)
  else some ((whole, fraction, E), fuel)

/-- Source `toNumber`; a null pointer is `none`.  The result is the returned
status together with the struct as the call leaves it. -/
def toNumber (fuel : Nat) (number : Option Number_s) (value : minifp_s) :
    Option (Int × Option Number_s) :=
  match number with
  | none => some (-1, none)
  | some number =>
    let number : Number_s :=
      if is_negative value ≠ 0 then { number with is_negative := true } else number
    if is_infinity value then some (0, some { number with is_infinity := true })
    else if is_nan value then some (0, some { number with is_nan := true })
    else
      let exp : Int := (((value &&& (0xF <<< 6)) >>> 6 : Nat) : Int)
      let fraction : Nat := ((value &&& 0x3F) <<< 26) % U32
      let E : Int := if exp = 0 then 1 - BIAS else exp - BIAS
      let whole : Nat := if exp = 0 then 0 else 1
      match decodeLoop fuel whole fraction E with
      | none => none
      | some ((whole, fraction, _), _) =>
        some (0, some { number with whole := whole, fraction := fraction })

/-- The Boolean test `p` holds of every number below the bound; used to
check a property of all 2048 encoded values by evaluation. -/
def allBelow (p : Nat → Bool) : Nat → Bool
  | 0 => true
  | n + 1 => p n && allBelow p n

/-- Encode after decode: `toNumber` of `value` into the struct `number`,
then `toMiniFP` of the struct as `toNumber` left it.  `none` when a loop
runs out of fuel or `toNumber` does not return 0. -/
def roundTrip (fuel : Nat) (number : Number_s) (value : minifp_s) : Option minifp_s :=
  match toNumber fuel (some number) value with
  | some (status, some n) => if status = 0 then toMiniFP fuel (some n) else none
  | _ => none

/-! ## Magnitudes, and `addMiniFP` without its `x - x` guard -/

/-- The magnitude of an encoded value scaled by `2^12`, a natural number:
`f` for a denormalized value (exponent field 0, magnitude `(f/64) * 2^-6`)
and `(64 + f) * 2^(e-1)` for exponent field `e ≥ 1` (magnitude
`(1 + f/64) * 2^(e-7)`). -/
def mag12 (val : minifp_s) : Nat :=
  if expField val = 0 then fracField val else (64 + fracField val) * 2 ^ (expField val - 1)

/-- The magnitude of an encoded value as the data model gives it:
`(f/64) * 2^-6` for exponent field 0 and `(1 + f/64) * 2^(e-7)` for exponent
field `e ≥ 1`. -/
def absValue (val : minifp_s) : ℚ :=
  if expField val = 0 then (fracField val : ℚ) / 64 * 2 ^ (-6 : ℤ)
  else (1 + (fracField val : ℚ) / 64) * 2 ^ ((expField val : ℤ) - 7)

/-- The signed value of an encoded value scaled by `2^12`, an integer. -/
def signed12 (val : minifp_s) : Int :=
  if is_negative val ≠ 0 then -(mag12 val : Int) else (mag12 val : Int)

/-- The signed value of an encoded value as the data model gives it: the
magnitude, negated when the sign bit is set. -/
def signedValue (val : minifp_s) : ℚ :=
  if is_negative val ≠ 0 then -absValue val else absValue val

/-- Source `addMiniFP` with the guard `if(val1 == negateMiniFP(val1)) return POS_ZERO;`
removed and every other line kept. -/
def addMiniFP_noGuard (fuel : Nat) (val1 val2 : minifp_s) : Option minifp_s :=
  let sign : minifp_s := if is_negative val1 ≠ 0 ∧ is_negative val2 ≠ 0 then 0x400 else 0x000
  if (val1 = POS_INFINITY ∧ val2 = NEG_INFINITY) ∨ (val1 = NEG_INFINITY ∧ val2 = POS_INFINITY) then
    some NAN
  else if is_nan val1 || is_nan val2 then some NAN
  else if is_infinity val1 && is_infinity val2 then some (POS_INFINITY ^^^ sign)
  else if val1 = POS_INFINITY ∨ val2 = POS_INFINITY then some POS_INFINITY
  else if val1 = NEG_INFINITY ∨ val2 = NEG_INFINITY then some NEG_INFINITY
  else if is_zero val1 && is_zero val2 then some (POS_ZERO ^^^ sign)
  else if is_zero val1 then some val2
  else if is_zero val2 then some val1
  else
    match float_to_base10 fuel val1 val2 with
    | none => none
    | some (M1, M2, E) =>
      let addend_1 : Int :=
        if (val1 &&& (1 <<< 10)) >>> 10 ≠ 0 then wrapInt32 (-(toInt32 M1)) else toInt32 M1
      let addend_2 : Int :=
        if (val2 &&& (1 <<< 10)) >>> 10 ≠ 0 then wrapInt32 (-(toInt32 M2)) else toInt32 M2
      let sum : Int := wrapInt32 (addend_1 + addend_2)
      let sign : minifp_s := if sum < 0 then 0x400 else 0x000
      base10_to_float fuel (sum.natAbs % U32) E sign

/-! ## More fuel never changes a result -/

/-- A run of `alignLoop` that returns also returns, with the same state, on
`j` more units of fuel; the fuel left grows by `j`.  The six lemmas after it
say the same of the other loops. -/
theorem alignLoop_mono (j : Nat) : ∀ (n : Nat) (E1 E2 : Int) (w f : Nat)
    (r : Nat × Nat × Int) (k : Nat),
    alignLoop n E1 E2 w f = some (r, k) → alignLoop (n + j) E1 E2 w f = some (r, k + j) := by
  intro n
  induction n with
  | zero =>
    intro E1 E2 w f r k h
    unfold alignLoop at h ⊢
    by_cases hE : E1 = E2
    · simp [hE] at h ⊢
      obtain ⟨h1, h2⟩ := h
      subst h2
      simp [h1]
    · simp [hE] at h
  | succ n ih =>
    intro E1 E2 w f r k h
    rw [show n + 1 + j = (n + j) + 1 by omega]
    unfold alignLoop at h ⊢
    by_cases hE : E1 = E2
    · simp [hE] at h ⊢
      obtain ⟨h1, h2⟩ := h
      subst h2
      simp [h1]; omega
    · simp only [hE, if_false] at h ⊢
      by_cases hlt : E1 < E2
      · simp only [hlt, if_true] at h ⊢
        exact ih _ _ _ _ _ _ h
      · simp only [hlt, if_false] at h ⊢
        exact ih _ _ _ _ _ _ h

theorem clearLoop_mono (j : Nat) : ∀ (n : Nat) (w1 f1 w2 f2 : Nat) (E : Int)
    (r : Nat × Nat × Int) (k : Nat),
    clearLoop n w1 f1 w2 f2 E = some (r, k) →
      clearLoop (n + j) w1 f1 w2 f2 E = some (r, k + j) := by
  intro n
  induction n with
  | zero =>
    intro w1 f1 w2 f2 E r k h
    unfold clearLoop at h ⊢
    by_cases hc : f1 = 0 ∧ f2 = 0
    · simp [hc] at h ⊢
      obtain ⟨h1, h2⟩ := h
      subst h2
      simp [h1]
    · simp [hc] at h
  | succ n ih =>
    intro w1 f1 w2 f2 E r k h
    rw [show n + 1 + j = (n + j) + 1 by omega]
    unfold clearLoop at h ⊢
    by_cases hc : f1 = 0 ∧ f2 = 0
    · simp [hc] at h ⊢
      obtain ⟨h1, h2⟩ := h
      subst h2
      simp [h1]; omega
    · simp only [hc, if_false] at h ⊢
      exact ih _ _ _ _ _ _ _ h

theorem normLoop_mono (j : Nat) : ∀ (n : Nat) (w f : Nat) (E : Int)
    (r : Nat × Nat × Int) (k : Nat),
    normLoop n w f E = some (r, k) → normLoop (n + j) w f E = some (r, k + j) := by
  intro n
  induction n with
  | zero =>
    intro w f E r k h
    unfold normLoop at h ⊢
    by_cases hc : w > 1
    · simp [hc] at h
    · simp [hc] at h ⊢
      obtain ⟨h1, h2⟩ := h
      subst h2
      simp [h1]
  | succ n ih =>
    intro w f E r k h
    rw [show n + 1 + j = (n + j) + 1 by omega]
    unfold normLoop at h ⊢
    by_cases hc : w > 1
    · rw [if_pos hc] at h ⊢
      exact ih _ _ _ _ _ h
    · simp [hc] at h ⊢
      obtain ⟨h1, h2⟩ := h
      subst h2
      simp [h1]; omega

theorem denormLoop_mono (j : Nat) : ∀ (n : Nat) (w f : Nat) (E : Int)
    (r : Nat × Nat × Int) (k : Nat),
    denormLoop n w f E = some (r, k) → denormLoop (n + j) w f E = some (r, k + j) := by
  intro n
  induction n with
  | zero =>
    intro w f E r k h
    unfold denormLoop at h ⊢
    by_cases hc : E ≠ DENORM_E
    · simp [hc] at h
    · simp [hc] at h ⊢
      obtain ⟨h1, h2⟩ := h
      subst h2
      simp [h1]
  | succ n ih =>
    intro w f E r k h
    rw [show n + 1 + j = (n + j) + 1 by omega]
    unfold denormLoop at h ⊢
    by_cases hc : E ≠ DENORM_E
    · rw [if_pos hc] at h ⊢
      exact ih _ _ _ _ _ h
    · simp [hc] at h ⊢
      obtain ⟨h1, h2⟩ := h
      subst h2
      simp [h1]; omega

theorem rangeLoop_mono (j : Nat) : ∀ (n : Nat) (w f : Nat) (E : Int)
    (r : Nat × Nat × Int) (k : Nat),
    rangeLoop n w f E = some (r, k) → rangeLoop (n + j) w f E = some (r, k + j) := by
  intro n
  induction n with
  | zero =>
    intro w f E r k h
    unfold rangeLoop at h ⊢
    by_cases hc : w ≠ 1
    · simp [hc] at h
    · simp [hc] at h ⊢
      obtain ⟨h1, h2⟩ := h
      subst h2
      simp [h1]
  | succ n ih =>
    intro w f E r k h
    rw [show n + 1 + j = (n + j) + 1 by omega]
    unfold rangeLoop at h ⊢
    by_cases hc : w ≠ 1
    · rw [if_pos hc] at h ⊢
      by_cases hgt : w > 1
      · simp only [hgt, if_true] at h ⊢
        exact ih _ _ _ _ _ h
      · simp only [hgt, if_false] at h ⊢
        exact ih _ _ _ _ _ h
    · simp [hc] at h ⊢
      obtain ⟨h1, h2⟩ := h
      subst h2
      simp [h1]; omega

theorem denormLeftLoop_mono (j : Nat) : ∀ (n : Nat) (w f : Nat) (E : Int)
    (r : Nat × Nat × Int) (k : Nat),
    denormLeftLoop n w f E = some (r, k) → denormLeftLoop (n + j) w f E = some (r, k + j) := by
  intro n
  induction n with
  | zero =>
    intro w f E r k h
    unfold denormLeftLoop at h ⊢
    by_cases hc : E ≠ DENORM_E
    · simp [hc] at h
    · simp [hc] at h ⊢
      obtain ⟨h1, h2⟩ := h
      subst h2
      simp [h1]
  | succ n ih =>
    intro w f E r k h
    rw [show n + 1 + j = (n + j) + 1 by omega]
    unfold denormLeftLoop at h ⊢
    by_cases hc : E ≠ DENORM_E
    · rw [if_pos hc] at h ⊢
      exact ih _ _ _ _ _ h
    · simp [hc] at h ⊢
      obtain ⟨h1, h2⟩ := h
      subst h2
      simp [h1]; omega

theorem decodeLoop_mono (j : Nat) : ∀ (n : Nat) (w f : Nat) (E : Int)
    (r : Nat × Nat × Int) (k : Nat),
    decodeLoop n w f E = some (r, k) → decodeLoop (n + j) w f E = some (r, k + j) := by
  intro n
  induction n with
  | zero =>
    intro w f E r k h
    unfold decodeLoop at h ⊢
    by_cases hc : E ≠ 0
    · simp [hc] at h
    · simp [hc] at h ⊢
      obtain ⟨h1, h2⟩ := h
      subst h2
      simp [h1]
  | succ n ih =>
    intro w f E r k h
    rw [show n + 1 + j = (n + j) + 1 by omega]
    unfold decodeLoop at h ⊢
    by_cases hc : E ≠ 0
    · rw [if_pos hc] at h ⊢
      by_cases hlt : E < 0
      · simp only [hlt, if_true] at h ⊢
        exact ih _ _ _ _ _ h
      · simp only [hlt, if_false] at h ⊢
        exact ih _ _ _ _ _ h
    · simp [hc] at h ⊢
      obtain ⟨h1, h2⟩ := h
      subst h2
      simp [h1]; omega

/-- A result of `float_to_base10` does not change when fuel is added. -/
theorem float_to_base10_mono (n j : Nat) (val1 val2 : Nat) (r : Nat × Nat × Int)
    (h : float_to_base10 n val1 val2 = some r) :
    float_to_base10 (n + j) val1 val2 = some r := by
  unfold float_to_base10 at h ⊢
  dsimp only at h ⊢
  split at h
  · simp at h
  · rename_i w1 f1 E1 k hA
    rw [alignLoop_mono j _ _ _ _ _ _ _ hA]
    dsimp only
    split at h
    · simp at h
    · rename_i r2 k2 hC
      rw [clearLoop_mono j _ _ _ _ _ _ _ _ hC]
      exact h

/-- A result of `base10_to_float` does not change when fuel is added. -/
theorem base10_to_float_mono (n j : Nat) (M : Nat) (E : Int) (S : Nat) (r : Nat)
    (h : base10_to_float n M E S = some r) :
    base10_to_float (n + j) M E S = some r := by
  unfold base10_to_float at h ⊢
  by_cases hM : M = 0
  · simpa [hM] using h
  · simp only [hM, if_false] at h ⊢
    split at h
    · simp at h
    · rename_i w f E2 k hN
      rw [normLoop_mono j _ _ _ _ _ _ hN]
      dsimp only at h ⊢
      by_cases h15 : BIAS + E2 ≥ 15
      · simpa [h15] using h
      · simp only [h15, if_false] at h ⊢
        by_cases h0 : BIAS + E2 ≤ 0
        · simp only [h0, if_true] at h ⊢
          cases hD : denormLoop k M 0 E with
          | none => simp [hD] at h
          | some x =>
            obtain ⟨⟨w3, f3, E3⟩, k3⟩ := x
            rw [denormLoop_mono j _ _ _ _ _ _ hD]
            simpa [hD] using h
        · simpa [h0] using h

/-- Replacing the `else` branch of a conditional by one that returns at least
as often keeps a result. -/
theorem ite_some_mono {α : Type} (c : Prop) [Decidable c] (a f g : Option α) (r : α)
    (hfg : f = some r → g = some r) (h : (if c then a else f) = some r) :
    (if c then a else g) = some r := by
  by_cases hc : c
  · rw [if_pos hc] at h ⊢; exact h
  · rw [if_neg hc] at h ⊢; exact hfg h

/-- A result of `mulMiniFP` does not change when fuel is added. -/
theorem mulMiniFP_mono (n j : Nat) (val1 val2 : Nat) (r : Nat)
    (h : mulMiniFP n val1 val2 = some r) : mulMiniFP (n + j) val1 val2 = some r := by
  unfold mulMiniFP at h ⊢
  dsimp only at h ⊢
  revert h
  iterate 5 refine ite_some_mono _ _ _ _ _ ?_
  intro h
  cases hF : float_to_base10 n val1 val2 with
  | none => rw [hF] at h; cases h
  | some x =>
    obtain ⟨M1, M2, E⟩ := x
    rw [float_to_base10_mono n j _ _ _ hF]
    rw [hF] at h
    exact base10_to_float_mono n j _ _ _ _ h

/-- A result of `addMiniFP` does not change when fuel is added. -/
theorem addMiniFP_mono (n j : Nat) (val1 val2 : Nat) (r : Nat)
    (h : addMiniFP n val1 val2 = some r) : addMiniFP (n + j) val1 val2 = some r := by
  unfold addMiniFP at h ⊢
  dsimp only at h ⊢
  revert h
  iterate 9 refine ite_some_mono _ _ _ _ _ ?_
  intro h
  cases hF : float_to_base10 n val1 val2 with
  | none => rw [hF] at h; cases h
  | some x =>
    obtain ⟨M1, M2, E⟩ := x
    rw [float_to_base10_mono n j _ _ _ hF]
    rw [hF] at h
    exact base10_to_float_mono n j _ _ _ _ h

/-- A result of `toMiniFP` does not change when fuel is added. -/
theorem toMiniFP_mono (n j : Nat) (number : Option Number_s) (r : Nat)
    (h : toMiniFP n number = some r) : toMiniFP (n + j) number = some r := by
  unfold toMiniFP at h ⊢
  cases number with
  | none => exact h
  | some x =>
    dsimp only at h ⊢
    revert h
    iterate 4 refine ite_some_mono _ _ _ _ _ ?_
    intro h
    cases hR : rangeLoop n (x.whole % U32) (x.fraction % U32) 0 with
    | none => rw [hR] at h; cases h
    | some y =>
      obtain ⟨⟨w, f, E⟩, k⟩ := y
      rw [rangeLoop_mono j _ _ _ _ _ _ hR]
      rw [hR] at h
      dsimp only at h ⊢
      by_cases h0 : BIAS + E ≤ 0
      · rw [if_pos h0] at h ⊢
        cases hD : denormLeftLoop k (x.whole % U32) (x.fraction % U32) 0 with
        | none => rw [hD] at h; cases h
        | some z =>
          obtain ⟨⟨w3, f3, E3⟩, k3⟩ := z
          rw [denormLeftLoop_mono j _ _ _ _ _ _ hD]
          rw [hD] at h
          exact h
      · rw [if_neg h0] at h ⊢
        exact h

/-- A result of `toNumber` does not change when fuel is added. -/
theorem toNumber_mono (n j : Nat) (number : Option Number_s) (value : Nat)
    (r : Int × Option Number_s)
    (h : toNumber n number value = some r) : toNumber (n + j) number value = some r := by
  unfold toNumber at h ⊢
  cases number with
  | none => exact h
  | some x =>
    dsimp only at h ⊢
    revert h
    iterate 2 refine ite_some_mono _ _ _ _ _ ?_
    intro h
    split at h
    · cases h
    · rename_i w f E k hD
      rw [decodeLoop_mono j _ _ _ _ _ _ hD]
      exact h

/-! ## The shifts as arithmetic on the 64-bit value `whole * 2^32 + frac` -/

/-- The right shift with its bit operations written as division and
remainder. -/
theorem shiftRight1_eq (w f : Nat) :
    shiftRight1 w f = (w / 2, (f / 2 + (w % 2) * 2147483648) % 4294967296) := by
  unfold shiftRight1 U32
  simp only [Nat.shiftLeft_eq, Nat.shiftRight_eq_div_pow, Nat.one_and_eq_mod_two]

/-- The expression `((1 << 31) & frac) >> 31` is bit 31 of `frac`. -/
theorem msb_eq (f : Nat) : ((1 <<< 31) &&& f) >>> 31 = f / 2147483648 % 2 := by
  have h := Nat.two_pow_and f 31
  rw [Nat.shiftLeft_eq, Nat.one_mul, h, Nat.shiftRight_eq_div_pow,
    Nat.mul_div_cancel_left _ (by norm_num : 0 < 2 ^ 31), Nat.testBit_to_div_mod]
  have e : (2 : Nat) ^ 31 = 2147483648 := by norm_num
  rw [e]
  by_cases hb : f / 2147483648 % 2 = 1
  · simp [hb]
  · have h0 : f / 2147483648 % 2 = 0 := by omega
    simp [h0]

/-- The left shift with its bit operations written as multiplication and
remainder. -/
theorem shiftLeft1_eq (w f : Nat) :
    shiftLeft1 w f = ((w * 2 % 4294967296 + f / 2147483648 % 2) % 4294967296,
      f * 2 % 4294967296) := by
  unfold shiftLeft1 U32
  rw [msb_eq]
  simp only [Nat.shiftLeft_eq, Nat.pow_one]

/-- On the pair that represents the 64-bit value `X` (whole part
`X / 2^32`, fraction `X % 2^32`) the right shift halves `X`. -/
theorem shiftRight1_fix (X : Nat) :
    shiftRight1 (X / 4294967296) (X % 4294967296)
      = (X / 2 / 4294967296, X / 2 % 4294967296) := by
  rw [shiftRight1_eq]
  refine Prod.ext ?_ ?_ <;> simp only <;> omega

/-- On the pair that represents `X` the left shift doubles `X`, as long as
the double fits 64 bits. -/
theorem shiftLeft1_fix (X : Nat) (hX : X * 2 < 18446744073709551616) :
    shiftLeft1 (X / 4294967296) (X % 4294967296)
      = (X * 2 / 4294967296, X * 2 % 4294967296) := by
  rw [shiftLeft1_eq]
  refine Prod.ext ?_ ?_ <;> simp only <;> omega

/-! ## The loops in closed form -/

/-- `alignLoop` towards a larger exponent: `d` right shifts divide the
represented value by `2^d` and use `d` units of fuel. -/
theorem alignLoop_right : ∀ (d n : Nat) (E1 : Int) (X : Nat), d ≤ n →
    alignLoop n E1 (E1 + d) (X / 4294967296) (X % 4294967296)
      = some ((X / 2 ^ d / 4294967296, X / 2 ^ d % 4294967296, E1 + d), n - d) := by
  intro d
  induction d with
  | zero =>
    intro n E1 X _
    unfold alignLoop
    simp
  | succ d ih =>
    intro n E1 X hn
    obtain ⟨m, rfl⟩ : ∃ m, n = m + 1 := ⟨n - 1, by omega⟩
    unfold alignLoop
    have hne : ¬ (E1 = E1 + ((d + 1 : Nat) : Int)) := by omega
    have hlt : E1 < E1 + ((d + 1 : Nat) : Int) := by omega
    rw [if_neg hne]
    dsimp only
    rw [if_pos hlt, shiftRight1_fix]
    have h := ih m (E1 + 1) (X / 2) (by omega)
    have e1 : E1 + ((d + 1 : Nat) : Int) = E1 + 1 + (d : Int) := by push_cast; ring
    have e2 : X / 2 / 2 ^ d = X / 2 ^ (d + 1) := by
      rw [Nat.div_div_eq_div_mul, pow_succ']
    have e3 : m + 1 - (d + 1) = m - d := by omega
    rw [e1, h, e2, e3]

/-- `alignLoop` towards a smaller exponent: `d` left shifts multiply the
represented value by `2^d`, which must fit 64 bits, and use `d` units of
fuel. -/
theorem alignLoop_left : ∀ (d n : Nat) (E2 : Int) (X : Nat), d ≤ n →
    X * 2 ^ d < 18446744073709551616 →
    alignLoop n (E2 + d) E2 (X / 4294967296) (X % 4294967296)
      = some ((X * 2 ^ d / 4294967296, X * 2 ^ d % 4294967296, E2), n - d) := by
  intro d
  induction d with
  | zero =>
    intro n E2 X _ _
    unfold alignLoop
    simp
  | succ d ih =>
    intro n E2 X hn hX
    obtain ⟨m, rfl⟩ : ∃ m, n = m + 1 := ⟨n - 1, by omega⟩
    unfold alignLoop
    have hne : ¬ (E2 + ((d + 1 : Nat) : Int) = E2) := by omega
    have hlt : ¬ (E2 + ((d + 1 : Nat) : Int) < E2) := by omega
    have e0 : X * 2 ^ (d + 1) = X * 2 * 2 ^ d := by rw [pow_succ']; ring
    have hpos : 1 ≤ 2 ^ d := Nat.one_le_two_pow
    have hX2 : X * 2 < 18446744073709551616 := by
      have : X * 2 * 1 ≤ X * 2 * 2 ^ d := Nat.mul_le_mul_left _ hpos
      omega
    rw [if_neg hne]
    dsimp only
    rw [if_neg hlt, shiftLeft1_fix X hX2]
    have h := ih m E2 (X * 2) (by omega) (by omega)
    have e1 : E2 + ((d + 1 : Nat) : Int) - 1 = E2 + (d : Int) := by push_cast; ring
    have e3 : m + 1 - (d + 1) = m - d := by omega
    rw [e1, h, e0, e3]

/-- `clearLoop` on two represented values whose fractions vanish after at
most `k` doublings: it returns after some `j ≤ k` iterations with the whole
parts of `X1 * 2^j` and `X2 * 2^j`, both multiples of `2^32`. -/
theorem clearLoop_spec : ∀ (k n : Nat) (X1 X2 : Nat) (E : Int), k ≤ n →
    X1 * 2 ^ k < 18446744073709551616 → X2 * 2 ^ k < 18446744073709551616 →
    4294967296 ∣ X1 * 2 ^ k → 4294967296 ∣ X2 * 2 ^ k →
    ∃ j, j ≤ k ∧
      clearLoop n (X1 / 4294967296) (X1 % 4294967296) (X2 / 4294967296) (X2 % 4294967296) E
        = some ((X1 * 2 ^ j / 4294967296, X2 * 2 ^ j / 4294967296, E - j), n - j) ∧
      4294967296 ∣ X1 * 2 ^ j ∧ 4294967296 ∣ X2 * 2 ^ j := by
  intro k
  induction k with
  | zero =>
    intro n X1 X2 E _ _ _ h1 h2
    refine ⟨0, le_refl _, ?_, h1, h2⟩
    unfold clearLoop
    have a1 : X1 % 4294967296 = 0 := by simpa using Nat.mod_eq_zero_of_dvd h1
    have a2 : X2 % 4294967296 = 0 := by simpa using Nat.mod_eq_zero_of_dvd h2
    simp [a1, a2]
  | succ k ih =>
    intro n X1 X2 E hn hX1 hX2 h1 h2
    by_cases hc : X1 % 4294967296 = 0 ∧ X2 % 4294967296 = 0
    · refine ⟨0, Nat.zero_le _, ?_, ?_, ?_⟩
      · unfold clearLoop
        simp [hc]
      · simpa using Nat.dvd_of_mod_eq_zero hc.1
      · simpa using Nat.dvd_of_mod_eq_zero hc.2
    · obtain ⟨m, rfl⟩ : ∃ m, n = m + 1 := ⟨n - 1, by omega⟩
      have e1 : X1 * 2 ^ (k + 1) = X1 * 2 * 2 ^ k := by rw [pow_succ']; ring
      have e2 : X2 * 2 ^ (k + 1) = X2 * 2 * 2 ^ k := by rw [pow_succ']; ring
      have hpos : 1 ≤ 2 ^ k := Nat.one_le_two_pow
      have b1 : X1 * 2 < 18446744073709551616 := by
        have : X1 * 2 * 1 ≤ X1 * 2 * 2 ^ k := Nat.mul_le_mul_left _ hpos
        omega
      have b2 : X2 * 2 < 18446744073709551616 := by
        have : X2 * 2 * 1 ≤ X2 * 2 * 2 ^ k := Nat.mul_le_mul_left _ hpos
        omega
      obtain ⟨j, hj, hrun, d1, d2⟩ := ih m (X1 * 2) (X2 * 2) (E - 1) (by omega)
        (by omega) (by omega) (by rw [← e1]; exact h1) (by rw [← e2]; exact h2)
      refine ⟨j + 1, by omega, ?_, ?_, ?_⟩
      · unfold clearLoop
        rw [if_neg hc]
        dsimp only
        rw [shiftLeft1_fix X1 b1, shiftLeft1_fix X2 b2]
        dsimp only
        rw [hrun]
        have e3 : X1 * 2 * 2 ^ j = X1 * 2 ^ (j + 1) := by rw [pow_succ']; ring
        have e4 : X2 * 2 * 2 ^ j = X2 * 2 ^ (j + 1) := by rw [pow_succ']; ring
        have e5 : E - 1 - (j : Int) = E - ((j + 1 : Nat) : Int) := by push_cast; ring
        have e6 : m - j = m + 1 - (j + 1) := by omega
        rw [e3, e4, e5, e6]
      · have e3 : X1 * 2 * 2 ^ j = X1 * 2 ^ (j + 1) := by rw [pow_succ']; ring
        rw [← e3]; exact d1
      · have e4 : X2 * 2 * 2 ^ j = X2 * 2 ^ (j + 1) := by rw [pow_succ']; ring
        rw [← e4]; exact d2

/-- `normLoop` on a represented value whose whole part is below `2^(k+1)`:
it returns after some `p ≤ k` right shifts with a whole part of at most 1
(exactly 1 when the whole part was not 0). -/
theorem normLoop_spec : ∀ (k n : Nat) (X : Nat) (E : Int), k ≤ n →
    X / 4294967296 < 2 ^ (k + 1) →
    ∃ p, p ≤ k ∧
      normLoop n (X / 4294967296) (X % 4294967296) E
        = some ((X / 2 ^ p / 4294967296, X / 2 ^ p % 4294967296, E + p), n - p) ∧
      X / 2 ^ p / 4294967296 ≤ 1 ∧ (1 ≤ X / 4294967296 → X / 2 ^ p / 4294967296 = 1) := by
  intro k
  induction k with
  | zero =>
    intro n X E _ hX
    refine ⟨0, le_refl _, ?_, ?_, ?_⟩
    · unfold normLoop
      have : ¬ (X / 4294967296 > 1) := by omega
      simp [this]
    · simp; omega
    · intro h; simp; omega
  | succ k ih =>
    intro n X E hn hX
    by_cases hc : X / 4294967296 > 1
    · obtain ⟨m, rfl⟩ : ∃ m, n = m + 1 := ⟨n - 1, by omega⟩
      have hX2 : X / 2 / 4294967296 < 2 ^ (k + 1) := by
        have : X / 2 / 4294967296 = X / 4294967296 / 2 := by omega
        rw [this]
        rw [pow_succ] at hX
        omega
      obtain ⟨p, hp, hrun, hle, hone⟩ := ih m (X / 2) (E + 1) (by omega) hX2
      have e2 : X / 2 / 2 ^ p = X / 2 ^ (p + 1) := by
        rw [Nat.div_div_eq_div_mul, pow_succ']
      refine ⟨p + 1, by omega, ?_, ?_, ?_⟩
      · unfold normLoop
        rw [if_pos hc]
        dsimp only
        rw [shiftRight1_fix, hrun, e2]
        have e5 : E + 1 + (p : Int) = E + ((p + 1 : Nat) : Int) := by push_cast; ring
        have e6 : m - p = m + 1 - (p + 1) := by omega
        rw [e5, e6]
      · rw [← e2]; exact hle
      · intro _
        rw [← e2]
        exact hone (by omega)
    · refine ⟨0, Nat.zero_le _, ?_, ?_, ?_⟩
      · unfold normLoop
        simp [hc]
      · simp; omega
      · intro h; simp; omega

/-- `denormLoop` started `d` steps below the denormal exponent: `d` right
shifts divide the represented value by `2^d` and use `d` units of fuel. -/
theorem denormLoop_spec : ∀ (d n : Nat) (X : Nat) (E : Int), d ≤ n → E + d = -6 →
    denormLoop n (X / 4294967296) (X % 4294967296) E
      = some ((X / 2 ^ d / 4294967296, X / 2 ^ d % 4294967296, -6), n - d) := by
  intro d
  induction d with
  | zero =>
    intro n X E _ hE
    unfold denormLoop DENORM_E
    have : E = -6 := by simpa using hE
    simp [this]
  | succ d ih =>
    intro n X E hn hE
    obtain ⟨m, rfl⟩ : ∃ m, n = m + 1 := ⟨n - 1, by omega⟩
    unfold denormLoop
    have hne : E ≠ DENORM_E := by unfold DENORM_E; omega
    rw [if_pos hne]
    dsimp only
    rw [shiftRight1_fix]
    have h := ih m (X / 2) (E + 1) (by omega) (by push_cast at hE ⊢; omega)
    have e2 : X / 2 / 2 ^ d = X / 2 ^ (d + 1) := by
      rw [Nat.div_div_eq_div_mul, pow_succ']
    have e3 : m + 1 - (d + 1) = m - d := by omega
    rw [h, e2, e3]

/-! ## Fields of an encoded value -/

/-- Bitwise and commutes with division by 64. -/
theorem and_div_64 (a b : Nat) : (a &&& b) / 64 = a / 64 &&& b / 64 := by
  have e : ∀ x : Nat, x / 64 = x / 2 / 2 / 2 / 2 / 2 / 2 := by intro x; omega
  rw [e, e a, e b]
  simp only [Nat.and_div_two]

/-- The exponent field in arithmetic form. -/
theorem expField_eq (v : Nat) : expField v = v / 64 % 16 := by
  unfold expField
  rw [Nat.shiftRight_eq_div_pow]
  have h1 : (0xf <<< 6 : Nat) = 960 := by decide
  have h2 : (2 : Nat) ^ 6 = 64 := by norm_num
  rw [h1, h2, and_div_64]
  have h3 : (960 : Nat) / 64 = 2 ^ 4 - 1 := by norm_num
  rw [h3, Nat.and_pow_two_sub_one_eq_mod]

/-- The fraction field in arithmetic form. -/
theorem fracField_eq (v : Nat) : fracField v = v % 64 := by
  unfold fracField
  have h := Nat.and_pow_two_sub_one_eq_mod v 6
  simpa using h

/-- Source `is_negative` in arithmetic form: bit 10. -/
theorem is_negative_eq (v : Nat) : is_negative v = v / 1024 % 2 := by
  unfold is_negative
  rw [Nat.shiftLeft_eq, Nat.one_mul, Nat.and_two_pow, Nat.shiftRight_eq_div_pow,
    Nat.mul_div_cancel _ (by norm_num : 0 < 2 ^ 10), Nat.testBit_to_div_mod]
  have e : (2 : Nat) ^ 10 = 1024 := by norm_num
  rw [e]
  by_cases hb : v / 1024 % 2 = 1
  · simp [hb]
  · have h0 : v / 1024 % 2 = 0 := by omega
    simp [h0]

/-- Source `is_zero` in arithmetic form. -/
theorem is_zero_eq (v : Nat) : is_zero v = decide (v % 1024 = 0) := by
  unfold is_zero
  have h := Nat.and_pow_two_sub_one_eq_mod v 10
  have e : (2 : Nat) ^ 10 - 1 = 0x3ff := by norm_num
  rw [e] at h
  rw [h]
  by_cases hz : v % 1024 = 0 <;> simp [hz]

/-- Source `is_denorm` in terms of the exponent field. -/
theorem is_denorm_eq (v : Nat) : is_denorm v = decide (expField v = 0) := by
  unfold is_denorm expField
  generalize (v &&& (0xf <<< 6)) >>> 6 = e
  by_cases hz : e = 0 <;> simp [hz]

/-- Source `is_nan` in terms of the two fields. -/
theorem is_nan_eq (v : Nat) : is_nan v = decide (expField v = 15 ∧ fracField v ≠ 0) := by
  unfold is_nan expField fracField
  generalize (v &&& (0xf <<< 6)) >>> 6 = e
  generalize v &&& 0x3f = f
  by_cases h1 : e = 15 <;> by_cases h2 : f = 0 <;> simp [h1, h2]
  exact Nat.pos_of_ne_zero h2

/-- Source `is_infinity` as a proposition. -/
theorem is_infinity_eq (v : Nat) : is_infinity v = decide (v = 0x3c0 ∨ v = 0x7c0) := by
  unfold is_infinity POS_INFINITY NEG_INFINITY
  by_cases h1 : v = 0x3c0 <;> by_cases h2 : v = 0x7c0 <;> simp [h1, h2]

/-! ## `float_to_base10` and `base10_to_float` return -/

/-- Both loops of `float_to_base10` when the first operand has the smaller
exponent: mantissas below 128 placed at bit 26, exponents at most 13 apart. -/
theorem align_clear_right (fuel : Nat) (E1 E2 : Int) (m1 m2 d wa fa wb fb : Nat)
    (hwa : wa = m1 * 67108864 / 4294967296) (hfa : fa = m1 * 67108864 % 4294967296)
    (hwb : wb = m2 * 67108864 / 4294967296) (hfb : fb = m2 * 67108864 % 4294967296)
    (hm1 : m1 < 128) (hm2 : m2 < 128) (hd : d ≤ 13) (hE : E2 = E1 + d) (hf : 32 ≤ fuel) :
    ∃ w1 f1 k M1 M2 E k2,
      alignLoop fuel E1 E2 wa fa = some ((w1, f1, E2), k) ∧
      clearLoop k w1 f1 wb fb E2 = some ((M1, M2, E), k2) ∧ E1 - 6 ≤ E ∧ E ≤ E2 := by
  subst hE hwa hfa hwb hfb
  have hA := alignLoop_right d fuel E1 (m1 * 67108864) (by omega)
  have hC : ∃ j : Nat, j ≤ 6 + d ∧
      clearLoop (fuel - d) (m1 * 67108864 / 2 ^ d / 4294967296)
        (m1 * 67108864 / 2 ^ d % 4294967296)
        (m2 * 67108864 / 4294967296) (m2 * 67108864 % 4294967296) (E1 + d)
        = some ((m1 * 67108864 / 2 ^ d * 2 ^ j / 4294967296,
            m2 * 67108864 * 2 ^ j / 4294967296, E1 + d - j), fuel - d - j) ∧
      4294967296 ∣ m1 * 67108864 / 2 ^ d * 2 ^ j ∧ 4294967296 ∣ m2 * 67108864 * 2 ^ j := by
    apply clearLoop_spec (6 + d) (fuel - d) (m1 * 67108864 / 2 ^ d) (m2 * 67108864) (E1 + d)
    · omega
    · interval_cases d <;> omega
    · interval_cases d <;> omega
    · interval_cases d <;> omega
    · interval_cases d <;> omega
  obtain ⟨j, hj, hrun, _, _⟩ := hC
  exact ⟨_, _, _, _, _, _, _, hA, hrun, by omega, by omega⟩

/-- Both loops of `float_to_base10` when the first operand has the larger
exponent. -/
theorem align_clear_left (fuel : Nat) (E1 E2 : Int) (m1 m2 d wa fa wb fb : Nat)
    (hwa : wa = m1 * 67108864 / 4294967296) (hfa : fa = m1 * 67108864 % 4294967296)
    (hwb : wb = m2 * 67108864 / 4294967296) (hfb : fb = m2 * 67108864 % 4294967296)
    (hm1 : m1 < 128) (hm2 : m2 < 128) (hd : d ≤ 13) (hE : E1 = E2 + d) (hf : 32 ≤ fuel) :
    ∃ w1 f1 k M1 M2 E k2,
      alignLoop fuel E1 E2 wa fa = some ((w1, f1, E2), k) ∧
      clearLoop k w1 f1 wb fb E2 = some ((M1, M2, E), k2) ∧ E2 - 6 ≤ E ∧ E ≤ E2 := by
  subst hE hwa hfa hwb hfb
  have hA := alignLoop_left d fuel E2 (m1 * 67108864) (by omega)
    (by interval_cases d <;> omega)
  have hC : ∃ j : Nat, j ≤ 6 ∧
      clearLoop (fuel - d) (m1 * 67108864 * 2 ^ d / 4294967296)
        (m1 * 67108864 * 2 ^ d % 4294967296)
        (m2 * 67108864 / 4294967296) (m2 * 67108864 % 4294967296) E2
        = some ((m1 * 67108864 * 2 ^ d * 2 ^ j / 4294967296,
            m2 * 67108864 * 2 ^ j / 4294967296, E2 - j), fuel - d - j) ∧
      4294967296 ∣ m1 * 67108864 * 2 ^ d * 2 ^ j ∧ 4294967296 ∣ m2 * 67108864 * 2 ^ j := by
    apply clearLoop_spec 6 (fuel - d) (m1 * 67108864 * 2 ^ d) (m2 * 67108864) E2
    · omega
    · interval_cases d <;> omega
    · omega
    · interval_cases d <;> omega
    · omega
  obtain ⟨j, hj, hrun, _, _⟩ := hC
  exact ⟨_, _, _, _, _, _, _, hA, hrun, by omega, by omega⟩

/-- For operands whose exponent field is not 15, `float_to_base10` returns
within 32 loop iterations, and the shared exponent is at least -12. -/
theorem float_to_base10_returns (fuel a b : Nat) (hf : 32 ≤ fuel)
    (ha : expField a ≠ 15) (hb : expField b ≠ 15) :
    ∃ M1 M2 E, float_to_base10 fuel a b = some (M1, M2, E) ∧ -12 ≤ E ∧ E ≤ 7 := by
  have ea : (a &&& (0xf <<< 6)) >>> 6 = a / 64 % 16 := expField_eq a
  have eb : (b &&& (0xf <<< 6)) >>> 6 = b / 64 % 16 := expField_eq b
  have fa : a &&& 0x3f = a % 64 := fracField_eq a
  have fb : b &&& 0x3f = b % 64 := fracField_eq b
  rw [expField_eq] at ha hb
  unfold float_to_base10
  simp only [is_denorm_eq, expField, ea, eb, fa, fb]
  simp only [Nat.shiftLeft_eq, U32, BIAS, DENORM_E]
  generalize hE1 : (if decide (a / 64 % 16 = 0) = true then (-6 : Int)
    else ((a / 64 % 16 : Nat) : Int) - 7) = E1
  generalize hE2 : (if decide (b / 64 % 16 = 0) = true then (-6 : Int)
    else ((b / 64 % 16 : Nat) : Int) - 7) = E2
  generalize hw1 : (if decide (a / 64 % 16 = 0) = true then (0 : Nat) else 1) = w1
  generalize hw2 : (if decide (b / 64 % 16 = 0) = true then (0 : Nat) else 1) = w2
  have bE1 : -6 ≤ E1 ∧ E1 ≤ 7 := by
    rw [← hE1]
    by_cases h0 : a / 64 % 16 = 0
    · rw [if_pos (by simp [h0])]; omega
    · rw [if_neg (by simp [h0])]; omega
  have bE2 : -6 ≤ E2 ∧ E2 ≤ 7 := by
    rw [← hE2]
    by_cases h0 : b / 64 % 16 = 0
    · rw [if_pos (by simp [h0])]; omega
    · rw [if_neg (by simp [h0])]; omega
  have bw1 : w1 ≤ 1 := by rw [← hw1]; split <;> omega
  have bw2 : w2 ≤ 1 := by rw [← hw2]; split <;> omega
  by_cases hle : E1 ≤ E2
  · obtain ⟨w, f, k, M1, M2, E, k2, hA, hC, h1, h2⟩ :=
      align_clear_right fuel E1 E2 (w1 * 64 + a % 64) (w2 * 64 + b % 64) (E2 - E1).toNat
        w1 (a % 64 * 2 ^ 26 % 4294967296) w2 (b % 64 * 2 ^ 26 % 4294967296)
        (by omega) (by omega) (by omega) (by omega)
        (by omega) (by omega) (by omega) (by omega) hf
    refine ⟨M1, M2, E, ?_, by omega, by omega⟩
    rw [hA]
    dsimp only
    rw [hC]
  · obtain ⟨w, f, k, M1, M2, E, k2, hA, hC, h1, h2⟩ :=
      align_clear_left fuel E1 E2 (w1 * 64 + a % 64) (w2 * 64 + b % 64) (E1 - E2).toNat
        w1 (a % 64 * 2 ^ 26 % 4294967296) w2 (b % 64 * 2 ^ 26 % 4294967296)
        (by omega) (by omega) (by omega) (by omega)
        (by omega) (by omega) (by omega) (by omega) hf
    refine ⟨M1, M2, E, ?_, by omega, by omega⟩
    rw [hA]
    dsimp only
    rw [hC]

/-- For a 32-bit mantissa and an exponent of at least -24, `base10_to_float`
returns within 35 loop iterations, and its result is an 11-bit value whose
sign bit is the sign argument. -/
theorem base10_to_float_returns (fuel M : Nat) (E : Int) (S : Nat) (hf : 35 ≤ fuel)
    (hM : M < 4294967296) (hE : -24 ≤ E) (hS : S = 0 ∨ S = 0x400) :
    ∃ r : Nat, base10_to_float fuel M E S = some r ∧ r < S + 1024 ∧ S ≤ r := by
  unfold base10_to_float
  by_cases hM0 : M = 0
  · rw [if_pos hM0]
    refine ⟨_, rfl, ?_, ?_⟩ <;> rcases hS with h | h <;> subst h <;> decide
  · rw [if_neg hM0]
    obtain ⟨p, hp, hrun, _, _⟩ := normLoop_spec 31 fuel (M * 4294967296) E (by omega)
      (by rw [Nat.mul_div_cancel _ (by norm_num)]; norm_num; exact hM)
    rw [Nat.mul_div_cancel _ (by norm_num : 0 < 4294967296), Nat.mul_mod_left] at hrun
    rw [hrun]
    dsimp only
    unfold BIAS
    by_cases h15 : (7 : Int) + (E + p) ≥ 15
    · rw [if_pos h15]
      refine ⟨_, rfl, ?_, ?_⟩ <;> rcases hS with h | h <;> subst h <;> decide
    · rw [if_neg h15]
      by_cases h0 : (7 : Int) + (E + p) ≤ 0
      · rw [if_pos h0]
        have hd := denormLoop_spec (-6 - E).toNat (fuel - p) (M * 4294967296) E
          (by omega) (by omega)
        rw [Nat.mul_div_cancel _ (by norm_num : 0 < 4294967296), Nat.mul_mod_left] at hd
        rw [hd]
        dsimp only
        refine ⟨_, rfl, ?_, ?_⟩
        · have : M * 4294967296 / 2 ^ (-6 - E).toNat % 4294967296 < 4294967296 :=
            Nat.mod_lt _ (by norm_num)
          simp only [Nat.shiftLeft_eq, Nat.shiftRight_eq_div_pow, minifp_s]
          omega
        · omega
      · rw [if_neg h0]
        dsimp only
        refine ⟨_, rfl, ?_, ?_⟩
        · have : M * 4294967296 / 2 ^ p % 4294967296 < 4294967296 :=
            Nat.mod_lt _ (by norm_num)
          simp only [Nat.shiftLeft_eq, Nat.shiftRight_eq_div_pow, minifp_s]
          omega
        · omega

/-- XOR of two bits. -/
theorem xor_bit (x y : Nat) (hx : x ≤ 1) (hy : y ≤ 1) :
    x ^^^ y = if x = y then 0 else 1 := by
  interval_cases x <;> interval_cases y <;> rfl

/-! ## Facts about single encoded values, by evaluation -/

/-- What `allBelow` checks. -/
theorem allBelow_spec (p : Nat → Bool) :
    ∀ n, allBelow p n = true → ∀ v, v < n → p v = true := by
  intro n
  induction n with
  | zero => intro _ v hv; omega
  | succ n ih =>
    intro h v hv
    unfold allBelow at h
    rw [Bool.and_eq_true] at h
    by_cases e : v = n
    · rw [e]; exact h.1
    · exact ih h.2 v (by omega)

/-- A value whose exponent field is not 15 is not a NaN. -/
theorem finite_not_nan (v : Nat) (h : expField v ≠ 15) : is_nan v = false := by
  rw [is_nan_eq]; simp [h]

/-- A value whose exponent field is not 15 is not an Infinity. -/
theorem finite_not_infinity (v : Nat) (h : expField v ≠ 15) : is_infinity v = false := by
  rw [is_infinity_eq]
  simp only [decide_eq_false_iff_not]
  rintro (h1 | h1) <;> subst h1 <;> exact h (by decide)

/-- For a finite value `toNumber` overwrites the whole and fraction parts, so
the result does not depend on what they were. -/
theorem toNumber_init_indep (fuel v w fr : Nat) (h : expField v ≠ 15) :
    toNumber fuel (some ⟨false, false, false, w, fr⟩) v
      = toNumber fuel (some ⟨false, false, false, 0, 0⟩) v := by
  unfold toNumber
  simp only [finite_not_nan v h, finite_not_infinity v h, Bool.false_eq_true, if_false]
  by_cases hneg : is_negative v ≠ 0
  · simp only [if_pos hneg]
  · simp only [if_neg hneg]

/-- The round trip of a finite value does not depend on the initial whole and
fraction parts of the struct. -/
theorem roundTrip_init_indep (fuel v w fr : Nat) (h : expField v ≠ 15) :
    roundTrip fuel ⟨false, false, false, w, fr⟩ v
      = roundTrip fuel ⟨false, false, false, 0, 0⟩ v := by
  unfold roundTrip
  rw [toNumber_init_indep fuel v w fr h]

/-- A result of `roundTrip` does not change when fuel is added. -/
theorem roundTrip_mono (n j : Nat) (number : Number_s) (v r : Nat)
    (h : roundTrip n number v = some r) : roundTrip (n + j) number v = some r := by
  unfold roundTrip at h ⊢
  cases hT : toNumber n (some number) v with
  | none => rw [hT] at h; cases h
  | some x =>
    obtain ⟨st, o⟩ := x
    rw [toNumber_mono n j _ _ _ hT]
    rw [hT] at h
    cases o with
    | none => cases h
    | some nn =>
      dsimp only at h ⊢
      by_cases hs : st = 0
      · rw [if_pos hs] at h ⊢
        exact toMiniFP_mono n j _ _ h
      · rw [if_neg hs] at h
        cases h

set_option maxRecDepth 100000 in
/-- Round trip of every finite pattern except `0x400`, by evaluation with 18
units of fuel. -/
theorem roundTrip_eval : ∀ v < 2048, expField v ≠ 15 → v ≠ 0x400 →
    roundTrip 18 ⟨false, false, false, 0, 0⟩ v = some v := by
  have h : allBelow (fun v => decide (expField v ≠ 15 → v ≠ 0x400 →
    roundTrip 18 ⟨false, false, false, 0, 0⟩ v = some v)) 2048 = true := by
    decide!
  intro v hv
  exact of_decide_eq_true (allBelow_spec _ _ h v hv)

/-- Decoding any finite encoded value other than negative zero into a struct
with clear flags and encoding the struct again returns the value. -/
theorem roundTrip_except_negative_zero (fuel v w fr : Nat) (hf : 18 ≤ fuel) (hv : v < 2048)
    (hfin : expField v ≠ 15) (hnz : v ≠ 0x400) :
    roundTrip fuel ⟨false, false, false, w, fr⟩ v = some v := by
  rw [roundTrip_init_indep fuel v w fr hfin]
  have h := roundTrip_mono 18 (fuel - 18) _ _ _ (roundTrip_eval v hv hfin hnz)
  rwa [show 18 + (fuel - 18) = fuel by omega] at h

/-- Decoding `0x400`, by evaluation. -/
theorem toNumber_negative_zero_eval :
    toNumber 6 (some ⟨false, false, false, 0, 0⟩) 0x400
      = some (0, some ⟨true, false, false, 0, 0⟩) := by
  decide!

set_option maxRecDepth 100000 in
/-- Adding `0x000` to every finite pattern, by evaluation. -/
theorem add_zero_eval : ∀ v < 2048, expField v ≠ 15 →
    addMiniFP 0 v 0x000 = some (if v = 0x400 then 0x000 else v) := by
  have h : allBelow (fun v => decide (expField v ≠ 15 →
    addMiniFP 0 v 0x000 = some (if v = 0x400 then 0x000 else v))) 2048 = true := by
    decide!
  intro v hv
  exact of_decide_eq_true (allBelow_spec _ _ h v hv)

set_option maxRecDepth 100000 in
/-- Adding its negation to every finite nonzero pattern, by evaluation with
6 units of fuel. -/
theorem add_inverse_eval : ∀ v < 2048, expField v ≠ 15 → v ≠ 0x000 → v ≠ 0x400 →
    addMiniFP 6 v (negateMiniFP v) = some 0x000 := by
  have h : allBelow (fun v => decide (expField v ≠ 15 → v ≠ 0x000 → v ≠ 0x400 →
    addMiniFP 6 v (negateMiniFP v) = some 0x000)) 2048 = true := by
    decide!
  intro v hv
  exact of_decide_eq_true (allBelow_spec _ _ h v hv)

set_option maxRecDepth 100000 in
/-- Multiplying every non-NaN pattern by `0x1C0`, by evaluation with 35 units
of fuel. -/
theorem mul_one_eval : ∀ v < 2048, ¬ (expField v = 15 ∧ fracField v ≠ 0) →
    mulMiniFP 35 v 0x1C0 = some v := by
  have h : allBelow (fun v => decide (¬ (expField v = 15 ∧ fracField v ≠ 0) →
    mulMiniFP 35 v 0x1C0 = some v)) 2048 = true := by
    decide!
  intro v hv
  exact of_decide_eq_true (allBelow_spec _ _ h v hv)

set_option maxRecDepth 100000 in
/-- Multiplying each Infinity with every non-NaN pattern, in both orders, by
evaluation. -/
theorem mul_infinity_eval : ∀ b < 2048, ¬ (expField b = 15 ∧ fracField b ≠ 0) →
    (mulMiniFP 0 0x3C0 b = some (if b = 0x000 ∨ b = 0x400 then 0x7FF
        else if is_negative b = 0 then 0x3C0 else 0x7C0) ∧
     mulMiniFP 0 b 0x3C0 = some (if b = 0x000 ∨ b = 0x400 then 0x7FF
        else if is_negative b = 0 then 0x3C0 else 0x7C0)) ∧
    (mulMiniFP 0 0x7C0 b = some (if b = 0x000 ∨ b = 0x400 then 0x7FF
        else if is_negative b = 0 then 0x7C0 else 0x3C0) ∧
     mulMiniFP 0 b 0x7C0 = some (if b = 0x000 ∨ b = 0x400 then 0x7FF
        else if is_negative b = 0 then 0x7C0 else 0x3C0)) := by
  have h : allBelow (fun b => decide (¬ (expField b = 15 ∧ fracField b ≠ 0) →
    (mulMiniFP 0 0x3C0 b = some (if b = 0x000 ∨ b = 0x400 then 0x7FF
        else if is_negative b = 0 then 0x3C0 else 0x7C0) ∧
     mulMiniFP 0 b 0x3C0 = some (if b = 0x000 ∨ b = 0x400 then 0x7FF
        else if is_negative b = 0 then 0x3C0 else 0x7C0)) ∧
    (mulMiniFP 0 0x7C0 b = some (if b = 0x000 ∨ b = 0x400 then 0x7FF
        else if is_negative b = 0 then 0x7C0 else 0x3C0) ∧
     mulMiniFP 0 b 0x7C0 = some (if b = 0x000 ∨ b = 0x400 then 0x7FF
        else if is_negative b = 0 then 0x7C0 else 0x3C0)))) 2048 = true := by
    decide!
  intro b hv
  exact of_decide_eq_true (allBelow_spec _ _ h b hv)

set_option maxRecDepth 100000 in
/-- Adding each Infinity and every non-NaN pattern, in both orders, by
evaluation. -/
theorem add_infinity_eval : ∀ b < 2048, ¬ (expField b = 15 ∧ fracField b ≠ 0) →
    (addMiniFP 0 0x3C0 b = some (if b = 0x7C0 then 0x7FF else 0x3C0) ∧
     addMiniFP 0 b 0x3C0 = some (if b = 0x7C0 then 0x7FF else 0x3C0)) ∧
    (addMiniFP 0 0x7C0 b = some (if b = 0x3C0 then 0x7FF else 0x7C0) ∧
     addMiniFP 0 b 0x7C0 = some (if b = 0x3C0 then 0x7FF else 0x7C0)) := by
  have h : allBelow (fun b => decide (¬ (expField b = 15 ∧ fracField b ≠ 0) →
    (addMiniFP 0 0x3C0 b = some (if b = 0x7C0 then 0x7FF else 0x3C0) ∧
     addMiniFP 0 b 0x3C0 = some (if b = 0x7C0 then 0x7FF else 0x3C0)) ∧
    (addMiniFP 0 0x7C0 b = some (if b = 0x3C0 then 0x7FF else 0x7C0) ∧
     addMiniFP 0 b 0x7C0 = some (if b = 0x3C0 then 0x7FF else 0x7C0)))) 2048 = true := by
    decide!
  intro b hv
  exact of_decide_eq_true (allBelow_spec _ _ h b hv)

/-- A NaN is neither Infinity constant. -/
theorem nan_not_infinity (n : Nat) (h : is_nan n = true) :
    n ≠ POS_INFINITY ∧ n ≠ NEG_INFINITY := by
  constructor <;> intro e <;> subst e <;> exact absurd h (by decide)

/-- Exponent field 15 and a nonzero fraction field make a NaN. -/
theorem nan_of_fields (n : Nat) (he : expField n = 15) (hf : fracField n ≠ 0) :
    is_nan n = true := by
  rw [is_nan_eq]; simp [he, hf]

/-- An 11-bit value other than `0x000` and `0x400` is not a zero. -/
theorem not_zero_of_ne (v : Nat) (hv : v < 2048) (h0 : v ≠ 0x000) (h1 : v ≠ 0x400) :
    is_zero v = false := by
  rw [is_zero_eq]
  simp only [decide_eq_false_iff_not]
  omega

/-! ## The claims -/

/-- Claim C1, at the failing input.  Round trip at negative zero: decoding
`0x400` into a struct whose flags are clear leaves the sign flag set and the
whole and fraction parts 0; encoding that struct returns positive zero
`0x000`, not `0x400`. -/
theorem roundTrip_negative_zero (fuel w fr : Nat) (hf : 6 ≤ fuel) :
    toNumber fuel (some ⟨false, false, false, w, fr⟩) 0x400
      = some (0, some ⟨true, false, false, 0, 0⟩) ∧
    toMiniFP fuel (some ⟨true, false, false, 0, 0⟩) = some 0x000 ∧
    roundTrip fuel ⟨false, false, false, w, fr⟩ 0x400 = some 0x000 := by
  have h1 : toNumber fuel (some ⟨false, false, false, w, fr⟩) 0x400
      = some (0, some ⟨true, false, false, 0, 0⟩) := by
    rw [toNumber_init_indep fuel 0x400 w fr (by decide)]
    have h := toNumber_mono 6 (fuel - 6) _ _ _ toNumber_negative_zero_eval
    rwa [show 6 + (fuel - 6) = fuel by omega] at h
  have h2 : toMiniFP fuel (some ⟨true, false, false, 0, 0⟩) = some 0x000 := by
    have h := toMiniFP_mono 0 fuel (some ⟨true, false, false, 0, 0⟩) 0 (by decide)
    rwa [Nat.zero_add] at h
  refine ⟨h1, h2, ?_⟩
  unfold roundTrip
  rw [h1]
  exact h2

/-- Witness of `roundTrip_negative_zero` with 6 units of fuel and a zeroed
struct. -/
theorem roundTrip_negative_zero_witness :
    6 ≤ 6 ∧ roundTrip 6 ⟨false, false, false, 0, 0⟩ 0x400 = some 0x000 :=
  ⟨le_refl 6, (roundTrip_negative_zero 6 0 0 (le_refl 6)).2.2⟩

/-- Claim C2 as stated fails at negative zero: `0x400` is finite, and
`addMiniFP(0x400, 0x000)` is `0x000`, not `0x400`. -/
theorem add_zero_identity_fails_at_negative_zero :
    (0x400 < 2048 ∧ expField 0x400 ≠ 15) ∧ addMiniFP 40 0x400 0x000 = some 0x000 ∧
      addMiniFP 40 0x400 0x000 ≠ some 0x400 := by
  decide

/-- Claim C2, amended.  For every finite 11-bit value `v` (exponent field not
15) other than negative zero, `addMiniFP(v, 0x000)` is `v`; for negative zero
it is positive zero. -/
theorem add_zero_identity (fuel v : Nat) (hv : v < 2048) (hfin : expField v ≠ 15) :
    addMiniFP fuel v 0x000 = some (if v = 0x400 then 0x000 else v) := by
  have h := addMiniFP_mono 0 fuel v 0x000 _ (add_zero_eval v hv hfin)
  rwa [Nat.zero_add] at h

/-- Witness of `add_zero_identity` at `v = 0x1C0` (1.0). -/
theorem add_zero_identity_witness :
    (0x1C0 < 2048 ∧ expField 0x1C0 ≠ 15) ∧
      addMiniFP 40 0x1C0 0x000 = some (if 0x1C0 = 0x400 then 0x000 else 0x1C0) :=
  ⟨by decide, add_zero_identity 40 0x1C0 (by decide) (by decide)⟩

/-- Claim C3.  Additive inverse: for every finite nonzero 11-bit value `v`,
`addMiniFP(v, negateMiniFP(v))` and `subMiniFP(v, v)` both return positive
zero `0x000`; 6 loop iterations suffice. -/
theorem add_inverse (fuel v : Nat) (hf : 6 ≤ fuel) (hv : v < 2048) (hfin : expField v ≠ 15)
    (h0 : v ≠ 0x000) (h1 : v ≠ 0x400) :
    addMiniFP fuel v (negateMiniFP v) = some 0x000 ∧ subMiniFP fuel v v = some 0x000 := by
  have h := addMiniFP_mono 6 (fuel - 6) v (negateMiniFP v) _ (add_inverse_eval v hv hfin h0 h1)
  rw [show 6 + (fuel - 6) = fuel by omega] at h
  exact ⟨h, h⟩

/-- Witness of `add_inverse` at `v = 0x1C0` (1.0). -/
theorem add_inverse_witness :
    (6 ≤ 6 ∧ 0x1C0 < 2048 ∧ expField 0x1C0 ≠ 15 ∧ 0x1C0 ≠ 0x000 ∧ 0x1C0 ≠ 0x400) ∧
      addMiniFP 6 0x1C0 (negateMiniFP 0x1C0) = some 0x000 ∧
      subMiniFP 6 0x1C0 0x1C0 = some 0x000 :=
  ⟨by decide, add_inverse 6 0x1C0 (by decide) (by decide) (by decide) (by decide) (by decide)⟩

/-- Claim C4.  Negation is an involution that touches only the sign bit:
`negateMiniFP(negateMiniFP(v))` is `v`, bit 10 of `negateMiniFP(v)` is the
complement of bit 10 of `v`, and every other bit is unchanged.  This holds
for every value, NaN and Infinity patterns included. -/
theorem negate_involution_sign_only (v : Nat) :
    negateMiniFP (negateMiniFP v) = v ∧
    (negateMiniFP v).testBit 10 = !(v.testBit 10) ∧
    ∀ i, i ≠ 10 → (negateMiniFP v).testBit i = v.testBit i := by
  have e : (1 <<< 10 : Nat) = 2 ^ 10 := by decide
  unfold negateMiniFP
  rw [e]
  refine ⟨?_, ?_, ?_⟩
  · rw [Nat.xor_assoc, Nat.xor_self, Nat.xor_zero]
  · rw [Nat.testBit_xor, Nat.testBit_two_pow_self]
    cases v.testBit 10 <;> rfl
  · intro i hi
    rw [Nat.testBit_xor, Nat.testBit_two_pow_of_ne (Ne.symm hi)]
    cases v.testBit i <;> rfl

/-- Claim C5.  NaN propagation: when `n` has exponent field 15 and a nonzero
fraction field, then for every `x` (Infinity, zero, finite or NaN; 11-bit or not)
`mulMiniFP(n, x)`, `mulMiniFP(x, n)`, `addMiniFP(n, x)` and `addMiniFP(x, n)`
all return the canonical NaN `0x7FF`, without entering a loop. -/
theorem nan_propagation (fuel n x : Nat)
    (hexp : expField n = 15) (hfrac : fracField n ≠ 0) :
    mulMiniFP fuel n x = some 0x7FF ∧ mulMiniFP fuel x n = some 0x7FF ∧
    addMiniFP fuel n x = some 0x7FF ∧ addMiniFP fuel x n = some 0x7FF := by
  have hnan := nan_of_fields n hexp hfrac
  obtain ⟨hp, hq⟩ := nan_not_infinity n hnan
  refine ⟨?_, ?_, ?_, ?_⟩
  · unfold mulMiniFP
    simp only [hnan, Bool.true_or, if_true]
    rfl
  · unfold mulMiniFP
    simp only [hnan, Bool.or_true, if_true]
    rfl
  · unfold addMiniFP
    simp only [hnan, Bool.true_or, if_true, hp, hq, false_and, and_false, or_self, if_false]
    rfl
  · unfold addMiniFP
    simp only [hnan, Bool.or_true, if_true, hp, hq, false_and, and_false, or_self, if_false]
    rfl

/-- Witness of `nan_propagation` at `n = 0x7FF` and `x = 0x3C0`. -/
theorem nan_propagation_witness :
    (expField 0x7FF = 15 ∧ fracField 0x7FF ≠ 0) ∧
      mulMiniFP 0 0x7FF 0x3C0 = some 0x7FF ∧ mulMiniFP 0 0x3C0 0x7FF = some 0x7FF ∧
      addMiniFP 0 0x7FF 0x3C0 = some 0x7FF ∧ addMiniFP 0 0x3C0 0x7FF = some 0x7FF :=
  ⟨by decide, nan_propagation 0 0x7FF 0x3C0 (by decide) (by decide)⟩

/-- Claim C6.  Multiply sign rule: for all finite nonzero 11-bit values `a`
and `b`, `mulMiniFP(a, b)` returns (35 loop iterations per helper call
suffice) an 11-bit value whose sign bit is the XOR of the sign bits of `a`
and `b`, whichever of the normalized, denormal, underflow and overflow paths
produces it. -/
theorem mul_sign (fuel a b : Nat) (hf : 35 ≤ fuel) (ha : a < 2048) (hb : b < 2048)
    (hfa : expField a ≠ 15) (hfb : expField b ≠ 15)
    (ha0 : a ≠ 0x000) (ha1 : a ≠ 0x400) (hb0 : b ≠ 0x000) (hb1 : b ≠ 0x400) :
    ∃ r : Nat, mulMiniFP fuel a b = some r ∧ r < 2048 ∧
      is_negative r = is_negative a ^^^ is_negative b := by
  have na := finite_not_nan a hfa
  have nb := finite_not_nan b hfb
  have ia := finite_not_infinity a hfa
  have ib := finite_not_infinity b hfb
  have hza := not_zero_of_ne a ha ha0 ha1
  have hzb := not_zero_of_ne b hb hb0 hb1
  obtain ⟨M1, M2, E, hF, hE, _⟩ := float_to_base10_returns fuel a b (by omega) hfa hfb
  have sa : is_negative a ≤ 1 := by rw [is_negative_eq]; omega
  have sb : is_negative b ≤ 1 := by rw [is_negative_eq]; omega
  unfold mulMiniFP
  simp only [na, nb, ia, ib, hza, hzb, Bool.or_self, Bool.and_self, Bool.false_eq_true,
    if_false, hF]
  rw [xor_bit _ _ sa sb]
  by_cases hs : is_negative a = is_negative b
  · simp only [hs, if_true, ne_eq, not_true_eq_false, if_false]
    obtain ⟨r, hr, h1, h2⟩ := base10_to_float_returns fuel (M1 * M2 % U32) (E * 2) 0 hf
      (Nat.mod_lt _ (by decide)) (by omega) (Or.inl rfl)
    refine ⟨r, hr, by omega, ?_⟩
    rw [is_negative_eq]; omega
  · simp only [hs, if_false, ne_eq, one_ne_zero, not_false_eq_true, if_true]
    obtain ⟨r, hr, h1, h2⟩ := base10_to_float_returns fuel (M1 * M2 % U32) (E * 2) 0x400 hf
      (Nat.mod_lt _ (by decide)) (by omega) (Or.inr rfl)
    refine ⟨r, hr, by omega, ?_⟩
    rw [is_negative_eq]; omega

/-- Witness of `mul_sign` at `a = 0x1C0` (1.0) and `b = 0x5C0` (-1.0). -/
theorem mul_sign_witness :
    (35 ≤ 35 ∧ 0x1C0 < 2048 ∧ 0x5C0 < 2048 ∧ expField 0x1C0 ≠ 15 ∧ expField 0x5C0 ≠ 15) ∧
      ∃ r : Nat, mulMiniFP 35 0x1C0 0x5C0 = some r ∧ r < 2048 ∧
        is_negative r = is_negative 0x1C0 ^^^ is_negative 0x5C0 :=
  ⟨by decide, mul_sign 35 0x1C0 0x5C0 (by decide) (by decide) (by decide) (by decide)
    (by decide) (by decide) (by decide) (by decide) (by decide)⟩

/-- Claim C7.  Multiplicative identity: for every 11-bit value `v` that is
not a NaN (normalized, denormal, signed zero or signed Infinity),
`mulMiniFP(v, 0x1C0)` returns `v`; 35 loop iterations per helper call
suffice. -/
theorem mul_one_identity (fuel v : Nat) (hf : 35 ≤ fuel) (hv : v < 2048)
    (hn : ¬ (expField v = 15 ∧ fracField v ≠ 0)) :
    mulMiniFP fuel v 0x1C0 = some v := by
  have h := mulMiniFP_mono 35 (fuel - 35) v 0x1C0 _ (mul_one_eval v hv hn)
  rwa [show 35 + (fuel - 35) = fuel by omega] at h

/-- Witness of `mul_one_identity`: `mulMiniFP(0x1C0, 0x1C0)` is `0x1C0`. -/
theorem mul_one_identity_witness :
    (35 ≤ 35 ∧ 0x1C0 < 2048 ∧ ¬ (expField 0x1C0 = 15 ∧ fracField 0x1C0 ≠ 0)) ∧
      mulMiniFP 35 0x1C0 0x1C0 = some 0x1C0 :=
  ⟨by decide, mul_one_identity 35 0x1C0 (by decide) (by decide) (by decide)⟩

/-- Claim C8.  Multiply with Infinity: for non-NaN 11-bit values `a` and `b`
of which at least one is `0x3C0` or `0x7C0`, `mulMiniFP(a, b)` is the
canonical NaN `0x7FF` when the other operand is a signed zero, and otherwise
the Infinity whose sign bit is the XOR of the operands' sign bits. -/
theorem mul_infinity (fuel a b : Nat) (ha : a < 2048) (hb : b < 2048)
    (hna : ¬ (expField a = 15 ∧ fracField a ≠ 0))
    (hnb : ¬ (expField b = 15 ∧ fracField b ≠ 0))
    (hinf : (a = 0x3C0 ∨ a = 0x7C0) ∨ (b = 0x3C0 ∨ b = 0x7C0)) :
    mulMiniFP fuel a b = some
      (if (a = 0x000 ∨ a = 0x400) ∨ (b = 0x000 ∨ b = 0x400) then 0x7FF
       else if is_negative a ^^^ is_negative b = 0 then 0x3C0 else 0x7C0) := by
  have key : mulMiniFP 0 a b = some
      (if (a = 0x000 ∨ a = 0x400) ∨ (b = 0x000 ∨ b = 0x400) then 0x7FF
       else if is_negative a ^^^ is_negative b = 0 then 0x3C0 else 0x7C0) := by
    have sa : is_negative a ≤ 1 := by rw [is_negative_eq]; omega
    have sb : is_negative b ≤ 1 := by rw [is_negative_eq]; omega
    rcases hinf with (h | h) | (h | h)
    · subst h
      rw [(mul_infinity_eval b hb hnb).1.1]
      have e : is_negative 0x3C0 = 0 := by decide
      rw [e, Nat.zero_xor]
      simp
    · subst h
      rw [(mul_infinity_eval b hb hnb).2.1]
      have e : is_negative 0x7C0 = 1 := by decide
      rw [e, xor_bit 1 _ (le_refl 1) sb]
      by_cases hs : is_negative b = 0
      · have : ¬ (1 = is_negative b) := by omega
        simp [hs]
      · have : 1 = is_negative b := by omega
        simp [hs, ← this]
    · subst h
      rw [(mul_infinity_eval a ha hna).1.2]
      have e : is_negative 0x3C0 = 0 := by decide
      rw [e, Nat.xor_zero]
      simp
    · subst h
      rw [(mul_infinity_eval a ha hna).2.2]
      have e : is_negative 0x7C0 = 1 := by decide
      rw [e, xor_bit _ 1 sa (le_refl 1)]
      by_cases hs : is_negative a = 0
      · simp [hs]
      · have : is_negative a = 1 := by omega
        simp [this]
  have h := mulMiniFP_mono 0 fuel a b _ key
  rwa [Nat.zero_add] at h

/-- Witness of `mul_infinity`: `mulMiniFP(0x3C0, 0x000)` is `0x7FF`. -/
theorem mul_infinity_witness :
    (0x3C0 < 2048 ∧ 0x000 < 2048) ∧ mulMiniFP 0 0x3C0 0x000 = some 0x7FF :=
  ⟨by decide, by
    simpa using mul_infinity 0 0x3C0 0x000 (by decide) (by decide) (by decide) (by decide)
      (by decide)⟩

/-- Claim C9.  Add with Infinity: for non-NaN 11-bit values `a` and `b` of
which at least one is `0x3C0` or `0x7C0`, `addMiniFP(a, b)` is the canonical
NaN `0x7FF` when `a` and `b` are Infinities of opposite sign, and otherwise
the infinite operand. -/
theorem add_infinity (fuel a b : Nat) (ha : a < 2048) (hb : b < 2048)
    (hna : ¬ (expField a = 15 ∧ fracField a ≠ 0))
    (hnb : ¬ (expField b = 15 ∧ fracField b ≠ 0))
    (hinf : (a = 0x3C0 ∨ a = 0x7C0) ∨ (b = 0x3C0 ∨ b = 0x7C0)) :
    addMiniFP fuel a b = some
      (if (a = 0x3C0 ∧ b = 0x7C0) ∨ (a = 0x7C0 ∧ b = 0x3C0) then 0x7FF
       else if a = 0x3C0 ∨ a = 0x7C0 then a else b) := by
  have key : addMiniFP 0 a b = some
      (if (a = 0x3C0 ∧ b = 0x7C0) ∨ (a = 0x7C0 ∧ b = 0x3C0) then 0x7FF
       else if a = 0x3C0 ∨ a = 0x7C0 then a else b) := by
    rcases hinf with (h | h) | (h | h)
    · subst h
      rw [(add_infinity_eval b hb hnb).1.1]
      simp
    · subst h
      rw [(add_infinity_eval b hb hnb).2.1]
      simp
    · subst h
      rw [(add_infinity_eval a ha hna).1.2]
      by_cases h1 : a = 0x7C0
      · simp [h1]
      · by_cases h2 : a = 0x3C0
        · simp [h2]
        · simp [h1, h2]
    · subst h
      rw [(add_infinity_eval a ha hna).2.2]
      by_cases h1 : a = 0x7C0
      · simp [h1]
      · by_cases h2 : a = 0x3C0
        · simp [h2]
        · simp [h1, h2]
  have h := addMiniFP_mono 0 fuel a b _ key
  rwa [Nat.zero_add] at h

/-- Witness of `add_infinity`: `addMiniFP(0x3C0, 0x7C0)` is `0x7FF`. -/
theorem add_infinity_witness :
    (0x3C0 < 2048 ∧ 0x7C0 < 2048) ∧ addMiniFP 0 0x3C0 0x7C0 = some 0x7FF :=
  ⟨by decide, by
    simpa using add_infinity 0 0x3C0 0x7C0 (by decide) (by decide) (by decide) (by decide)
      (by decide)⟩

/-- Claim C10, at the failing input.  For a struct with the NaN and Infinity
flags clear and whole and fraction both 0, `toMiniFP` returns `0x000`
whatever the negative flag is: with the flag set the result is `0x000`, not
`0x400`. -/
theorem toMiniFP_zero_ignores_sign (fuel : Nat) (neg : Bool) :
    toMiniFP fuel (some ⟨neg, false, false, 0, 0⟩) = some 0x000 := by
  unfold toMiniFP
  simp

/-! ## Lemmas for the decoder, the aligner and the loop bounds -/

/-- No value equals its own negation: the two differ in bit 10. -/
theorem ne_negateMiniFP (v : Nat) : v ≠ negateMiniFP v := by
  intro h
  have e : (1 <<< 10 : Nat) = 2 ^ 10 := by decide
  have h2 : v.testBit 10 = (negateMiniFP v).testBit 10 := by rw [← h]
  unfold negateMiniFP at h2
  rw [e, Nat.testBit_xor, Nat.testBit_two_pow_self] at h2
  cases hb : v.testBit 10 <;> rw [hb] at h2 <;> simp at h2

/-- `decodeLoop` from a negative exponent: `d` right shifts divide the
represented value by `2^d` and use `d` units of fuel. -/
theorem decodeLoop_right : ∀ (d n : Nat) (E : Int) (X : Nat), d ≤ n → E + d = 0 →
    decodeLoop n (X / 4294967296) (X % 4294967296) E
      = some ((X / 2 ^ d / 4294967296, X / 2 ^ d % 4294967296, 0), n - d) := by
  intro d
  induction d with
  | zero =>
    intro n E X _ hE
    have : E = 0 := by simpa using hE
    unfold decodeLoop
    simp [this]
  | succ d ih =>
    intro n E X hn hE
    obtain ⟨m, rfl⟩ : ∃ m, n = m + 1 := ⟨n - 1, by omega⟩
    unfold decodeLoop
    have hne : E ≠ 0 := by omega
    have hlt : E < 0 := by omega
    rw [if_pos hne]
    dsimp only
    rw [if_pos hlt, shiftRight1_fix]
    have h := ih m (E + 1) (X / 2) (by omega) (by push_cast at hE ⊢; omega)
    have e2 : X / 2 / 2 ^ d = X / 2 ^ (d + 1) := by
      rw [Nat.div_div_eq_div_mul, pow_succ']
    have e3 : m + 1 - (d + 1) = m - d := by omega
    rw [h, e2, e3]

/-- `decodeLoop` from a positive exponent: `d` left shifts multiply the
represented value by `2^d`, which must fit 64 bits, and use `d` units of
fuel. -/
theorem decodeLoop_left : ∀ (d n : Nat) (E : Int) (X : Nat), d ≤ n → E = d →
    X * 2 ^ d < 18446744073709551616 →
    decodeLoop n (X / 4294967296) (X % 4294967296) E
      = some ((X * 2 ^ d / 4294967296, X * 2 ^ d % 4294967296, 0), n - d) := by
  intro d
  induction d with
  | zero =>
    intro n E X _ hE _
    have : E = 0 := by simpa using hE
    unfold decodeLoop
    simp [this]
  | succ d ih =>
    intro n E X hn hE hX
    obtain ⟨m, rfl⟩ : ∃ m, n = m + 1 := ⟨n - 1, by omega⟩
    unfold decodeLoop
    have hne : E ≠ 0 := by omega
    have hlt : ¬ E < 0 := by omega
    have e0 : X * 2 ^ (d + 1) = X * 2 * 2 ^ d := by rw [pow_succ']; ring
    have hpos : 1 ≤ 2 ^ d := Nat.one_le_two_pow
    have hX2 : X * 2 < 18446744073709551616 := by
      have : X * 2 * 1 ≤ X * 2 * 2 ^ d := Nat.mul_le_mul_left _ hpos
      omega
    rw [if_pos hne]
    dsimp only
    rw [if_neg hlt, shiftLeft1_fix X hX2]
    have h := ih m (E - 1) (X * 2) (by omega) (by push_cast at hE ⊢; omega) (by omega)
    have e3 : m + 1 - (d + 1) = m - d := by omega
    rw [h, e0, e3]

/-- The loop of `toNumber` on the fields `e ≤ 14` and `f < 64`: it returns
within 7 iterations with the pair that represents the magnitude times
`2^32`. -/
theorem decode_core (fuel e f : Nat) (hf : 7 ≤ fuel) (he : e ≤ 14) (hfr : f < 64) :
    ∃ k, fuel ≤ k + 7 ∧
      decodeLoop fuel (if (e : Int) = 0 then 0 else 1) (f * 2 ^ 26 % 4294967296)
        (if (e : Int) = 0 then 1 - 7 else (e : Int) - 7)
      = some (((if e = 0 then f else (64 + f) * 2 ^ (e - 1)) * 1048576 / 4294967296,
          (if e = 0 then f else (64 + f) * 2 ^ (e - 1)) * 1048576 % 4294967296, 0), k) := by
  by_cases h0 : e = 0
  · subst h0
    have h := decodeLoop_right 6 fuel (-6) (f * 67108864) (by omega) (by norm_num)
    have x1 : f * 67108864 / 4294967296 = 0 := by omega
    have x2 : f * 67108864 % 4294967296 = f * 2 ^ 26 % 4294967296 := by omega
    have x3 : f * 67108864 / 2 ^ 6 = f * 1048576 := by omega
    rw [x1, x2, x3] at h
    refine ⟨fuel - 6, by omega, ?_⟩
    simpa using h
  · have hi : ¬ ((e : Int) = 0) := by omega
    rw [if_neg hi, if_neg hi, if_neg h0]
    have x1 : 1 = (64 + f) * 67108864 / 4294967296 := by omega
    have x2 : f * 2 ^ 26 % 4294967296 = (64 + f) * 67108864 % 4294967296 := by omega
    rw [x2]
    nth_rewrite 1 [x1]
    by_cases h7 : e < 7
    · have h := decodeLoop_right (7 - e) fuel ((e : Int) - 7) ((64 + f) * 67108864)
        (by omega) (by omega)
      have x3 : (64 + f) * 67108864 / 2 ^ (7 - e) = (64 + f) * 2 ^ (e - 1) * 1048576 := by
        interval_cases e <;> omega
      rw [x3] at h
      exact ⟨fuel - (7 - e), by omega, h⟩
    · have h := decodeLoop_left (e - 7) fuel ((e : Int) - 7) ((64 + f) * 67108864)
        (by omega) (by omega) (by interval_cases e <;> omega)
      have x3 : (64 + f) * 67108864 * 2 ^ (e - 7) = (64 + f) * 2 ^ (e - 1) * 1048576 := by
        interval_cases e <;> omega
      rw [x3] at h
      exact ⟨fuel - (e - 7), by omega, h⟩

/-- For a value whose exponent field is not 15, `toNumber` returns 0 within 7
loop iterations; it keeps the Infinity and NaN flags, sets the negative flag
when the sign bit is set and keeps it otherwise, and writes the magnitude
times `2^32` as the whole and fraction parts. -/
theorem toNumber_finite (fuel v : Nat) (n0 : Number_s) (hf : 7 ≤ fuel)
    (hfin : expField v ≠ 15) :
    toNumber fuel (some n0) v = some (0, some
      { is_negative := n0.is_negative || decide (is_negative v ≠ 0)
        is_infinity := n0.is_infinity
        is_nan := n0.is_nan
        whole := mag12 v * 1048576 / 4294967296
        fraction := mag12 v * 1048576 % 4294967296 }) := by
  have ea : (v &&& (0xF <<< 6)) >>> 6 = v / 64 % 16 := expField_eq v
  have fa : v &&& 0x3F = v % 64 := fracField_eq v
  have hfin2 := hfin
  rw [expField_eq] at hfin2
  obtain ⟨k, _, hk⟩ := decode_core fuel (v / 64 % 16) (v % 64) hf (by omega) (by omega)
  unfold toNumber
  simp only [finite_not_nan v hfin, finite_not_infinity v hfin, Bool.false_eq_true, if_false,
    ea, fa]
  simp only [Nat.shiftLeft_eq, U32, BIAS]
  rw [hk]
  simp only [mag12, expField_eq, fracField_eq]
  by_cases hneg : is_negative v ≠ 0
  · simp [hneg]
  · simp [hneg]

/-- The magnitude is `mag12` over `2^12`. -/
theorem absValue_eq (v : Nat) : absValue v = (mag12 v : ℚ) / 4096 := by
  unfold absValue mag12
  generalize expField v = e
  generalize fracField v = f
  by_cases h0 : e = 0
  · rw [if_pos h0, if_pos h0]
    rw [zpow_neg]
    norm_num
    ring
  · rw [if_neg h0, if_neg h0]
    obtain ⟨k, rfl⟩ : ∃ k, e = k + 1 := ⟨e - 1, by omega⟩
    have e1 : (((k + 1 : ℕ) : ℤ) - 7) = (k : ℤ) - 6 := by push_cast; ring
    rw [e1, zpow_sub₀ (by norm_num : (2 : ℚ) ≠ 0), zpow_natCast]
    simp only [Nat.add_sub_cancel]
    push_cast
    norm_num
    ring

/-- An 11-bit value with exponent field 15 is an Infinity or a NaN. -/
theorem special_of_exp15 (v : Nat) (hv : v < 2048) (h : expField v = 15) :
    is_infinity v = true ∨ is_nan v = true := by
  rw [is_infinity_eq, is_nan_eq]
  have e1 := expField_eq v
  have e2 := fracField_eq v
  by_cases hf : fracField v = 0
  · left
    simp only [decide_eq_true_eq]
    omega
  · right
    simp [h, hf]

/-- What `toNumber` does to a present struct, for every 11-bit value: it
returns 0 within 7 loop iterations; the negative flag is set when the sign bit
is set and kept otherwise; for an Infinity, and for a NaN, the matching flag is
set and the whole and fraction parts are kept; for any other value they are
the magnitude times `2^32`. -/
theorem toNumber_present (fuel v : Nat) (n0 : Number_s) (hf : 7 ≤ fuel) (hv : v < 2048) :
    ∃ n1, toNumber fuel (some n0) v = some (0, some n1) ∧
      n1.is_negative = (n0.is_negative || decide (is_negative v ≠ 0)) ∧
      (is_infinity v = true →
        n1.is_infinity = true ∧ n1.whole = n0.whole ∧ n1.fraction = n0.fraction) ∧
      (is_infinity v = false → is_nan v = true →
        n1.is_nan = true ∧ n1.whole = n0.whole ∧ n1.fraction = n0.fraction) ∧
      (expField v ≠ 15 →
        n1.whole = mag12 v * 1048576 / 4294967296 ∧
        n1.fraction = mag12 v * 1048576 % 4294967296) := by
  by_cases hfin : expField v ≠ 15
  · refine ⟨_, toNumber_finite fuel v n0 hf hfin, rfl, ?_, ?_, ?_⟩
    · intro h; rw [finite_not_infinity v hfin] at h; cases h
    · intro _ h; rw [finite_not_nan v hfin] at h; cases h
    · intro _; exact ⟨rfl, rfl⟩
  · have h15 : expField v = 15 := by omega
    by_cases hinf : is_infinity v = true
    · refine ⟨{ (if is_negative v ≠ 0 then { n0 with is_negative := true } else n0) with
          is_infinity := true }, ?_, ?_, ?_, ?_, ?_⟩
      · unfold toNumber
        simp only [hinf, if_true]
      · by_cases hneg : is_negative v ≠ 0
        · simp [hneg]
        · simp [hneg]
      · intro _
        by_cases hneg : is_negative v ≠ 0
        · simp [hneg]
        · simp [hneg]
      · intro h; rw [hinf] at h; cases h
      · intro h; exact absurd h15 h
    · have hnan : is_nan v = true := by
        rcases special_of_exp15 v hv h15 with h | h
        · exact absurd h hinf
        · exact h
      have hinf2 : is_infinity v = false := by
        cases hi : is_infinity v
        · rfl
        · exact absurd hi hinf
      refine ⟨{ (if is_negative v ≠ 0 then { n0 with is_negative := true } else n0) with
          is_nan := true }, ?_, ?_, ?_, ?_, ?_⟩
      · unfold toNumber
        simp only [hinf2, hnan, Bool.false_eq_true, if_false, if_true]
      · by_cases hneg : is_negative v ≠ 0
        · simp [hneg]
        · simp [hneg]
      · intro h; exact absurd h hinf
      · intro _ _
        by_cases hneg : is_negative v ≠ 0
        · simp [hneg]
        · simp [hneg]
      · intro h; exact absurd h15 h

/-- `clearLoop` stops at the first moment both fractions vanish: with the
hypotheses of `clearLoop_spec`, unless it stops at once one of the two whole
parts it returns is odd. -/
theorem clearLoop_odd : ∀ (k n : Nat) (X1 X2 : Nat) (E : Int), k ≤ n →
    X1 * 2 ^ k < 18446744073709551616 → X2 * 2 ^ k < 18446744073709551616 →
    4294967296 ∣ X1 * 2 ^ k → 4294967296 ∣ X2 * 2 ^ k →
    ∃ j, j ≤ k ∧
      clearLoop n (X1 / 4294967296) (X1 % 4294967296) (X2 / 4294967296) (X2 % 4294967296) E
        = some ((X1 * 2 ^ j / 4294967296, X2 * 2 ^ j / 4294967296, E - j), n - j) ∧
      4294967296 ∣ X1 * 2 ^ j ∧ 4294967296 ∣ X2 * 2 ^ j ∧
      (j = 0 ∨ X1 * 2 ^ j / 4294967296 % 2 = 1 ∨ X2 * 2 ^ j / 4294967296 % 2 = 1) := by
  intro k
  induction k with
  | zero =>
    intro n X1 X2 E _ _ _ h1 h2
    refine ⟨0, le_refl _, ?_, h1, h2, Or.inl rfl⟩
    unfold clearLoop
    have a1 : X1 % 4294967296 = 0 := by simpa using Nat.mod_eq_zero_of_dvd h1
    have a2 : X2 % 4294967296 = 0 := by simpa using Nat.mod_eq_zero_of_dvd h2
    simp [a1, a2]
  | succ k ih =>
    intro n X1 X2 E hn hX1 hX2 h1 h2
    by_cases hc : X1 % 4294967296 = 0 ∧ X2 % 4294967296 = 0
    · refine ⟨0, Nat.zero_le _, ?_, ?_, ?_, Or.inl rfl⟩
      · unfold clearLoop
        simp [hc]
      · simpa using Nat.dvd_of_mod_eq_zero hc.1
      · simpa using Nat.dvd_of_mod_eq_zero hc.2
    · obtain ⟨m, rfl⟩ : ∃ m, n = m + 1 := ⟨n - 1, by omega⟩
      have e1 : X1 * 2 ^ (k + 1) = X1 * 2 * 2 ^ k := by rw [pow_succ']; ring
      have e2 : X2 * 2 ^ (k + 1) = X2 * 2 * 2 ^ k := by rw [pow_succ']; ring
      have hpos : 1 ≤ 2 ^ k := Nat.one_le_two_pow
      have b1 : X1 * 2 < 18446744073709551616 := by
        have : X1 * 2 * 1 ≤ X1 * 2 * 2 ^ k := Nat.mul_le_mul_left _ hpos
        omega
      have b2 : X2 * 2 < 18446744073709551616 := by
        have : X2 * 2 * 1 ≤ X2 * 2 * 2 ^ k := Nat.mul_le_mul_left _ hpos
        omega
      obtain ⟨j, hj, hrun, d1, d2, hodd⟩ := ih m (X1 * 2) (X2 * 2) (E - 1) (by omega)
        (by omega) (by omega) (by rw [← e1]; exact h1) (by rw [← e2]; exact h2)
      have e3 : X1 * 2 * 2 ^ j = X1 * 2 ^ (j + 1) := by rw [pow_succ']; ring
      have e4 : X2 * 2 * 2 ^ j = X2 * 2 ^ (j + 1) := by rw [pow_succ']; ring
      refine ⟨j + 1, by omega, ?_, ?_, ?_, Or.inr ?_⟩
      · unfold clearLoop
        rw [if_neg hc]
        dsimp only
        rw [shiftLeft1_fix X1 b1, shiftLeft1_fix X2 b2]
        dsimp only
        rw [hrun]
        have e5 : E - 1 - (j : Int) = E - ((j + 1 : Nat) : Int) := by push_cast; ring
        have e6 : m - j = m + 1 - (j + 1) := by omega
        rw [e3, e4, e5, e6]
      · rw [← e3]; exact d1
      · rw [← e4]; exact d2
      · rw [← e3, ← e4]
        rcases hodd with h0 | h | h
        · subst h0
          simp only [pow_zero, Nat.mul_one] at d1 d2 ⊢
          omega
        · exact Or.inl h
        · exact Or.inr h

/-- Both loops of `float_to_base10` when the first operand has the smaller
exponent, with what they return: after `d` right shifts and `j` joint left
shifts, `M1 * 2^(6+d) = m1 * 2^j` and `M2 * 2^6 = m2 * 2^j`, and one of `M1`
and `M2` is odd. -/
theorem align_clear_right_exact (fuel : Nat) (E1 E2 : Int) (m1 m2 d wa fa wb fb : Nat)
    (hwa : wa = m1 * 67108864 / 4294967296) (hfa : fa = m1 * 67108864 % 4294967296)
    (hwb : wb = m2 * 67108864 / 4294967296) (hfb : fb = m2 * 67108864 % 4294967296)
    (hm1 : m1 < 128) (hm2 : m2 < 128) (hd : d ≤ 13) (hE : E2 = E1 + d)
    (hf : 32 ≤ fuel) :
    ∃ w1 f1 k M1 M2 k2, ∃ j : Nat,
      alignLoop fuel E1 E2 wa fa = some ((w1, f1, E2), k) ∧
      clearLoop k w1 f1 wb fb E2 = some ((M1, M2, E2 - j), k2) ∧
      j ≤ 6 + d ∧ fuel ≤ k2 + 32 ∧
      M1 * 2 ^ (6 + d) = m1 * 2 ^ j ∧ M2 * 2 ^ 6 = m2 * 2 ^ j ∧
      (0 < m2 → M1 % 2 = 1 ∨ M2 % 2 = 1) := by
  subst hE hwa hfa hwb hfb
  have hA := alignLoop_right d fuel E1 (m1 * 67108864) (by omega)
  have hx : m1 * 67108864 / 2 ^ d * 2 ^ d = m1 * 67108864 := by
    interval_cases d <;> omega
  obtain ⟨j, hj, hrun, d1, d2, hodd⟩ :=
    clearLoop_odd (6 + d) (fuel - d) (m1 * 67108864 / 2 ^ d) (m2 * 67108864) (E1 + d)
      (by omega) (by interval_cases d <;> omega) (by interval_cases d <;> omega)
      (by interval_cases d <;> omega) (by interval_cases d <;> omega)
  have hM1 := Nat.div_mul_cancel d1
  have hM2 := Nat.div_mul_cancel d2
  have q1 : m1 * 67108864 / 2 ^ d * 2 ^ j / 4294967296 * 2 ^ (6 + d) = m1 * 2 ^ j := by
    apply Nat.eq_of_mul_eq_mul_right (by norm_num : 0 < 67108864)
    calc m1 * 67108864 / 2 ^ d * 2 ^ j / 4294967296 * 2 ^ (6 + d) * 67108864
        = (m1 * 67108864 / 2 ^ d * 2 ^ j / 4294967296 * 4294967296) * 2 ^ d := by
          rw [pow_add]; ring
      _ = (m1 * 67108864 / 2 ^ d * 2 ^ j) * 2 ^ d := by rw [hM1]
      _ = (m1 * 67108864 / 2 ^ d * 2 ^ d) * 2 ^ j := by ring
      _ = m1 * 67108864 * 2 ^ j := by rw [hx]
      _ = m1 * 2 ^ j * 67108864 := by ring
  have q2 : m2 * 67108864 * 2 ^ j / 4294967296 * 2 ^ 6 = m2 * 2 ^ j := by
    apply Nat.eq_of_mul_eq_mul_right (by norm_num : 0 < 67108864)
    calc m2 * 67108864 * 2 ^ j / 4294967296 * 2 ^ 6 * 67108864
        = m2 * 67108864 * 2 ^ j / 4294967296 * 4294967296 := by ring
      _ = m2 * 67108864 * 2 ^ j := by rw [hM2]
      _ = m2 * 2 ^ j * 67108864 := by ring
  refine ⟨_, _, _, _, _, _, j, hA, hrun, hj, by omega, q1, q2, ?_⟩
  intro hm0
  rcases hodd with h0 | h | h
  · right
    subst h0
    simp only [pow_zero, Nat.mul_one] at q2 ⊢
    omega
  · exact Or.inl h
  · exact Or.inr h

/-- Both loops of `float_to_base10` when the first operand has the larger
exponent: after `d` left shifts of the first operand and `j` joint left
shifts, `M1 * 2^6 = m1 * 2^d * 2^j` and `M2 * 2^6 = m2 * 2^j`, and one of `M1`
and `M2` is odd. -/
theorem align_clear_left_exact (fuel : Nat) (E1 E2 : Int) (m1 m2 d wa fa wb fb : Nat)
    (hwa : wa = m1 * 67108864 / 4294967296) (hfa : fa = m1 * 67108864 % 4294967296)
    (hwb : wb = m2 * 67108864 / 4294967296) (hfb : fb = m2 * 67108864 % 4294967296)
    (hm1 : m1 < 128) (hm2 : m2 < 128) (hd : d ≤ 13) (hE : E1 = E2 + d)
    (hf : 32 ≤ fuel) :
    ∃ w1 f1 k M1 M2 k2, ∃ j : Nat,
      alignLoop fuel E1 E2 wa fa = some ((w1, f1, E2), k) ∧
      clearLoop k w1 f1 wb fb E2 = some ((M1, M2, E2 - j), k2) ∧
      j ≤ 6 ∧ fuel ≤ k2 + 32 ∧
      M1 * 2 ^ 6 = m1 * 2 ^ d * 2 ^ j ∧ M2 * 2 ^ 6 = m2 * 2 ^ j ∧
      (0 < m2 → M1 % 2 = 1 ∨ M2 % 2 = 1) := by
  subst hE hwa hfa hwb hfb
  have hA := alignLoop_left d fuel E2 (m1 * 67108864) (by omega)
    (by interval_cases d <;> omega)
  obtain ⟨j, hj, hrun, d1, d2, hodd⟩ :=
    clearLoop_odd 6 (fuel - d) (m1 * 67108864 * 2 ^ d) (m2 * 67108864) E2
      (by omega) (by interval_cases d <;> omega) (by omega)
      (by interval_cases d <;> omega) (by omega)
  have hM1 := Nat.div_mul_cancel d1
  have hM2 := Nat.div_mul_cancel d2
  have q1 : m1 * 67108864 * 2 ^ d * 2 ^ j / 4294967296 * 2 ^ 6 = m1 * 2 ^ d * 2 ^ j := by
    apply Nat.eq_of_mul_eq_mul_right (by norm_num : 0 < 67108864)
    calc m1 * 67108864 * 2 ^ d * 2 ^ j / 4294967296 * 2 ^ 6 * 67108864
        = m1 * 67108864 * 2 ^ d * 2 ^ j / 4294967296 * 4294967296 := by ring
      _ = m1 * 67108864 * 2 ^ d * 2 ^ j := by rw [hM1]
      _ = m1 * 2 ^ d * 2 ^ j * 67108864 := by ring
  have q2 : m2 * 67108864 * 2 ^ j / 4294967296 * 2 ^ 6 = m2 * 2 ^ j := by
    apply Nat.eq_of_mul_eq_mul_right (by norm_num : 0 < 67108864)
    calc m2 * 67108864 * 2 ^ j / 4294967296 * 2 ^ 6 * 67108864
        = m2 * 67108864 * 2 ^ j / 4294967296 * 4294967296 := by ring
      _ = m2 * 67108864 * 2 ^ j := by rw [hM2]
      _ = m2 * 2 ^ j * 67108864 := by ring
  refine ⟨_, _, _, _, _, _, j, hA, hrun, hj, by omega, q1, q2, ?_⟩
  intro hm0
  rcases hodd with h0 | h | h
  · right
    subst h0
    simp only [pow_zero, Nat.mul_one] at q2 ⊢
    omega
  · exact Or.inl h
  · exact Or.inr h

/-- The start values of `float_to_base10` for one operand whose exponent
field is not 15: the exponent is `u - 6` with `u ≤ 13`, and the magnitude
times `2^12` is the 7-bit mantissa `w * 64 + f` times `2^u`. -/
theorem start_values (v : Nat) (h : expField v ≠ 15) :
    ∃ u w : Nat, u ≤ 13 ∧ w ≤ 1 ∧
      (if decide (v / 64 % 16 = 0) = true then (-6 : Int)
        else ((v / 64 % 16 : Nat) : Int) - 7) = (u : Int) - 6 ∧
      (if decide (v / 64 % 16 = 0) = true then (0 : Nat) else 1) = w ∧
      mag12 v = (w * 64 + v % 64) * 2 ^ u := by
  have e1 := expField_eq v
  have e2 := fracField_eq v
  unfold mag12
  rw [e1, e2]
  rw [e1] at h
  by_cases h0 : v / 64 % 16 = 0
  · refine ⟨0, 0, by omega, by omega, ?_, ?_, ?_⟩
    · rw [if_pos (by simp [h0])]; norm_num
    · rw [if_pos (by simp [h0])]
    · rw [if_pos h0]; omega
  · refine ⟨v / 64 % 16 - 1, 1, by omega, by omega, ?_, ?_, ?_⟩
    · rw [if_neg (by simp [h0])]; omega
    · rw [if_neg (by simp [h0])]
    · rw [if_neg h0]

/-- What `float_to_base10` returns for operands whose exponent fields are not
15, within 32 loop iterations: mantissas `M1`, `M2` and exponent `t - 12`
with `M1 * 2^t` and `M2 * 2^t` the two magnitudes times `2^12`; when the
second operand is not a zero, one of `M1` and `M2` is odd. -/
theorem float_to_base10_exact (fuel a b : Nat) (hf : 32 ≤ fuel)
    (ha : expField a ≠ 15) (hb : expField b ≠ 15) :
    ∃ M1 M2 t : Nat, float_to_base10 fuel a b = some (M1, M2, (t : Int) - 12) ∧
      t ≤ 19 ∧ M1 * 2 ^ t = mag12 a ∧ M2 * 2 ^ t = mag12 b ∧
      (mag12 b ≠ 0 → M1 % 2 = 1 ∨ M2 % 2 = 1) := by
  have ea : (a &&& (0xf <<< 6)) >>> 6 = a / 64 % 16 := expField_eq a
  have eb : (b &&& (0xf <<< 6)) >>> 6 = b / 64 % 16 := expField_eq b
  have fa : a &&& 0x3f = a % 64 := fracField_eq a
  have fb : b &&& 0x3f = b % 64 := fracField_eq b
  obtain ⟨u1, w1, hu1, hw1, hE1, hW1, hA⟩ := start_values a ha
  obtain ⟨u2, w2, hu2, hw2, hE2, hW2, hB⟩ := start_values b hb
  unfold float_to_base10
  simp only [is_denorm_eq, expField, ea, eb, fa, fb]
  simp only [Nat.shiftLeft_eq, U32, BIAS, DENORM_E]
  rw [hE1, hE2, hW1, hW2, hA, hB]
  have hpos : ∀ k : Nat, 0 < 2 ^ k := fun k => Nat.pow_pos (by norm_num)
  by_cases hle : u1 ≤ u2
  · obtain ⟨w, f, k, M1, M2, k2, j, hAl, hCl, hj, _, q1, q2, hodd⟩ :=
      align_clear_right_exact fuel ((u1 : Int) - 6) ((u2 : Int) - 6)
        (w1 * 64 + a % 64) (w2 * 64 + b % 64) (u2 - u1)
        w1 (a % 64 * 2 ^ 26 % 4294967296) w2 (b % 64 * 2 ^ 26 % 4294967296)
        (by omega) (by omega) (by omega) (by omega)
        (by omega) (by omega) (by omega) (by omega) hf
    have ht : u2 + 6 - j + j = 6 + (u2 - u1) + u1 := by omega
    have ht2 : u2 + 6 - j + j = 6 + u2 := by omega
    refine ⟨M1, M2, u2 + 6 - j, ?_, by omega, ?_, ?_, ?_⟩
    · rw [hAl]
      dsimp only
      rw [hCl]
      have : (u2 : Int) - 6 - (j : Int) = ((u2 + 6 - j : Nat) : Int) - 12 := by omega
      rw [this]
    · apply Nat.eq_of_mul_eq_mul_right (hpos j)
      calc M1 * 2 ^ (u2 + 6 - j) * 2 ^ j = M1 * 2 ^ (u2 + 6 - j + j) := by
            rw [pow_add]; ring
        _ = M1 * 2 ^ (6 + (u2 - u1)) * 2 ^ u1 := by rw [ht, pow_add]; ring
        _ = (w1 * 64 + a % 64) * 2 ^ j * 2 ^ u1 := by rw [q1]
        _ = (w1 * 64 + a % 64) * 2 ^ u1 * 2 ^ j := by ring
    · apply Nat.eq_of_mul_eq_mul_right (hpos j)
      calc M2 * 2 ^ (u2 + 6 - j) * 2 ^ j = M2 * 2 ^ (u2 + 6 - j + j) := by
            rw [pow_add]; ring
        _ = M2 * 2 ^ 6 * 2 ^ u2 := by rw [ht2, pow_add]; ring
        _ = (w2 * 64 + b % 64) * 2 ^ j * 2 ^ u2 := by rw [q2]
        _ = (w2 * 64 + b % 64) * 2 ^ u2 * 2 ^ j := by ring
    · intro hne
      apply hodd
      rcases Nat.eq_zero_or_pos (w2 * 64 + b % 64) with h | h
      · rw [h] at hne; simp at hne
      · exact h
  · obtain ⟨w, f, k, M1, M2, k2, j, hAl, hCl, hj, _, q1, q2, hodd⟩ :=
      align_clear_left_exact fuel ((u1 : Int) - 6) ((u2 : Int) - 6)
        (w1 * 64 + a % 64) (w2 * 64 + b % 64) (u1 - u2)
        w1 (a % 64 * 2 ^ 26 % 4294967296) w2 (b % 64 * 2 ^ 26 % 4294967296)
        (by omega) (by omega) (by omega) (by omega)
        (by omega) (by omega) (by omega) (by omega) hf
    have ht : u2 + 6 - j + j = 6 + u2 := by omega
    have hu : u1 - u2 + u2 = u1 := by omega
    refine ⟨M1, M2, u2 + 6 - j, ?_, by omega, ?_, ?_, ?_⟩
    · rw [hAl]
      dsimp only
      rw [hCl]
      have : (u2 : Int) - 6 - (j : Int) = ((u2 + 6 - j : Nat) : Int) - 12 := by omega
      rw [this]
    · apply Nat.eq_of_mul_eq_mul_right (hpos j)
      calc M1 * 2 ^ (u2 + 6 - j) * 2 ^ j = M1 * 2 ^ (u2 + 6 - j + j) := by
            rw [pow_add]; ring
        _ = M1 * 2 ^ 6 * 2 ^ u2 := by rw [ht, pow_add]; ring
        _ = (w1 * 64 + a % 64) * 2 ^ (u1 - u2) * 2 ^ j * 2 ^ u2 := by rw [q1]
        _ = (w1 * 64 + a % 64) * 2 ^ (u1 - u2 + u2) * 2 ^ j := by rw [pow_add]; ring
        _ = (w1 * 64 + a % 64) * 2 ^ u1 * 2 ^ j := by rw [hu]
    · apply Nat.eq_of_mul_eq_mul_right (hpos j)
      calc M2 * 2 ^ (u2 + 6 - j) * 2 ^ j = M2 * 2 ^ (u2 + 6 - j + j) := by
            rw [pow_add]; ring
        _ = M2 * 2 ^ 6 * 2 ^ u2 := by rw [ht, pow_add]; ring
        _ = (w2 * 64 + b % 64) * 2 ^ j * 2 ^ u2 := by rw [q2]
        _ = (w2 * 64 + b % 64) * 2 ^ u2 * 2 ^ j := by ring
    · intro hne
      apply hodd
      rcases Nat.eq_zero_or_pos (w2 * 64 + b % 64) with h | h
      · rw [h] at hne; simp at hne
      · exact h

/-- Two ways of writing a pair of numbers as odd-or-odd mantissas times a
common power of two agree. -/
theorem scaled_pair_unique (M1 M2 t N1 N2 s A B : Nat)
    (h1 : M1 * 2 ^ t = A) (h2 : M2 * 2 ^ t = B) (h3 : N1 * 2 ^ s = A) (h4 : N2 * 2 ^ s = B)
    (ho : M1 % 2 = 1 ∨ M2 % 2 = 1) (hn : N1 % 2 = 1 ∨ N2 % 2 = 1) :
    M1 = N1 ∧ M2 = N2 ∧ t = s := by
  have hpos : ∀ k : Nat, 0 < 2 ^ k := fun k => Nat.pow_pos (by norm_num)
  have key : ∀ (P1 P2 p Q1 Q2 q : Nat), P1 * 2 ^ p = Q1 * 2 ^ q → P2 * 2 ^ p = Q2 * 2 ^ q →
      p < q → ¬ (P1 % 2 = 1 ∨ P2 % 2 = 1) := by
    intro P1 P2 p Q1 Q2 q e1 e2 hlt
    obtain ⟨k, rfl⟩ : ∃ k, q = p + (k + 1) := ⟨q - p - 1, by omega⟩
    have f1 : P1 = 2 * (Q1 * 2 ^ k) := by
      apply Nat.eq_of_mul_eq_mul_right (hpos p)
      rw [e1, pow_add, pow_succ]; ring
    have f2 : P2 = 2 * (Q2 * 2 ^ k) := by
      apply Nat.eq_of_mul_eq_mul_right (hpos p)
      rw [e2, pow_add, pow_succ]; ring
    omega
  rcases Nat.lt_trichotomy t s with hlt | heq | hgt
  · exact absurd ho (key M1 M2 t N1 N2 s (by rw [h1, h3]) (by rw [h2, h4]) hlt)
  · subst heq
    refine ⟨?_, ?_, rfl⟩
    · exact Nat.eq_of_mul_eq_mul_right (hpos t) (by rw [h1, h3])
    · exact Nat.eq_of_mul_eq_mul_right (hpos t) (by rw [h2, h4])
  · exact absurd hn (key N1 N2 s M1 M2 t (by rw [h1, h3]) (by rw [h2, h4]) hgt)

/-- `float_to_base10` on swapped operands returns the swapped mantissas and
the same exponent, for operands that are finite and not zero. -/
theorem float_to_base10_swap (fuel a b : Nat) (hf : 32 ≤ fuel)
    (ha : expField a ≠ 15) (hb : expField b ≠ 15) (ha0 : mag12 a ≠ 0) (hb0 : mag12 b ≠ 0) :
    ∃ M1 M2 t : Nat, float_to_base10 fuel a b = some (M1, M2, (t : Int) - 12) ∧
      float_to_base10 fuel b a = some (M2, M1, (t : Int) - 12) ∧
      t ≤ 19 ∧ M1 * 2 ^ t = mag12 a ∧ M2 * 2 ^ t = mag12 b := by
  obtain ⟨M1, M2, t, h, ht, h1, h2, ho⟩ := float_to_base10_exact fuel a b hf ha hb
  obtain ⟨N1, N2, s, h', _, h3, h4, hn⟩ := float_to_base10_exact fuel b a hf hb ha
  have hu := scaled_pair_unique M1 M2 t N2 N1 s (mag12 a) (mag12 b) h1 h2 h4 h3 (ho hb0)
    (Or.symm (hn ha0))
  obtain ⟨e1, e2, e3⟩ := hu
  subst e1 e2 e3
  exact ⟨M1, M2, t, h, h', ht, h1, h2⟩

/-- A guarded return returns when the code after the guard does. -/
theorem ite_returns {α : Type} (c : Prop) [Decidable c] (x : α) (f : Option α)
    (h : ¬ c → ∃ r, f = some r) : ∃ r, (if c then some x else f) = some r := by
  by_cases hc : c
  · exact ⟨x, by rw [if_pos hc]⟩
  · rw [if_neg hc]; exact h hc

/-- An 11-bit value that is neither a NaN nor an Infinity has an exponent
field other than 15. -/
theorem finite_of_guards (v : Nat) (hv : v < 2048) (hn : is_nan v = false)
    (hi : is_infinity v = false) : expField v ≠ 15 := by
  intro h
  rcases special_of_exp15 v hv h with h1 | h1
  · rw [hi] at h1; cases h1
  · rw [hn] at h1; cases h1

/-- A value that is not a zero has a nonzero magnitude. -/
theorem mag12_ne_zero (v : Nat) (hz : is_zero v = false) : mag12 v ≠ 0 := by
  rw [is_zero_eq] at hz
  simp only [decide_eq_false_iff_not] at hz
  unfold mag12
  rw [expField_eq, fracField_eq]
  by_cases h0 : v / 64 % 16 = 0
  · rw [if_pos h0]; omega
  · rw [if_neg h0]
    exact Nat.mul_ne_zero (by omega) (Nat.pos_iff_ne_zero.mp (Nat.pow_pos (by norm_num)))

/-- The two halves of a false Boolean disjunction. -/
theorem or_false_parts (x y : Bool) (h : ¬ (x || y) = true) : x = false ∧ y = false := by
  cases x <;> cases y <;> simp at h ⊢

/-- A sign word chosen by a test is 0 or `0x400`. -/
theorem ite_sign (c : Prop) [Decidable c] :
    (if c then (0x400 : Nat) else 0x000) = 0 ∨ (if c then (0x400 : Nat) else 0x000) = 0x400 := by
  by_cases h : c
  · right; rw [if_pos h]
  · left; rw [if_neg h]

/-- For 11-bit operands `mulMiniFP` returns when each helper call may run 35
loop iterations. -/
theorem mulMiniFP_returns (fuel a b : Nat) (hf : 35 ≤ fuel) (ha : a < 2048) (hb : b < 2048) :
    ∃ r : Nat, mulMiniFP fuel a b = some r := by
  unfold mulMiniFP
  dsimp only
  refine ite_returns _ _ _ (fun h1 => ?_)
  refine ite_returns _ _ _ (fun _ => ?_)
  refine ite_returns _ _ _ (fun _ => ?_)
  refine ite_returns _ _ _ (fun h4 => ?_)
  refine ite_returns _ _ _ (fun _ => ?_)
  obtain ⟨na, nb⟩ := or_false_parts _ _ h1
  obtain ⟨ia, ib⟩ := or_false_parts _ _ h4
  obtain ⟨M1, M2, E, hF, hE, _⟩ := float_to_base10_returns fuel a b (by omega)
    (finite_of_guards a ha na ia) (finite_of_guards b hb nb ib)
  rw [hF]
  dsimp only
  obtain ⟨r, hr, _⟩ := base10_to_float_returns fuel (M1 * M2 % U32) (E * 2)
    (if (is_negative a ^^^ is_negative b) ≠ 0 then 0x400 else 0x000) hf
    (Nat.mod_lt _ (by decide)) (by omega) (ite_sign _)
  exact ⟨r, hr⟩

/-- For 11-bit operands `addMiniFP` returns when each helper call may run 35
loop iterations. -/
theorem addMiniFP_returns (fuel a b : Nat) (hf : 35 ≤ fuel) (ha : a < 2048) (hb : b < 2048) :
    ∃ r : Nat, addMiniFP fuel a b = some r := by
  unfold addMiniFP
  dsimp only
  refine ite_returns _ _ _ (fun _ => ?_)
  refine ite_returns _ _ _ (fun h2 => ?_)
  refine ite_returns _ _ _ (fun _ => ?_)
  refine ite_returns _ _ _ (fun _ => ?_)
  refine ite_returns _ _ _ (fun h5 => ?_)
  refine ite_returns _ _ _ (fun h6 => ?_)
  refine ite_returns _ _ _ (fun _ => ?_)
  refine ite_returns _ _ _ (fun _ => ?_)
  refine ite_returns _ _ _ (fun _ => ?_)
  obtain ⟨na, nb⟩ := or_false_parts _ _ h2
  have ia : is_infinity a = false := by
    rw [is_infinity_eq]
    simp only [decide_eq_false_iff_not]
    rintro (h | h)
    · exact h5 (Or.inl h)
    · exact h6 (Or.inl h)
  have ib : is_infinity b = false := by
    rw [is_infinity_eq]
    simp only [decide_eq_false_iff_not]
    rintro (h | h)
    · exact h5 (Or.inr h)
    · exact h6 (Or.inr h)
  obtain ⟨M1, M2, E, hF, hE, _⟩ := float_to_base10_returns fuel a b (by omega)
    (finite_of_guards a ha na ia) (finite_of_guards b hb nb ib)
  rw [hF]
  dsimp only
  obtain ⟨r, hr, _⟩ := base10_to_float_returns fuel
    ((wrapInt32 ((if (a &&& (1 <<< 10)) >>> 10 ≠ 0 then wrapInt32 (-(toInt32 M1)) else toInt32 M1)
      + (if (b &&& (1 <<< 10)) >>> 10 ≠ 0 then wrapInt32 (-(toInt32 M2))
          else toInt32 M2))).natAbs % U32) E
    (if wrapInt32 ((if (a &&& (1 <<< 10)) >>> 10 ≠ 0 then wrapInt32 (-(toInt32 M1))
        else toInt32 M1)
      + (if (b &&& (1 <<< 10)) >>> 10 ≠ 0 then wrapInt32 (-(toInt32 M2))
          else toInt32 M2)) < 0 then 0x400 else 0x000) hf
    (Nat.mod_lt _ (by decide)) (by omega) (ite_sign _)
  exact ⟨r, hr⟩

/-- Two guarded returns agree when the guards are equivalent, the returned
values agree under the guard, and the code after the guards agrees when the
guard is false. -/
theorem ite_swap_congr {α : Type} (c c' : Prop) [Decidable c] [Decidable c'] (x x' f g : α)
    (hc : c ↔ c') (hx : c → x = x') (h : ¬ c → f = g) :
    (if c then x else f) = (if c' then x' else g) := by
  by_cases h1 : c
  · rw [if_pos h1, if_pos (hc.mp h1)]; exact hx h1
  · rw [if_neg h1, if_neg (fun h2 => h1 (hc.mpr h2))]; exact h h1

/-- `mulMiniFP` on swapped 11-bit operands returns the same result. -/
theorem mulMiniFP_swap (fuel a b : Nat) (hf : 32 ≤ fuel) (ha : a < 2048) (hb : b < 2048) :
    mulMiniFP fuel a b = mulMiniFP fuel b a := by
  unfold mulMiniFP
  dsimp only
  rw [Nat.xor_comm (is_negative b) (is_negative a)]
  refine ite_swap_congr _ _ _ _ _ _ (by rw [Bool.or_comm]) (fun _ => rfl) (fun h1 => ?_)
  refine ite_swap_congr _ _ _ _ _ _ (by rw [Bool.or_comm]) (fun _ => rfl) (fun _ => ?_)
  refine ite_swap_congr _ _ _ _ _ _ (by rw [Bool.and_comm]) (fun _ => rfl) (fun _ => ?_)
  refine ite_swap_congr _ _ _ _ _ _ (by rw [Bool.or_comm]) (fun _ => rfl) (fun h4 => ?_)
  refine ite_swap_congr _ _ _ _ _ _ (by rw [Bool.or_comm]) (fun _ => rfl) (fun h5 => ?_)
  obtain ⟨na, nb⟩ := or_false_parts _ _ h1
  obtain ⟨ia, ib⟩ := or_false_parts _ _ h4
  obtain ⟨za, zb⟩ := or_false_parts _ _ h5
  obtain ⟨M1, M2, t, h, h', _⟩ := float_to_base10_swap fuel a b hf
    (finite_of_guards a ha na ia) (finite_of_guards b hb nb ib)
    (mag12_ne_zero a za) (mag12_ne_zero b zb)
  rw [h, h']
  dsimp only
  rw [Nat.mul_comm M2 M1]

/-- `addMiniFP` on swapped 11-bit operands returns the same result. -/
theorem addMiniFP_swap (fuel a b : Nat) (hf : 32 ≤ fuel) (ha : a < 2048) (hb : b < 2048) :
    addMiniFP fuel a b = addMiniFP fuel b a := by
  have hs : (if is_negative a ≠ 0 ∧ is_negative b ≠ 0 then (0x400 : minifp_s) else 0x000)
      = (if is_negative b ≠ 0 ∧ is_negative a ≠ 0 then (0x400 : minifp_s) else 0x000) :=
    ite_swap_congr _ _ _ _ _ _ And.comm (fun _ => rfl) (fun _ => rfl)
  unfold addMiniFP
  dsimp only
  rw [hs]
  refine ite_swap_congr _ _ _ _ _ _ (by tauto) (fun _ => rfl) (fun _ => ?_)
  refine ite_swap_congr _ _ _ _ _ _ (by rw [Bool.or_comm]) (fun _ => rfl) (fun h2 => ?_)
  refine ite_swap_congr _ _ _ _ _ _ (by rw [Bool.and_comm]) (fun _ => rfl) (fun _ => ?_)
  refine ite_swap_congr _ _ _ _ _ _
    ⟨fun h => absurd h (ne_negateMiniFP a), fun h => absurd h (ne_negateMiniFP b)⟩
    (fun _ => rfl) (fun _ => ?_)
  refine ite_swap_congr _ _ _ _ _ _ Or.comm (fun _ => rfl) (fun h5 => ?_)
  refine ite_swap_congr _ _ _ _ _ _ Or.comm (fun _ => rfl) (fun h6 => ?_)
  refine ite_swap_congr _ _ _ _ _ _ (by rw [Bool.and_comm]) (fun _ => rfl) (fun h7 => ?_)
  cases za : is_zero a <;> cases zb : is_zero b
  · simp only [Bool.false_eq_true, if_false]
    obtain ⟨na, nb⟩ := or_false_parts _ _ h2
    have ia : is_infinity a = false := by
      rw [is_infinity_eq]
      simp only [decide_eq_false_iff_not]
      rintro (h | h)
      · exact h5 (Or.inl h)
      · exact h6 (Or.inl h)
    have ib : is_infinity b = false := by
      rw [is_infinity_eq]
      simp only [decide_eq_false_iff_not]
      rintro (h | h)
      · exact h5 (Or.inr h)
      · exact h6 (Or.inr h)
    obtain ⟨M1, M2, t, h, h', _⟩ := float_to_base10_swap fuel a b hf
      (finite_of_guards a ha na ia) (finite_of_guards b hb nb ib)
      (mag12_ne_zero a za) (mag12_ne_zero b zb)
    rw [h, h']
    dsimp only
    rw [Int.add_comm]
  · simp only [Bool.false_eq_true, if_false, if_true]
  · simp only [Bool.false_eq_true, if_false, if_true]
  · rw [za, zb] at h7
    exact absurd rfl h7

/-- `rangeLoop` from a whole part of at least 1 and below `2^(k+1)` returns
within `k` iterations. -/
theorem rangeLoop_right_returns : ∀ (k n w f : Nat) (E : Int), 1 ≤ w → w < 2 ^ (k + 1) →
    k ≤ n → ∃ r m, rangeLoop n w f E = some (r, m) ∧ n ≤ m + k := by
  intro k
  induction k with
  | zero =>
    intro n w f E h1 h2 _
    have hw : w = 1 := by omega
    subst hw
    refine ⟨(1, f, E), n, ?_, by omega⟩
    unfold rangeLoop
    simp
  | succ k ih =>
    intro n w f E h1 h2 hn
    by_cases hw : w = 1
    · subst hw
      refine ⟨(1, f, E), n, ?_, by omega⟩
      unfold rangeLoop
      simp
    · obtain ⟨m, rfl⟩ : ∃ m, n = m + 1 := ⟨n - 1, by omega⟩
      have hgt : w > 1 := by omega
      have h2' : w / 2 < 2 ^ (k + 1) := by
        rw [pow_succ] at h2
        omega
      obtain ⟨r, m', hrun, hm⟩ := ih m (w / 2) ((f / 2 + (w % 2) * 2147483648) % 4294967296)
        (E + 1) (by omega) h2' (by omega)
      refine ⟨r, m', ?_, by omega⟩
      unfold rangeLoop
      rw [if_pos hw]
      dsimp only
      rw [if_pos hgt, shiftRight1_eq]
      exact hrun

/-- `rangeLoop` from a whole part of 0 and a nonzero 32-bit fraction whose
leading bit reaches the whole part after `k` doublings returns within `k`
iterations. -/
theorem rangeLoop_left_returns : ∀ (k n f : Nat) (E : Int), f < 4294967296 →
    4294967296 ≤ f * 2 ^ k → k ≤ n →
    ∃ r m, rangeLoop n 0 f E = some (r, m) ∧ n ≤ m + k := by
  intro k
  induction k with
  | zero =>
    intro n f E h1 h2 _
    simp only [pow_zero, Nat.mul_one] at h2
    omega
  | succ k ih =>
    intro n f E h1 h2 hn
    obtain ⟨m, rfl⟩ : ∃ m, n = m + 1 := ⟨n - 1, by omega⟩
    have e : f * 2 ^ (k + 1) = f * 2 * 2 ^ k := by rw [pow_succ']; ring
    rw [e] at h2
    have h01 : (0 : Nat) ≠ 1 := by decide
    have hgt : ¬ ((0 : Nat) > 1) := by decide
    by_cases hb : 2147483648 ≤ f
    · refine ⟨(1, f * 2 % 4294967296, E - 1), m, ?_, by omega⟩
      unfold rangeLoop
      rw [if_pos h01]
      dsimp only
      rw [if_neg hgt, shiftLeft1_eq]
      have w1 : (0 * 2 % 4294967296 + f / 2147483648 % 2) % 4294967296 = 1 := by omega
      dsimp only
      rw [w1]
      unfold rangeLoop
      simp
    · have w0 : (0 * 2 % 4294967296 + f / 2147483648 % 2) % 4294967296 = 0 := by omega
      have f2 : f * 2 % 4294967296 = f * 2 := by omega
      obtain ⟨r, m', hrun, hm⟩ := ih m (f * 2) (E - 1) (by omega) h2 (by omega)
      refine ⟨r, m', ?_, by omega⟩
      unfold rangeLoop
      rw [if_pos h01]
      dsimp only
      rw [if_neg hgt, shiftLeft1_eq]
      dsimp only
      rw [w0, f2]
      exact hrun

/-- `denormLeftLoop` started `d` steps above the denormal exponent returns
after `d` iterations. -/
theorem denormLeftLoop_returns : ∀ (d n w f : Nat) (E : Int), d ≤ n → E = (d : Int) - 6 →
    ∃ r, denormLeftLoop n w f E = some (r, n - d) := by
  intro d
  induction d with
  | zero =>
    intro n w f E _ hE
    have : E = -6 := by simpa using hE
    subst this
    refine ⟨(w, f, -6), ?_⟩
    unfold denormLeftLoop DENORM_E
    simp
  | succ d ih =>
    intro n w f E hn hE
    obtain ⟨m, rfl⟩ : ∃ m, n = m + 1 := ⟨n - 1, by omega⟩
    have hne : E ≠ DENORM_E := by unfold DENORM_E; omega
    obtain ⟨r, hr⟩ := ih m (shiftLeft1 w f).1 (shiftLeft1 w f).2 (E - 1) (by omega)
      (by push_cast at hE ⊢; omega)
    refine ⟨r, ?_⟩
    unfold denormLeftLoop
    rw [if_pos hne]
    dsimp only
    rw [hr]
    have e3 : m + 1 - (d + 1) = m - d := by omega
    rw [e3]

/-- For a struct whose fraction part is 32-bit, `toMiniFP` returns within 40
loop iterations. -/
theorem toMiniFP_returns (fuel : Nat) (n : Number_s) (hf : 40 ≤ fuel)
    (hfr : n.fraction < 4294967296) : ∃ r : Nat, toMiniFP fuel (some n) = some r := by
  unfold toMiniFP
  dsimp only
  refine ite_returns _ _ _ (fun _ => ?_)
  refine ite_returns _ _ _ (fun h2 => ?_)
  refine ite_returns _ _ _ (fun h3 => ?_)
  refine ite_returns _ _ _ (fun h4 => ?_)
  have hw : n.whole < 256 := by
    cases hneg : n.is_negative
    · rw [hneg] at h3
      by_contra hc
      exact h3 (by simp [Nat.le_of_not_lt hc])
    · rw [hneg] at h2
      by_contra hc
      exact h2 (by simp [Nat.le_of_not_lt hc])
  have ew : n.whole % U32 = n.whole := Nat.mod_eq_of_lt (by unfold U32; omega)
  have efr : n.fraction % U32 = n.fraction := Nat.mod_eq_of_lt hfr
  rw [ew, efr]
  have hrange : ∃ r m, rangeLoop fuel n.whole n.fraction 0 = some (r, m) ∧ fuel ≤ m + 32 := by
    by_cases h0 : n.whole = 0
    · rw [h0]
      have hfne : n.fraction ≠ 0 := fun h => h4 ⟨h0, h⟩
      apply rangeLoop_left_returns 32 fuel n.fraction 0 hfr _ (by omega)
      norm_num
      omega
    · obtain ⟨r, m, hr, hm⟩ := rangeLoop_right_returns 7 fuel n.whole n.fraction 0
        (by omega) (by norm_num; omega) (by omega)
      exact ⟨r, m, hr, by omega⟩
  obtain ⟨⟨w1, f1, E1⟩, m, hr, hm⟩ := hrange
  rw [hr]
  dsimp only
  by_cases h0 : BIAS + E1 ≤ 0
  · rw [if_pos h0]
    obtain ⟨⟨w2, f2, E2⟩, hd⟩ := denormLeftLoop_returns 6 m n.whole n.fraction 0 (by omega)
      (by norm_num)
    rw [hd]
    exact ⟨_, rfl⟩
  · rw [if_neg h0]
    exact ⟨_, rfl⟩

/-- For a 32-bit mantissa `base10_to_float` returns for every exponent and
sign word: the denormal loop is reached only when the exponent is below -6,
and then counts up to -6. -/
theorem base10_to_float_total (M : Nat) (E : Int) (S : Nat) (hM : M < 4294967296) :
    ∃ r : Nat, base10_to_float (31 + (-6 - E).toNat) M E S = some r := by
  unfold base10_to_float
  by_cases hM0 : M = 0
  · rw [if_pos hM0]
    exact ⟨_, rfl⟩
  · rw [if_neg hM0]
    obtain ⟨p, hp, hrun, _, _⟩ := normLoop_spec 31 (31 + (-6 - E).toNat) (M * 4294967296) E
      (by omega) (by rw [Nat.mul_div_cancel _ (by norm_num)]; norm_num; exact hM)
    rw [Nat.mul_div_cancel _ (by norm_num : 0 < 4294967296), Nat.mul_mod_left] at hrun
    rw [hrun]
    dsimp only
    unfold BIAS
    by_cases h15 : (7 : Int) + (E + p) ≥ 15
    · rw [if_pos h15]
      exact ⟨_, rfl⟩
    · rw [if_neg h15]
      by_cases h0 : (7 : Int) + (E + p) ≤ 0
      · rw [if_pos h0]
        have hd := denormLoop_spec (-6 - E).toNat (31 + (-6 - E).toNat - p) (M * 4294967296) E
          (by omega) (by omega)
        rw [Nat.mul_div_cancel _ (by norm_num : 0 < 4294967296), Nat.mul_mod_left] at hd
        rw [hd]
        exact ⟨_, rfl⟩
      · rw [if_neg h0]
        exact ⟨_, rfl⟩

/-! ## Lemmas for truncation toward zero -/

/-- The magnitude depends only on the low ten bits. -/
theorem mag12_mod (v : Nat) : mag12 v = mag12 (v % 1024) := by
  unfold mag12
  simp only [expField_eq, fracField_eq]
  have e1 : v % 1024 / 64 % 16 = v / 64 % 16 := by omega
  have e2 : v % 1024 % 64 = v % 64 := by omega
  rw [e1, e2]

/-- The magnitude of the pattern with exponent field `e` and fraction field
`f`. -/
theorem mag12_build (e f : Nat) (he : e ≤ 15) (hf : f < 64) :
    mag12 (e * 64 + f) = if e = 0 then f else (64 + f) * 2 ^ (e - 1) := by
  unfold mag12
  simp only [expField_eq, fracField_eq]
  have e1 : (e * 64 + f) / 64 % 16 = e := by omega
  have e2 : (e * 64 + f) % 64 = f := by omega
  rw [e1, e2]

/-- The magnitude of the next pattern up. -/
theorem mag12_succ (e f : Nat) (he : e ≤ 14) (hf : f < 64) :
    mag12 (e * 64 + f + 1) = if e = 0 then f + 1 else (64 + f + 1) * 2 ^ (e - 1) := by
  by_cases h63 : f = 63
  · subst h63
    have e1 : e * 64 + 63 + 1 = (e + 1) * 64 + 0 := by ring
    rw [e1, mag12_build (e + 1) 0 (by omega) (by omega)]
    rw [if_neg (by omega)]
    by_cases h0 : e = 0
    · subst h0; simp
    · rw [if_neg h0]
      obtain ⟨k, rfl⟩ : ∃ k, e = k + 1 := ⟨e - 1, by omega⟩
      simp only [Nat.add_sub_cancel]
      rw [pow_succ]
      ring
  · have e1 : e * 64 + f + 1 = e * 64 + (f + 1) := by ring
    rw [e1, mag12_build e (f + 1) (by omega) (by omega)]
    by_cases h0 : e = 0
    · rw [if_pos h0, if_pos h0]
    · rw [if_neg h0, if_neg h0]
      ring

/-- The whole part left by the normalizing loop is 1 exactly when the
mantissa lies in `[2^p, 2^(p+1))`. -/
theorem norm_bounds (M p : Nat) (h : M * 4294967296 / 2 ^ p / 4294967296 = 1) :
    2 ^ p ≤ M ∧ M < 2 ^ (p + 1) := by
  have hpos : 0 < 2 ^ p := Nat.pow_pos (by norm_num)
  rw [Nat.div_div_eq_div_mul, Nat.mul_div_mul_right _ _ (by norm_num : 0 < 4294967296)] at h
  have h1 := Nat.div_add_mod M (2 ^ p)
  have h2 := Nat.mod_lt M hpos
  rw [h] at h1
  rw [pow_succ]
  omega

/-- The six fraction bits kept after normalizing: with `q = 64 + fr`,
`q * 2^p ≤ 64 * M < (q + 1) * 2^p`. -/
theorem norm_frac (M p : Nat) (h : M * 4294967296 / 2 ^ p / 4294967296 = 1) :
    ∃ fr, fr = M * 4294967296 / 2 ^ p % 4294967296 / 67108864 ∧ fr < 64 ∧
      (64 + fr) * 2 ^ p ≤ M * 64 ∧ M * 64 < (64 + fr + 1) * 2 ^ p := by
  have hpos : 0 < 2 ^ p := Nat.pow_pos (by norm_num)
  have hq : M * 4294967296 / 2 ^ p / 67108864 = M * 64 / 2 ^ p := by
    rw [Nat.div_div_eq_div_mul]
    have e : M * 4294967296 = M * 64 * 67108864 := by ring
    rw [e, Nat.mul_div_mul_right _ _ (by norm_num : 0 < 67108864)]
  have h1 := Nat.div_mul_le_self (M * 64) (2 ^ p)
  have h2 := Nat.lt_mul_div_succ (M * 64) hpos
  refine ⟨_, rfl, by omega, ?_, ?_⟩
  · have e : 64 + M * 4294967296 / 2 ^ p % 4294967296 / 67108864 = M * 64 / 2 ^ p := by
      rw [← hq]; omega
    rw [e]; exact h1
  · have e : 64 + M * 4294967296 / 2 ^ p % 4294967296 / 67108864 + 1 = M * 64 / 2 ^ p + 1 := by
      rw [← hq]; omega
    rw [e]
    rw [Nat.mul_comm (2 ^ p)] at h2
    exact h2

/-- Scaling the bracket of `norm_frac` to the exponent of the result. -/
theorem normal_bracket (M p T q : Nat) (h18 : 18 ≤ p + T) (hq1 : q * 2 ^ p ≤ M * 64)
    (hq2 : M * 64 < (q + 1) * 2 ^ p) :
    q * 2 ^ (p + T - 18) * 4096 ≤ M * 2 ^ T ∧ M * 2 ^ T < (q + 1) * 2 ^ (p + T - 18) * 4096 := by
  have hposT : 0 < 2 ^ T := Nat.pow_pos (by norm_num)
  have hpw : 2 ^ p * 2 ^ T = 2 ^ (p + T - 18) * 262144 := by
    rw [← pow_add]
    have e : p + T = (p + T - 18) + 18 := by omega
    nth_rewrite 1 [e]
    rw [pow_add]
    norm_num
  have a1 : q * 2 ^ (p + T - 18) * 262144 ≤ M * 2 ^ T * 64 := by
    calc q * 2 ^ (p + T - 18) * 262144 = q * (2 ^ (p + T - 18) * 262144) := by ring
      _ = q * (2 ^ p * 2 ^ T) := by rw [hpw]
      _ = q * 2 ^ p * 2 ^ T := by ring
      _ ≤ M * 64 * 2 ^ T := Nat.mul_le_mul_right _ hq1
      _ = M * 2 ^ T * 64 := by ring
  have a2 : M * 2 ^ T * 64 < (q + 1) * 2 ^ (p + T - 18) * 262144 := by
    calc M * 2 ^ T * 64 = M * 64 * 2 ^ T := by ring
      _ < (q + 1) * 2 ^ p * 2 ^ T := Nat.mul_lt_mul_of_pos_right hq2 hposT
      _ = (q + 1) * (2 ^ p * 2 ^ T) := by ring
      _ = (q + 1) * (2 ^ (p + T - 18) * 262144) := by rw [hpw]
      _ = (q + 1) * 2 ^ (p + T - 18) * 262144 := by ring
  constructor <;> omega

/-- The result overflows exactly when the value reaches 256. -/
theorem overflow_iff (M p T : Nat) (h1 : 2 ^ p ≤ M) (h2 : M < 2 ^ (p + 1)) :
    (32 ≤ p + T → 4294967296 ≤ M * 2 ^ T) ∧ (p + T ≤ 31 → M * 2 ^ T < 4294967296) := by
  have hposT : 0 < 2 ^ T := Nat.pow_pos (by norm_num)
  constructor
  · intro h
    calc 4294967296 = 2 ^ 32 := by norm_num
      _ ≤ 2 ^ (p + T) := Nat.pow_le_pow_right (by norm_num) h
      _ = 2 ^ p * 2 ^ T := by rw [pow_add]
      _ ≤ M * 2 ^ T := Nat.mul_le_mul_right _ h1
  · intro h
    calc M * 2 ^ T < 2 ^ (p + 1) * 2 ^ T := Nat.mul_lt_mul_of_pos_right h2 hposT
      _ = 2 ^ (p + 1 + T) := (pow_add 2 (p + 1) T).symm
      _ ≤ 2 ^ 32 := Nat.pow_le_pow_right (by norm_num) (by omega)
      _ = 4294967296 := by norm_num

/-- In the denormal branch the value is below `2^-6`. -/
theorem underflow_bound (M p T : Nat) (h2 : M < 2 ^ (p + 1)) (h : p + T ≤ 17) :
    M * 2 ^ T < 262144 := by
  have hposT : 0 < 2 ^ T := Nat.pow_pos (by norm_num)
  calc M * 2 ^ T < 2 ^ (p + 1) * 2 ^ T := Nat.mul_lt_mul_of_pos_right h2 hposT
    _ = 2 ^ (p + 1 + T) := (pow_add 2 (p + 1) T).symm
    _ ≤ 2 ^ 18 := Nat.pow_le_pow_right (by norm_num) (by omega)
    _ = 262144 := by norm_num

/-- The denormal loop's right shifts, as a multiplication. -/
theorem denorm_shift (M T : Nat) (hT : T ≤ 17) :
    M * 4294967296 / 2 ^ (18 - T) = M * 2 ^ T * 16384 := by
  have hpos : 0 < 2 ^ (18 - T) := Nat.pow_pos (by norm_num)
  have e : (4294967296 : Nat) = 2 ^ (18 - T) * (2 ^ T * 16384) := by
    rw [← Nat.mul_assoc, ← pow_add]
    have : 18 - T + T = 18 := by omega
    rw [this]
    norm_num
  have e2 : M * 4294967296 = 2 ^ (18 - T) * (M * 2 ^ T * 16384) := by
    nth_rewrite 1 [e]; ring
  rw [e2, Nat.mul_div_cancel_left _ hpos]

/-- What `base10_to_float` returns for a nonzero 32-bit mantissa `M`, the
exponent `T - 24` and a sign word `S`, within 35 loop iterations: with
`V = M * 2^T` (the value times `2^24`), the Infinity of that sign when
`V ≥ 2^32` (the value is at least 256), and otherwise the sign word plus the
ten-bit pattern `low` of a finite value with
`mag12 low * 2^12 ≤ V < mag12 (low + 1) * 2^12`: the value truncated toward
zero. -/
theorem base10_to_float_trunc (fuel M T S : Nat) (hf : 35 ≤ fuel) (hM0 : 0 < M)
    (hM : M < 4294967296) (hS : S = 0 ∨ S = 0x400) :
    ∃ r : Nat, base10_to_float fuel M ((T : Int) - 24) S = some r ∧
      (4294967296 ≤ M * 2 ^ T → r = S + 0x3C0) ∧
      (M * 2 ^ T < 4294967296 → ∃ low, low < 960 ∧ r = S + low ∧
        mag12 low * 4096 ≤ M * 2 ^ T ∧ M * 2 ^ T < mag12 (low + 1) * 4096) := by
  unfold base10_to_float
  rw [if_neg (by omega : ¬ M = 0)]
  obtain ⟨p, hp, hrun, _, hone⟩ := normLoop_spec 31 fuel (M * 4294967296) ((T : Int) - 24)
    (by omega) (by rw [Nat.mul_div_cancel _ (by norm_num)]; norm_num; exact hM)
  rw [Nat.mul_div_cancel _ (by norm_num : 0 < 4294967296), Nat.mul_mod_left] at hrun
  rw [Nat.mul_div_cancel _ (by norm_num : 0 < 4294967296)] at hone
  have hone2 := hone hM0
  obtain ⟨hlo, hhi⟩ := norm_bounds M p hone2
  obtain ⟨fr, hfr, hfr64, hq1, hq2⟩ := norm_frac M p hone2
  obtain ⟨hov1, hov2⟩ := overflow_iff M p T hlo hhi
  rw [hrun]
  dsimp only
  unfold BIAS
  by_cases h15 : (7 : Int) + ((T : Int) - 24 + p) ≥ 15
  · rw [if_pos h15]
    have hV := hov1 (by omega)
    refine ⟨POS_INFINITY ^^^ S, rfl, ?_, ?_⟩
    · intro _
      rcases hS with h | h <;> subst h <;> decide
    · intro hlt
      omega
  · rw [if_neg h15]
    have hV := hov2 (by omega)
    by_cases h0 : (7 : Int) + ((T : Int) - 24 + p) ≤ 0
    · rw [if_pos h0]
      have hT : T ≤ 17 := by omega
      have hd := denormLoop_spec (18 - T) (fuel - p) (M * 4294967296) ((T : Int) - 24)
        (by omega) (by omega)
      rw [Nat.mul_div_cancel _ (by norm_num : 0 < 4294967296), Nat.mul_mod_left] at hd
      rw [hd]
      dsimp only
      rw [denorm_shift M T hT]
      have hu := underflow_bound M p T hhi (by omega)
      generalize M * 2 ^ T = V at *
      have hlow : V * 16384 % 4294967296 / 67108864 = V / 4096 := by omega
      have hm0 := mag12_build 0 (V / 4096) (by omega) (by omega)
      have hm1 := mag12_succ 0 (V / 4096) (by omega) (by omega)
      simp only [Nat.zero_mul, Nat.zero_add, if_true] at hm0 hm1
      refine ⟨_, rfl, ?_, ?_⟩
      · intro h; omega
      · intro _
        refine ⟨V / 4096, by omega, ?_, ?_, ?_⟩
        · simp only [Nat.shiftLeft_eq, Nat.shiftRight_eq_div_pow, minifp_s]
          norm_num
          omega
        · rw [hm0]; omega
        · rw [hm1]; omega
    · rw [if_neg h0]
      dsimp only
      obtain ⟨hb1, hb2⟩ := normal_bracket M p T (64 + fr) (by omega) hq1 hq2
      have he : ((7 : Int) + ((T : Int) - 24 + p)) % 16 = ((p + T - 17 : Nat) : Int) := by omega
      have hm0 := mag12_build (p + T - 17) fr (by omega) hfr64
      have hm1 := mag12_succ (p + T - 17) fr (by omega) hfr64
      rw [if_neg (by omega)] at hm0 hm1
      have hexp : p + T - 17 - 1 = p + T - 18 := by omega
      rw [hexp] at hm0 hm1
      refine ⟨_, rfl, ?_, ?_⟩
      · intro h; omega
      · intro _
        refine ⟨(p + T - 17) * 64 + fr, by omega, ?_, ?_, ?_⟩
        · have e26 : (2 : Nat) ^ 26 = 67108864 := by norm_num
          have e6 : (2 : Nat) ^ 6 = 64 := by norm_num
          rw [he]
          simp only [Nat.shiftLeft_eq, Nat.shiftRight_eq_div_pow, Int.toNat_ofNat]
          rw [e26, e6, ← hfr, Nat.add_assoc]
        · rw [hm0]; exact hb1
        · rw [hm1]; exact hb2

/-- Below the Infinity pattern the magnitude grows with the pattern. -/
theorem mag12_step (x : Nat) (hx : x < 960) : mag12 x < mag12 (x + 1) := by
  have e : x = x / 64 * 64 + x % 64 := by omega
  have h0 := mag12_build (x / 64) (x % 64) (by omega) (by omega)
  have h1 := mag12_succ (x / 64) (x % 64) (by omega) (by omega)
  rw [← e] at h0 h1
  rw [h0, h1]
  by_cases hz : x / 64 = 0
  · rw [if_pos hz, if_pos hz]; omega
  · rw [if_neg hz, if_neg hz]
    have hpos : 0 < 2 ^ (x / 64 - 1) := Nat.pow_pos (by norm_num)
    exact Nat.mul_lt_mul_of_pos_right (by omega) hpos

/-- The magnitude is monotone in the pattern up to the Infinity pattern. -/
theorem mag12_mono (x y : Nat) (hxy : x ≤ y) (hy : y ≤ 960) : mag12 x ≤ mag12 y := by
  induction y with
  | zero =>
    have : x = 0 := by omega
    rw [this]
  | succ y ih =>
    by_cases h : x = y + 1
    · rw [h]
    · exact Nat.le_trans (ih (by omega) (by omega)) (Nat.le_of_lt (mag12_step y (by omega)))

/-- A pattern bracketing `V` has the largest magnitude among the finite
patterns that do not exceed `V`. -/
theorem mag12_largest (low V : Nat) (hlow : low < 960) (h1 : V < mag12 (low + 1))
    (s : Nat) (hs : expField s ≠ 15) (hsV : mag12 s ≤ V) : mag12 s ≤ mag12 low := by
  rw [mag12_mod s]
  rw [mag12_mod s] at hsV
  rw [expField_eq] at hs
  by_cases h : s % 1024 ≤ low
  · exact mag12_mono _ _ h (by omega)
  · have := mag12_mono (low + 1) (s % 1024) (by omega) (by omega)
    omega

/-- The magnitude of a finite value times `2^12` is below `2^20`. -/
theorem mag12_lt (v : Nat) (h : expField v ≠ 15) : mag12 v < 1048576 := by
  obtain ⟨u, w, hu, hw, _, _, hm⟩ := start_values v h
  rw [hm]
  have h1 : w * 64 + v % 64 ≤ 127 := by omega
  have h2 : 2 ^ u ≤ 2 ^ 13 := Nat.pow_le_pow_right (by norm_num) hu
  have h3 := Nat.mul_le_mul h1 h2
  norm_num at h3
  omega

/-- An odd mantissa is no larger than the 7-bit mantissa it scales. -/
theorem odd_small (M t m u : Nat) (hodd : M % 2 = 1) (h : M * 2 ^ t = m * 2 ^ u) : M ≤ m := by
  have hpos : ∀ k : Nat, 0 < 2 ^ k := fun k => Nat.pow_pos (by norm_num)
  by_cases htu : u ≤ t
  · obtain ⟨k, rfl⟩ : ∃ k, t = u + k := ⟨t - u, by omega⟩
    have e : M * 2 ^ k = m := by
      apply Nat.eq_of_mul_eq_mul_right (hpos u)
      rw [← h, pow_add]; ring
    have : M * 1 ≤ M * 2 ^ k := Nat.mul_le_mul_left _ (hpos k)
    omega
  · obtain ⟨k, rfl⟩ : ∃ k, u = t + (k + 1) := ⟨u - t - 1, by omega⟩
    have e : M = 2 * (m * 2 ^ k) := by
      apply Nat.eq_of_mul_eq_mul_right (hpos t)
      rw [h, pow_add, pow_succ]; ring
    omega

/-- The product of the aligned mantissas of two finite nonzero values fits
27 bits. -/
theorem product_bound (a b M1 M2 t : Nat) (ha : expField a ≠ 15) (hb : expField b ≠ 15)
    (h1 : M1 * 2 ^ t = mag12 a) (h2 : M2 * 2 ^ t = mag12 b)
    (hodd : M1 % 2 = 1 ∨ M2 % 2 = 1) : M1 * M2 < 134217728 := by
  have hpos : 1 ≤ 2 ^ t := Nat.one_le_two_pow
  have la := mag12_lt a ha
  have lb := mag12_lt b hb
  have b1 : M1 ≤ mag12 a := by
    have : M1 * 1 ≤ M1 * 2 ^ t := Nat.mul_le_mul_left _ hpos
    omega
  have b2 : M2 ≤ mag12 b := by
    have : M2 * 1 ≤ M2 * 2 ^ t := Nat.mul_le_mul_left _ hpos
    omega
  obtain ⟨u1, w1, _, _, _, _, hm1⟩ := start_values a ha
  obtain ⟨u2, w2, _, _, _, _, hm2⟩ := start_values b hb
  rcases hodd with h | h
  · have := odd_small M1 t _ u1 h (by rw [h1, hm1])
    have h3 := Nat.mul_le_mul (show M1 ≤ 127 by omega) (show M2 ≤ 1048575 by omega)
    omega
  · have := odd_small M2 t _ u2 h (by rw [h2, hm2])
    have h3 := Nat.mul_le_mul (show M1 ≤ 1048575 by omega) (show M2 ≤ 127 by omega)
    omega

/-- What `mulMiniFP` returns for finite nonzero 11-bit operands, in terms of
the product `mag12 a * mag12 b` (the exact product times `2^24`): the aligned
mantissas multiply without wrapping, and the result is the Infinity of the
XOR sign when the product is at least `2^32`, and otherwise the XOR sign word
plus the pattern that brackets the product. -/
theorem mulMiniFP_trunc (fuel a b : Nat) (hf : 35 ≤ fuel) (ha : a < 2048) (hb : b < 2048)
    (hfa : expField a ≠ 15) (hfb : expField b ≠ 15)
    (ha0 : a ≠ 0x000) (ha1 : a ≠ 0x400) (hb0 : b ≠ 0x000) (hb1 : b ≠ 0x400) :
    ∃ (M1 M2 : Nat) (E : Int) (r : Nat),
      float_to_base10 fuel a b = some (M1, M2, E) ∧ M1 * M2 < 4294967296 ∧
      mulMiniFP fuel a b = some r ∧
      (4294967296 ≤ mag12 a * mag12 b →
        r = (if (is_negative a ^^^ is_negative b) ≠ 0 then 0x400 else 0x000) + 0x3C0) ∧
      (mag12 a * mag12 b < 4294967296 → ∃ low, low < 960 ∧
        r = (if (is_negative a ^^^ is_negative b) ≠ 0 then 0x400 else 0x000) + low ∧
        mag12 low * 4096 ≤ mag12 a * mag12 b ∧
        mag12 a * mag12 b < mag12 (low + 1) * 4096) := by
  have na := finite_not_nan a hfa
  have nb := finite_not_nan b hfb
  have ia := finite_not_infinity a hfa
  have ib := finite_not_infinity b hfb
  have hza := not_zero_of_ne a ha ha0 ha1
  have hzb := not_zero_of_ne b hb hb0 hb1
  obtain ⟨M1, M2, t, hF, _, h1, h2, hodd⟩ := float_to_base10_exact fuel a b (by omega) hfa hfb
  have hprod := product_bound a b M1 M2 t hfa hfb h1 h2 (hodd (mag12_ne_zero b hzb))
  have hM1 : 0 < M1 := by
    rcases Nat.eq_zero_or_pos M1 with h | h
    · rw [h] at h1; exact absurd h1.symm (by simpa using mag12_ne_zero a hza)
    · exact h
  have hM2 : 0 < M2 := by
    rcases Nat.eq_zero_or_pos M2 with h | h
    · rw [h] at h2; exact absurd h2.symm (by simpa using mag12_ne_zero b hzb)
    · exact h
  have hV : M1 * M2 * 2 ^ (2 * t) = mag12 a * mag12 b := by
    rw [← h1, ← h2, two_mul, pow_add]; ring
  obtain ⟨r, hr, hinf, hfin⟩ := base10_to_float_trunc fuel (M1 * M2) (2 * t)
    (if (is_negative a ^^^ is_negative b) ≠ 0 then 0x400 else 0x000) hf
    (Nat.mul_pos hM1 hM2) (by omega) (ite_sign _)
  rw [hV] at hinf hfin
  refine ⟨M1, M2, (t : Int) - 12, r, hF, by omega, ?_, hinf, hfin⟩
  unfold mulMiniFP
  simp only [na, nb, ia, ib, hza, hzb, Bool.or_self, Bool.and_self, Bool.false_eq_true,
    if_false, hF]
  have e1 : M1 * M2 % U32 = M1 * M2 := Nat.mod_eq_of_lt (by unfold U32; omega)
  have e2 : ((t : Int) - 12) * 2 = ((2 * t : Nat) : Int) - 24 := by push_cast; ring
  rw [e1, e2]
  exact hr

/-- `(int) M` is `M` for a mantissa below `2^31`. -/
theorem toInt32_small (M : Nat) (h : M < 2147483648) : toInt32 M = (M : Int) := by
  unfold toInt32 U32
  rw [Nat.mod_eq_of_lt (by omega : M < 4294967296), if_pos h]

/-- An integer in the range of `int` is not changed by wrapping. -/
theorem wrapInt32_small (x : Int) (h1 : -2147483648 ≤ x) (h2 : x < 2147483648) :
    wrapInt32 x = x := by
  unfold wrapInt32 toInt32 U32
  split <;> omega

/-- An addend of `addMiniFP`: the aligned mantissa with the operand's sign. -/
theorem addend_eq (v M : Nat) (h : M < 1048576) :
    (if (v &&& (1 <<< 10)) >>> 10 ≠ 0 then wrapInt32 (-(toInt32 M)) else toInt32 M)
      = if is_negative v ≠ 0 then -(M : Int) else (M : Int) := by
  have e : (v &&& (1 <<< 10)) >>> 10 = is_negative v := rfl
  rw [e, toInt32_small M (by omega), wrapInt32_small (-(M : Int)) (by omega) (by omega)]

/-- A signed aligned mantissa times the common power of two is the signed
value. -/
theorem addend_scale (v M t : Nat) (h : M * 2 ^ t = mag12 v) :
    (if is_negative v ≠ 0 then -(M : Int) else (M : Int)) * (2 : Int) ^ t = signed12 v := by
  unfold signed12
  have hc : ((M * 2 ^ t : Nat) : Int) = (mag12 v : Int) := by rw [h]
  push_cast at hc
  by_cases hn : is_negative v ≠ 0
  · rw [if_pos hn, if_pos hn, ← hc]; ring
  · rw [if_neg hn, if_neg hn, ← hc]

/-- What `addMiniFP` returns for finite nonzero 11-bit operands, in terms of
the signed sum `signed12 a + signed12 b` (the exact sum times `2^12`):
positive zero when the sum is zero; otherwise the Infinity with the sign of
the sum when its magnitude is at least `2^20`, and the sign word of the sum
plus the pattern that brackets the magnitude when it is below. -/
theorem addMiniFP_trunc (fuel a b : Nat) (hf : 35 ≤ fuel) (ha : a < 2048) (hb : b < 2048)
    (hfa : expField a ≠ 15) (hfb : expField b ≠ 15)
    (ha0 : a ≠ 0x000) (ha1 : a ≠ 0x400) (hb0 : b ≠ 0x000) (hb1 : b ≠ 0x400) :
    ∃ r : Nat, addMiniFP fuel a b = some r ∧
      (signed12 a + signed12 b = 0 → r = 0x000) ∧
      (signed12 a + signed12 b ≠ 0 → 1048576 ≤ (signed12 a + signed12 b).natAbs →
        r = (if signed12 a + signed12 b < 0 then 0x400 else 0x000) + 0x3C0) ∧
      (signed12 a + signed12 b ≠ 0 → (signed12 a + signed12 b).natAbs < 1048576 →
        ∃ low, low < 960 ∧
          r = (if signed12 a + signed12 b < 0 then 0x400 else 0x000) + low ∧
          mag12 low ≤ (signed12 a + signed12 b).natAbs ∧
          (signed12 a + signed12 b).natAbs < mag12 (low + 1)) := by
  have na := finite_not_nan a hfa
  have nb := finite_not_nan b hfb
  have ia := finite_not_infinity a hfa
  have ib := finite_not_infinity b hfb
  have hza := not_zero_of_ne a ha ha0 ha1
  have hzb := not_zero_of_ne b hb hb0 hb1
  have hPa : a ≠ POS_INFINITY := by
    intro h; rw [h] at hfa; exact hfa (by decide)
  have hNa : a ≠ NEG_INFINITY := by
    intro h; rw [h] at hfa; exact hfa (by decide)
  have hPb : b ≠ POS_INFINITY := by
    intro h; rw [h] at hfb; exact hfb (by decide)
  have hNb : b ≠ NEG_INFINITY := by
    intro h; rw [h] at hfb; exact hfb (by decide)
  obtain ⟨M1, M2, t, hF, ht, h1, h2, _⟩ := float_to_base10_exact fuel a b (by omega) hfa hfb
  have hpos : 0 < 2 ^ t := Nat.pow_pos (by decide)
  have hA := mag12_lt a hfa
  have hB := mag12_lt b hfb
  have hM1 : M1 < 1048576 := by
    have : M1 ≤ M1 * 2 ^ t := Nat.le_mul_of_pos_right _ hpos
    omega
  have hM2 : M2 < 1048576 := by
    have : M2 ≤ M2 * 2 ^ t := Nat.le_mul_of_pos_right _ hpos
    omega
  have hs1 := addend_scale a M1 t h1
  have hs2 := addend_scale b M2 t h2
  generalize hx1 : (if is_negative a ≠ 0 then -(M1 : Int) else (M1 : Int)) = x1 at hs1
  generalize hx2 : (if is_negative b ≠ 0 then -(M2 : Int) else (M2 : Int)) = x2 at hs2
  have bx1 : -1048576 < x1 ∧ x1 < 1048576 := by
    rw [← hx1]; split <;> omega
  have bx2 : -1048576 < x2 ∧ x2 < 1048576 := by
    rw [← hx2]; split <;> omega
  have hsum : signed12 a + signed12 b = (x1 + x2) * (2 : Int) ^ t := by
    rw [← hs1, ← hs2]; ring
  have hpz : (0 : Int) < (2 : Int) ^ t := by positivity
  have hneg : signed12 a + signed12 b < 0 ↔ x1 + x2 < 0 := by
    rw [hsum]
    constructor
    · intro h
      by_contra hc
      have : 0 ≤ (x1 + x2) * (2 : Int) ^ t := Int.mul_nonneg (by omega) (le_of_lt hpz)
      omega
    · intro h
      exact Int.mul_neg_of_neg_of_pos h hpz
  have hzero : signed12 a + signed12 b = 0 ↔ x1 + x2 = 0 := by
    rw [hsum]
    constructor
    · intro h
      rcases Int.mul_eq_zero.mp h with h | h
      · exact h
      · omega
    · intro h; rw [h]; ring
  have habs : (signed12 a + signed12 b).natAbs = (x1 + x2).natAbs * 2 ^ t := by
    rw [hsum, Int.natAbs_mul, Int.natAbs_pow]; rfl
  have hcode : addMiniFP fuel a b
      = base10_to_float fuel (x1 + x2).natAbs ((t : Int) - 12)
          (if x1 + x2 < 0 then 0x400 else 0x000) := by
    unfold addMiniFP
    dsimp only
    rw [if_neg (by rintro (⟨h, _⟩ | ⟨h, _⟩); exact hPa h; exact hNa h)]
    rw [if_neg (by rw [na, nb]; decide)]
    rw [if_neg (by rw [ia, ib]; decide)]
    rw [if_neg (ne_negateMiniFP a)]
    rw [if_neg (by rintro (h | h); exact hPa h; exact hPb h)]
    rw [if_neg (by rintro (h | h); exact hNa h; exact hNb h)]
    rw [if_neg (by rw [hza, hzb]; decide)]
    rw [if_neg (by rw [hza]; decide)]
    rw [if_neg (by rw [hzb]; decide)]
    rw [hF]
    dsimp only
    rw [addend_eq a M1 hM1, addend_eq b M2 hM2, hx1, hx2,
      wrapInt32_small (x1 + x2) (by omega) (by omega)]
    have : (x1 + x2).natAbs % U32 = (x1 + x2).natAbs := Nat.mod_eq_of_lt (by unfold U32; omega)
    rw [this]
  rw [hcode]
  by_cases hz : x1 + x2 = 0
  · refine ⟨0, ?_, fun _ => rfl, fun h => absurd (hzero.mpr hz) h,
      fun h => absurd (hzero.mpr hz) h⟩
    rw [hz]
    unfold base10_to_float
    simp
    rfl
  · have hMpos : 0 < (x1 + x2).natAbs := Int.natAbs_pos.mpr hz
    have e2 : ((t : Int) - 12) = ((t + 12 : Nat) : Int) - 24 := by push_cast; ring
    obtain ⟨r, hr, hinf, hfin⟩ := base10_to_float_trunc fuel (x1 + x2).natAbs (t + 12)
      (if x1 + x2 < 0 then 0x400 else 0x000) hf hMpos (by omega) (ite_sign _)
    have hV : (x1 + x2).natAbs * 2 ^ (t + 12)
        = (signed12 a + signed12 b).natAbs * 4096 := by
      rw [habs, pow_add]; ring
    rw [hV] at hinf hfin
    have hif : (if signed12 a + signed12 b < 0 then 0x400 else 0x000)
        = (if x1 + x2 < 0 then 0x400 else 0x000) := by
      by_cases h : x1 + x2 < 0
      · rw [if_pos h, if_pos (hneg.mpr h)]
      · rw [if_neg h, if_neg (fun h2 => h (hneg.mp h2))]
    rw [hif]
    refine ⟨r, ?_, fun h => absurd (hzero.mp h) hz, fun _ h => hinf (by omega), fun _ h => ?_⟩
    · rw [e2]; exact hr
    · obtain ⟨low, hl, hrl, hlo, hhi⟩ := hfin (by omega)
      exact ⟨low, hl, hrl, by omega, by omega⟩

/-- The signed value is `signed12` over `2^12`. -/
theorem signedValue_eq (v : Nat) : signedValue v = (signed12 v : ℚ) / 4096 := by
  unfold signedValue signed12
  rw [absValue_eq]
  by_cases h : is_negative v ≠ 0
  · rw [if_pos h, if_pos h]; push_cast; ring
  · rw [if_neg h, if_neg h]; push_cast; ring

/-- The sign bit is 0 or 1. -/
theorem is_negative_le (v : Nat) : is_negative v ≤ 1 := by
  rw [is_negative_eq]; omega

/-- The fields of a sign word plus a finite pattern without sign. -/
theorem pattern_fields (S low : Nat) (hS : S = 0 ∨ S = 0x400) (hlow : low < 960) :
    S + low < 2048 ∧ expField (S + low) ≠ 15 ∧ is_negative (S + low) = S / 1024 ∧
      mag12 (S + low) = mag12 low := by
  have hm : (S + low) % 1024 = low := by rcases hS with h | h <;> omega
  refine ⟨by rcases hS with h | h <;> omega, ?_, ?_, ?_⟩
  · rw [expField_eq]; rcases hS with h | h <;> omega
  · rw [is_negative_eq]; rcases hS with h | h <;> omega
  · rw [mag12_mod (S + low), hm]

/-- Comparison of a magnitude with a product of magnitudes, in integers. -/
theorem mag_le_prod (x A B : Nat) :
    (x : ℚ) / 4096 ≤ (A : ℚ) / 4096 * ((B : ℚ) / 4096) ↔ x * 4096 ≤ A * B := by
  have e1 : (x : ℚ) / 4096 = ((x * 4096 : ℕ) : ℚ) / 16777216 := by push_cast; ring
  have e2 : (A : ℚ) / 4096 * ((B : ℚ) / 4096) = ((A * B : ℕ) : ℚ) / 16777216 := by
    push_cast; ring
  rw [e1, e2, div_le_div_iff_of_pos_right (by norm_num)]
  exact Nat.cast_le

/-- Comparison of a product of magnitudes with 256, in integers. -/
theorem prod_ge_256 (A B : Nat) :
    (256 : ℚ) ≤ (A : ℚ) / 4096 * ((B : ℚ) / 4096) ↔ 4294967296 ≤ A * B := by
  have e1 : (256 : ℚ) = ((4294967296 : ℕ) : ℚ) / 16777216 := by norm_num
  have e2 : (A : ℚ) / 4096 * ((B : ℚ) / 4096) = ((A * B : ℕ) : ℚ) / 16777216 := by
    push_cast; ring
  rw [e1, e2, div_le_div_iff_of_pos_right (by norm_num)]
  exact Nat.cast_le

/-- The absolute value of an integer over `2^12`. -/
theorem abs_div_4096 (s : Int) : |(s : ℚ) / 4096| = (s.natAbs : ℚ) / 4096 := by
  rw [abs_div, Nat.cast_natAbs, Int.cast_abs]
  norm_num

/-- Comparison of two magnitudes, in integers. -/
theorem mag_le_mag (x y : Nat) : (x : ℚ) / 4096 ≤ (y : ℚ) / 4096 ↔ x ≤ y := by
  rw [div_le_div_iff_of_pos_right (by norm_num)]
  exact Nat.cast_le

/-- The magnitude of `signed12` is `mag12`. -/
theorem signed12_natAbs (v : Nat) : (signed12 v).natAbs = mag12 v := by
  unfold signed12
  split
  · rw [Int.natAbs_neg]; rfl
  · rfl

/-- A rational `s / 2^12` is zero exactly when the integer `s` is. -/
theorem div_4096_eq_zero (s : Int) : (s : ℚ) / 4096 = 0 ↔ s = 0 := by
  rw [div_eq_zero_iff]
  norm_num

/-- A rational `s / 2^12` is negative exactly when the integer `s` is. -/
theorem div_4096_neg (s : Int) : (s : ℚ) / 4096 < 0 ↔ s < 0 := by
  rw [div_lt_iff₀ (by norm_num), zero_mul]
  exact Int.cast_lt_zero

/-- Comparison of `|s / 2^12|` with 256, in integers. -/
theorem abs_ge_256 (s : Int) : (256 : ℚ) ≤ |(s : ℚ) / 4096| ↔ 1048576 ≤ s.natAbs := by
  have e1 : (256 : ℚ) = ((1048576 : ℕ) : ℚ) / 4096 := by norm_num
  rw [abs_div_4096, e1, mag_le_mag]

/-! ## The claims on conversion, alignment, bounds, commutativity and truncation -/

/-- Claim C11.  Encode of special inputs: `toMiniFP` returns the canonical NaN
`0x7FF` for an absent struct and for a struct whose NaN flag is set, whatever
its other fields hold; otherwise, when the Infinity flag is set or the whole
part is at least 256, it returns `0x7C0` if the negative flag is set and
`0x3C0` if it is clear.  No loop is entered. -/
theorem toMiniFP_special (fuel : Nat) :
    toMiniFP fuel none = some 0x7FF ∧
    (∀ n : Number_s, n.is_nan = true → toMiniFP fuel (some n) = some 0x7FF) ∧
    (∀ n : Number_s, n.is_nan = false → (n.is_infinity = true ∨ 256 ≤ n.whole) →
      toMiniFP fuel (some n) = some (if n.is_negative = true then 0x7C0 else 0x3C0)) := by
  refine ⟨rfl, ?_, ?_⟩
  · intro n hn
    unfold toMiniFP
    simp only [hn, if_true]
    rfl
  · intro n hn hinf
    have hc : (decide (n.whole ≥ 256) || n.is_infinity) = true := by
      rcases hinf with h | h
      · simp [h]
      · simp [h]
    unfold toMiniFP
    simp only [hn, hc, Bool.false_eq_true, if_false, Bool.true_and]
    cases hneg : n.is_negative
    · simp only [Bool.false_eq_true, if_false, Bool.not_false, if_true]
      rfl
    · simp only [if_true]
      rfl

/-- Witness of `toMiniFP_special`: a struct with the Infinity and negative
flags set encodes to `0x7C0`. -/
theorem toMiniFP_special_witness :
    toMiniFP 0 (some ⟨true, true, false, 0, 0⟩) = some 0x7C0 :=
  (toMiniFP_special 0).2.2 ⟨true, true, false, 0, 0⟩ rfl (Or.inl rfl)

/-- Claim C12 as stated fails on a struct whose negative flag is already set:
decoding the positive value `0x000` into it leaves the flag set, although bit
10 of `0x000` is 0. -/
theorem decode_sign_fails_on_set_flag :
    toNumber 40 (some ⟨true, false, false, 0, 0⟩) 0x000
        = some (0, some ⟨true, false, false, 0, 0⟩) ∧
      is_negative 0x000 = 0 := by
  decide!

/-- Claim C12, amended.  For every present struct and every 11-bit value `v`,
after `toNumber` the negative flag is set when bit 10 of `v` is 1 and keeps
its prior value when bit 10 is 0; so for a struct whose negative flag is
clear beforehand the flag equals bit 10 of `v`. -/
theorem decode_sign (fuel v : Nat) (n0 : Number_s) (hf : 7 ≤ fuel) (hv : v < 2048) :
    ∃ n1, toNumber fuel (some n0) v = some (0, some n1) ∧
      n1.is_negative = (n0.is_negative || decide (is_negative v = 1)) ∧
      (n0.is_negative = false → n1.is_negative = decide (is_negative v = 1)) := by
  obtain ⟨n1, h1, h2, _⟩ := toNumber_present fuel v n0 hf hv
  have hb : decide (is_negative v ≠ 0) = decide (is_negative v = 1) := by
    have := is_negative_eq v
    by_cases h : is_negative v = 1
    · simp [h]
    · have h0 : is_negative v = 0 := by omega
      simp [h0]
  rw [hb] at h2
  refine ⟨n1, h1, h2, ?_⟩
  intro h0
  rw [h2, h0, Bool.false_or]

/-- Witness of `decode_sign`: decoding `0x5C0` (-1.0) into a zeroed struct. -/
theorem decode_sign_witness :
    (7 ≤ 7 ∧ 0x5C0 < 2048) ∧
      ∃ n1, toNumber 7 (some ⟨false, false, false, 0, 0⟩) 0x5C0 = some (0, some n1) ∧
        n1.is_negative = (false || decide (is_negative 0x5C0 = 1)) ∧
        ((false : Bool) = false → n1.is_negative = decide (is_negative 0x5C0 = 1)) :=
  ⟨by decide, decode_sign 7 0x5C0 ⟨false, false, false, 0, 0⟩ (by decide) (by decide)⟩

/-- Claim C13.  `toNumber` returns -1 exactly when the struct is absent: it
returns -1 for an absent struct and 0 for every present struct and every
11-bit value, within 7 loop iterations; for an Infinity, and for a NaN, it
sets the matching flag and leaves the whole and fraction parts as they
were. -/
theorem decode_status (fuel v : Nat) (n0 : Number_s) (hf : 7 ≤ fuel) (hv : v < 2048) :
    toNumber fuel none v = some (-1, none) ∧
    (∃ n1, toNumber fuel (some n0) v = some (0, some n1) ∧
      (is_infinity v = true →
        n1.is_infinity = true ∧ n1.whole = n0.whole ∧ n1.fraction = n0.fraction) ∧
      (is_infinity v = false → is_nan v = true →
        n1.is_nan = true ∧ n1.whole = n0.whole ∧ n1.fraction = n0.fraction)) ∧
    (∀ (number : Option Number_s) (status : Int) (out : Option Number_s),
      toNumber fuel number v = some (status, out) → (status = -1 ↔ number = none)) := by
  obtain ⟨n1, h1, _, h3, h4, _⟩ := toNumber_present fuel v n0 hf hv
  refine ⟨rfl, ⟨n1, h1, h3, h4⟩, ?_⟩
  intro number status out hrun
  cases number with
  | none =>
    have e : toNumber fuel none v = some (-1, none) := rfl
    rw [e] at hrun
    simp only [Option.some.injEq, Prod.mk.injEq] at hrun
    constructor
    · intro _; rfl
    · intro _; exact hrun.1.symm
  | some n =>
    obtain ⟨n2, h2, _⟩ := toNumber_present fuel v n hf hv
    rw [h2] at hrun
    simp only [Option.some.injEq, Prod.mk.injEq] at hrun
    constructor
    · intro hs; rw [← hrun.1] at hs; cases hs
    · intro hn; cases hn

/-- Witness of `decode_status`: decoding `0x3C0` (Infinity) into a struct
whose whole part is 5 and fraction part is 9. -/
theorem decode_status_witness :
    (7 ≤ 7 ∧ 0x3C0 < 2048) ∧
      toNumber 7 (some ⟨false, false, false, 5, 9⟩) 0x3C0
        = some (0, some ⟨false, true, false, 5, 9⟩) ∧
      toNumber 7 none 0x3C0 = some (-1, none) := by
  have h := decode_status 7 0x3C0 ⟨false, false, false, 5, 9⟩ (by decide) (by decide)
  exact ⟨by decide, by decide, h.1⟩

/-- Claim C14.  Decode is exact: for every 11-bit value `v` that is neither
NaN nor Infinity, `toNumber` writes 32-bit whole and fraction parts with
`whole + fraction / 2^32` equal to the magnitude of `v`,
`(1 + f/64) * 2^(e-7)` for exponent field `e` in 1..14 and `(f/64) * 2^-6`
for `e = 0`; on `0x000` it writes whole 0 and fraction 0. -/
theorem decode_exact (fuel v : Nat) (n0 : Number_s) (hf : 7 ≤ fuel) (hv : v < 2048)
    (hfin : expField v ≠ 15) :
    ∃ n1, toNumber fuel (some n0) v = some (0, some n1) ∧
      n1.whole < 2 ^ 32 ∧ n1.fraction < 2 ^ 32 ∧
      (n1.whole : ℚ) + (n1.fraction : ℚ) / 2 ^ 32 = absValue v ∧
      (v = 0x000 → n1.whole = 0 ∧ n1.fraction = 0) := by
  obtain ⟨n1, h1, _, _, _, h5⟩ := toNumber_present fuel v n0 hf hv
  obtain ⟨hw, hfr⟩ := h5 hfin
  have hm : mag12 v < 1048576 := by
    unfold mag12
    have e1 := expField_eq v
    have e2 := fracField_eq v
    generalize expField v = e at *
    generalize fracField v = f at *
    by_cases h0 : e = 0
    · rw [if_pos h0]; omega
    · rw [if_neg h0]
      have he : e ≤ 14 := by omega
      interval_cases e <;> omega
  refine ⟨n1, h1, ?_, ?_, ?_, ?_⟩
  · rw [hw]; omega
  · rw [hfr]; omega
  · rw [absValue_eq, hw, hfr]
    have hd := Nat.div_add_mod (mag12 v * 1048576) 4294967296
    have hq : ((4294967296 * (mag12 v * 1048576 / 4294967296)
        + mag12 v * 1048576 % 4294967296 : ℕ) : ℚ) = ((mag12 v * 1048576 : ℕ) : ℚ) := by
      rw [hd]
    push_cast at hq
    norm_num
    linarith
  · intro h0
    subst h0
    rw [hw, hfr]
    decide

/-- Witness of `decode_exact`: decoding `0x1C0` (1.0) into a zeroed struct. -/
theorem decode_exact_witness :
    (7 ≤ 7 ∧ 0x1C0 < 2048 ∧ expField 0x1C0 ≠ 15) ∧
      ∃ n1, toNumber 7 (some ⟨false, false, false, 0, 0⟩) 0x1C0 = some (0, some n1) ∧
        n1.whole < 2 ^ 32 ∧ n1.fraction < 2 ^ 32 ∧
        (n1.whole : ℚ) + (n1.fraction : ℚ) / 2 ^ 32 = absValue 0x1C0 ∧
        (0x1C0 = 0x000 → n1.whole = 0 ∧ n1.fraction = 0) :=
  ⟨by decide, decode_exact 7 0x1C0 ⟨false, false, false, 0, 0⟩ (by decide) (by decide)
    (by decide)⟩

/-- Claim C15.  Align preserves both values exactly: for operands whose
exponent field is at most 14, `float_to_base10` returns, within 32 loop
iterations, mantissas `M1`, `M2` below `2^32` and an exponent `E` with
`M1 * 2^E` the magnitude of the first operand and `M2 * 2^E` the magnitude of
the second, as rationals. -/
theorem align_exact (fuel a b : Nat) (hf : 32 ≤ fuel) (hfa : expField a ≤ 14)
    (hfb : expField b ≤ 14) :
    ∃ (M1 M2 : Nat) (E : Int), float_to_base10 fuel a b = some (M1, M2, E) ∧
      M1 < 2 ^ 32 ∧ M2 < 2 ^ 32 ∧
      (M1 : ℚ) * 2 ^ E = absValue a ∧ (M2 : ℚ) * 2 ^ E = absValue b := by
  obtain ⟨M1, M2, t, h, _, h1, h2, _⟩ :=
    float_to_base10_exact fuel a b hf (by omega) (by omega)
  have hpos : 1 ≤ 2 ^ t := Nat.one_le_two_pow
  have bound : ∀ v : Nat, expField v ≤ 14 → mag12 v < 4294967296 := by
    intro v hv
    unfold mag12
    have e2 := fracField_eq v
    generalize expField v = e at *
    generalize fracField v = f at *
    by_cases h0 : e = 0
    · rw [if_pos h0]; omega
    · rw [if_neg h0]
      interval_cases e <;> omega
  have scale : ∀ M : Nat, (M : ℚ) * 2 ^ ((t : Int) - 12) = ((M * 2 ^ t : Nat) : ℚ) / 4096 := by
    intro M
    rw [zpow_sub₀ (by norm_num : (2 : ℚ) ≠ 0), zpow_natCast]
    push_cast
    norm_num
    ring
  refine ⟨M1, M2, (t : Int) - 12, h, ?_, ?_, ?_, ?_⟩
  · have := bound a hfa
    have : M1 * 1 ≤ M1 * 2 ^ t := Nat.mul_le_mul_left _ hpos
    norm_num
    omega
  · have := bound b hfb
    have : M2 * 1 ≤ M2 * 2 ^ t := Nat.mul_le_mul_left _ hpos
    norm_num
    omega
  · rw [scale, h1, absValue_eq]
  · rw [scale, h2, absValue_eq]

/-- Witness of `align_exact` at `a = 0x1C0` (1.0) and `b = 0x001` (the
smallest denormal). -/
theorem align_exact_witness :
    (32 ≤ 32 ∧ expField 0x1C0 ≤ 14 ∧ expField 0x001 ≤ 14) ∧
      ∃ (M1 M2 : Nat) (E : Int), float_to_base10 32 0x1C0 0x001 = some (M1, M2, E) ∧
        M1 < 2 ^ 32 ∧ M2 < 2 ^ 32 ∧
        (M1 : ℚ) * 2 ^ E = absValue 0x1C0 ∧ (M2 : ℚ) * 2 ^ E = absValue 0x001 :=
  ⟨by decide, align_exact 32 0x1C0 0x001 (by decide) (by decide) (by decide)⟩

/-- Claim C16.  Bounded loops: with 40 loop iterations allowed to each call of
`float_to_base10`, `base10_to_float`, `toMiniFP` and `toNumber`, for all
11-bit operands `addMiniFP` and `mulMiniFP` return, `float_to_base10` returns
on finite operands, `toMiniFP` returns on every struct with a 32-bit fraction
part (a whole part of 256 or more returns before any loop), and `toNumber`
returns; and `base10_to_float` returns for every 32-bit mantissa and every
exponent, its denormal loop being reached only below -6. -/
theorem bounded_loops (a b v : Nat) (n : Number_s) (ha : a < 2048) (hb : b < 2048)
    (hv : v < 2048) (hfr : n.fraction < 2 ^ 32) :
    (∃ r, addMiniFP 40 a b = some r) ∧ (∃ r, mulMiniFP 40 a b = some r) ∧
    (expField a ≠ 15 → expField b ≠ 15 → ∃ r, float_to_base10 40 a b = some r) ∧
    (∃ r, toMiniFP 40 (some n) = some r) ∧ (∃ r, toNumber 40 (some n) v = some r) ∧
    (∀ (M : Nat) (E : Int) (S : Nat), M < 2 ^ 32 →
      ∃ r, base10_to_float (31 + (-6 - E).toNat) M E S = some r) := by
  refine ⟨?_, ?_, ?_, ?_, ?_, ?_⟩
  · obtain ⟨r, h⟩ := addMiniFP_returns 40 a b (by omega) ha hb
    exact ⟨r, h⟩
  · obtain ⟨r, h⟩ := mulMiniFP_returns 40 a b (by omega) ha hb
    exact ⟨r, h⟩
  · intro h1 h2
    obtain ⟨M1, M2, E, h, _⟩ := float_to_base10_returns 40 a b (by omega) h1 h2
    exact ⟨_, h⟩
  · obtain ⟨r, h⟩ := toMiniFP_returns 40 n (by omega) (by norm_num at hfr; exact hfr)
    exact ⟨r, h⟩
  · obtain ⟨n1, h, _⟩ := toNumber_present 40 v n (by omega) hv
    exact ⟨_, h⟩
  · intro M E S hM
    obtain ⟨r, h⟩ := base10_to_float_total M E S (by norm_num at hM; exact hM)
    exact ⟨r, h⟩

/-- Witness of `bounded_loops`: the smallest denormal times itself, and a
struct whose fraction part is 1, the input with the most iterations. -/
theorem bounded_loops_witness :
    (0x001 < 2048 ∧ (1 : Nat) < 2 ^ 32) ∧
      (∃ r, mulMiniFP 40 0x001 0x001 = some r) ∧
      (∃ r, toMiniFP 40 (some ⟨false, false, false, 0, 1⟩) = some r) :=
  have h := bounded_loops 0x001 0x001 0x001 ⟨false, false, false, 0, 1⟩ (by decide) (by decide)
    (by decide) (by decide)
  ⟨by decide, h.2.1, h.2.2.2.1⟩

/-- Claim C17.  Commutativity: for all 11-bit values `a` and `b`, special
values included, `addMiniFP(a, b)` and `addMiniFP(b, a)` return the same
value, and so do `mulMiniFP(a, b)` and `mulMiniFP(b, a)`; 35 loop iterations
per helper call suffice. -/
theorem add_mul_commute (fuel a b : Nat) (hf : 35 ≤ fuel) (ha : a < 2048) (hb : b < 2048) :
    (∃ r, addMiniFP fuel a b = some r ∧ addMiniFP fuel b a = some r) ∧
    (∃ r, mulMiniFP fuel a b = some r ∧ mulMiniFP fuel b a = some r) := by
  obtain ⟨r1, h1⟩ := addMiniFP_returns fuel a b hf ha hb
  obtain ⟨r2, h2⟩ := mulMiniFP_returns fuel a b hf ha hb
  refine ⟨⟨r1, h1, ?_⟩, ⟨r2, h2, ?_⟩⟩
  · rw [← addMiniFP_swap fuel a b (by omega) ha hb]; exact h1
  · rw [← mulMiniFP_swap fuel a b (by omega) ha hb]; exact h2

/-- Witness of `add_mul_commute` at `a = 0x1C0` (1.0) and `b = 0x001`. -/
theorem add_mul_commute_witness :
    (35 ≤ 35 ∧ 0x1C0 < 2048 ∧ 0x001 < 2048) ∧
      (∃ r, addMiniFP 35 0x1C0 0x001 = some r ∧ addMiniFP 35 0x001 0x1C0 = some r) ∧
      (∃ r, mulMiniFP 35 0x1C0 0x001 = some r ∧ mulMiniFP 35 0x001 0x1C0 = some r) :=
  ⟨by decide, add_mul_commute 35 0x1C0 0x001 (by decide) (by decide) (by decide)⟩

/-- Claim C18.  Multiply is the exact product truncated toward zero: for finite
nonzero 11-bit `a` and `b`, with 35 loop iterations allowed to each helper
call, the product `M1 * M2` of the aligned mantissas is below `2^32`, and
`mulMiniFP a b` is the Infinity with the XOR sign when `|a| * |b| ≥ 256`, and
otherwise a finite 11-bit value with the XOR sign whose magnitude does not
exceed `|a| * |b|` and is the largest such among the finite encoded values. -/
theorem mul_truncates (fuel a b : Nat) (hf : 35 ≤ fuel) (ha : a < 2048) (hb : b < 2048)
    (hfa : expField a ≠ 15) (hfb : expField b ≠ 15)
    (ha0 : a ≠ 0x000) (ha1 : a ≠ 0x400) (hb0 : b ≠ 0x000) (hb1 : b ≠ 0x400) :
    ∃ (M1 M2 : Nat) (E : Int) (r : Nat),
      float_to_base10 fuel a b = some (M1, M2, E) ∧ M1 * M2 < 2 ^ 32 ∧
      mulMiniFP fuel a b = some r ∧
      (256 ≤ absValue a * absValue b →
        r = if (is_negative a ^^^ is_negative b) ≠ 0 then NEG_INFINITY else POS_INFINITY) ∧
      (absValue a * absValue b < 256 →
        r < 2048 ∧ expField r ≠ 15 ∧ is_negative r = is_negative a ^^^ is_negative b ∧
        absValue r ≤ absValue a * absValue b ∧
        ∀ x : Nat, expField x ≠ 15 → absValue x ≤ absValue a * absValue b →
          absValue x ≤ absValue r) := by
  obtain ⟨M1, M2, E, r, hF, hP, hr, hinf, hfin⟩ :=
    mulMiniFP_trunc fuel a b hf ha hb hfa hfb ha0 ha1 hb0 hb1
  refine ⟨M1, M2, E, r, hF, by norm_num; exact hP, hr, ?_, ?_⟩
  · intro h
    rw [absValue_eq, absValue_eq, prod_ge_256] at h
    rw [hinf h]
    by_cases hx : (is_negative a ^^^ is_negative b) ≠ 0
    · rw [if_pos hx, if_pos hx]; rfl
    · rw [if_neg hx, if_neg hx]; rfl
  · intro h
    have hlt : mag12 a * mag12 b < 4294967296 := by
      by_contra hc
      have := (prod_ge_256 (mag12 a) (mag12 b)).mpr (by omega)
      rw [absValue_eq, absValue_eq] at h
      exact absurd this (not_le.mpr h)
    obtain ⟨low, hl, hrl, hlo, hhi⟩ := hfin hlt
    obtain ⟨p1, p2, p3, p4⟩ := pattern_fields
      (if (is_negative a ^^^ is_negative b) ≠ 0 then 0x400 else 0x000) low (ite_sign _) hl
    rw [← hrl] at p1 p2 p3 p4
    refine ⟨p1, p2, ?_, ?_, ?_⟩
    · rw [p3, xor_bit _ _ (is_negative_le a) (is_negative_le b)]
      by_cases he : is_negative a = is_negative b
      · simp [he]
      · simp [he]
    · rw [absValue_eq, absValue_eq, absValue_eq, mag_le_prod, p4]
      exact hlo
    · intro x hx hxle
      rw [absValue_eq, absValue_eq, absValue_eq, mag_le_prod] at hxle
      rw [absValue_eq, absValue_eq, mag_le_mag, p4]
      have hV : mag12 a * mag12 b / 4096 < mag12 (low + 1) := by
        apply Nat.div_lt_of_lt_mul
        rw [Nat.mul_comm 4096]; exact hhi
      exact mag12_largest low (mag12 a * mag12 b / 4096) hl hV x hx
        ((Nat.le_div_iff_mul_le (by norm_num)).mpr hxle)

/-- Witness of `mul_truncates`: `0x1C1 * 0x1C1`, the square of `1 + 1/64`,
whose exact value `1 + 2/64 + 1/4096` is not an encoded value. -/
theorem mul_truncates_witness :
    (35 ≤ 35 ∧ 0x1C1 < 2048 ∧ expField 0x1C1 ≠ 15 ∧ (0x1C1 : Nat) ≠ 0x000 ∧
        (0x1C1 : Nat) ≠ 0x400) ∧
      ∃ (M1 M2 : Nat) (E : Int) (r : Nat),
        float_to_base10 35 0x1C1 0x1C1 = some (M1, M2, E) ∧ M1 * M2 < 2 ^ 32 ∧
        mulMiniFP 35 0x1C1 0x1C1 = some r ∧
        (256 ≤ absValue 0x1C1 * absValue 0x1C1 →
          r = if (is_negative 0x1C1 ^^^ is_negative 0x1C1) ≠ 0 then NEG_INFINITY
            else POS_INFINITY) ∧
        (absValue 0x1C1 * absValue 0x1C1 < 256 →
          r < 2048 ∧ expField r ≠ 15 ∧
          is_negative r = is_negative 0x1C1 ^^^ is_negative 0x1C1 ∧
          absValue r ≤ absValue 0x1C1 * absValue 0x1C1 ∧
          ∀ x : Nat, expField x ≠ 15 → absValue x ≤ absValue 0x1C1 * absValue 0x1C1 →
            absValue x ≤ absValue r) :=
  ⟨by decide, mul_truncates 35 0x1C1 0x1C1 (by decide) (by decide) (by decide) (by decide)
    (by decide) (by decide) (by decide) (by decide) (by decide)⟩

/-- Claim C19.  Add is the exact sum truncated toward zero: for finite nonzero
11-bit `a` and `b`, with 35 loop iterations allowed to each helper call and
`s` the rational sum of the signed values, `addMiniFP a b` is `0x000` when
`s = 0`, is the Infinity with the sign of `s` when `|s| ≥ 256`, and otherwise
is a finite 11-bit value with the sign of `s` whose magnitude does not exceed
`|s|` and is the largest such among the finite encoded values; and whenever
`s` is the signed value of a finite encoded value, the result has the signed
value `s`. -/
theorem add_truncates (fuel a b : Nat) (hf : 35 ≤ fuel) (ha : a < 2048) (hb : b < 2048)
    (hfa : expField a ≠ 15) (hfb : expField b ≠ 15)
    (ha0 : a ≠ 0x000) (ha1 : a ≠ 0x400) (hb0 : b ≠ 0x000) (hb1 : b ≠ 0x400) :
    ∃ r : Nat, addMiniFP fuel a b = some r ∧
      (signedValue a + signedValue b = 0 → r = 0x000) ∧
      (256 ≤ |signedValue a + signedValue b| →
        r = if signedValue a + signedValue b < 0 then NEG_INFINITY else POS_INFINITY) ∧
      (signedValue a + signedValue b ≠ 0 → |signedValue a + signedValue b| < 256 →
        r < 2048 ∧ expField r ≠ 15 ∧
        (is_negative r ≠ 0 ↔ signedValue a + signedValue b < 0) ∧
        absValue r ≤ |signedValue a + signedValue b| ∧
        ∀ x : Nat, expField x ≠ 15 → absValue x ≤ |signedValue a + signedValue b| →
          absValue x ≤ absValue r) ∧
      (∀ x : Nat, expField x ≠ 15 → signedValue x = signedValue a + signedValue b →
        signedValue r = signedValue a + signedValue b) := by
  obtain ⟨r, hr, hzero, hinf, hfin⟩ :=
    addMiniFP_trunc fuel a b hf ha hb hfa hfb ha0 ha1 hb0 hb1
  have hs : signedValue a + signedValue b
      = ((signed12 a + signed12 b : Int) : ℚ) / 4096 := by
    rw [signedValue_eq, signedValue_eq]; push_cast; ring
  rw [hs]
  generalize signed12 a + signed12 b = s at hzero hinf hfin
  refine ⟨r, hr, ?_, ?_, ?_, ?_⟩
  · intro h
    exact hzero ((div_4096_eq_zero s).mp h)
  · intro h
    have hN := (abs_ge_256 s).mp h
    have hne : s ≠ 0 := by
      intro h0; rw [h0] at hN; simp at hN
    rw [hinf hne hN]
    by_cases hlt : s < 0
    · rw [if_pos hlt, if_pos ((div_4096_neg s).mpr hlt)]; rfl
    · rw [if_neg hlt, if_neg (fun h2 => hlt ((div_4096_neg s).mp h2))]; rfl
  · intro hne h
    have hne2 : s ≠ 0 := fun h0 => hne ((div_4096_eq_zero s).mpr h0)
    have hN : s.natAbs < 1048576 := by
      by_contra hc
      exact absurd ((abs_ge_256 s).mpr (by omega)) (not_le.mpr h)
    obtain ⟨low, hl, hrl, hlo, hhi⟩ := hfin hne2 hN
    obtain ⟨p1, p2, p3, p4⟩ := pattern_fields (if s < 0 then 0x400 else 0x000) low
      (ite_sign _) hl
    rw [← hrl] at p1 p2 p3 p4
    refine ⟨p1, p2, ?_, ?_, ?_⟩
    · rw [p3, div_4096_neg]
      by_cases hlt : s < 0
      · simp [hlt]
      · simp [hlt]
    · rw [absValue_eq, abs_div_4096, mag_le_mag, p4]
      exact hlo
    · intro x hx hxle
      rw [absValue_eq, abs_div_4096, mag_le_mag] at hxle
      rw [absValue_eq, absValue_eq, mag_le_mag, p4]
      exact mag12_largest low s.natAbs hl hhi x hx hxle
  · intro x hx hxs
    rw [signedValue_eq] at hxs
    have hxs2 : signed12 x = s := by
      have h4 : ((4096 : ℚ)) ≠ 0 := by norm_num
      have := (div_left_inj' h4).mp hxs
      exact_mod_cast this
    have hmx : mag12 x = s.natAbs := by rw [← hxs2, signed12_natAbs]
    by_cases h0 : s = 0
    · rw [hzero h0, h0, signedValue_eq]
      norm_num
      rfl
    · have hN : s.natAbs < 1048576 := by
        rw [← hmx]; exact mag12_lt x hx
      obtain ⟨low, hl, hrl, hlo, hhi⟩ := hfin h0 hN
      obtain ⟨p1, p2, p3, p4⟩ := pattern_fields (if s < 0 then 0x400 else 0x000) low
        (ite_sign _) hl
      rw [← hrl] at p1 p2 p3 p4
      have hle := mag12_largest low s.natAbs hl hhi x hx (by omega)
      have hm : mag12 r = s.natAbs := by omega
      rw [signedValue_eq]
      have : signed12 r = s := by
        unfold signed12
        rw [p3, hm]
        by_cases hlt : s < 0
        · rw [if_pos hlt, if_pos (by norm_num)]; omega
        · rw [if_neg hlt, if_neg (by norm_num)]; omega
      rw [this]

/-- Witness of `add_truncates`: `0x1C1 + 0x001`, the sum of `1 + 1/64` and
`2^-12`, which is not an encoded value. -/
theorem add_truncates_witness :
    (35 ≤ 35 ∧ 0x1C1 < 2048 ∧ 0x001 < 2048 ∧ expField 0x1C1 ≠ 15 ∧ expField 0x001 ≠ 15 ∧
        (0x1C1 : Nat) ≠ 0x000 ∧ (0x1C1 : Nat) ≠ 0x400 ∧ (0x001 : Nat) ≠ 0x000 ∧
        (0x001 : Nat) ≠ 0x400) ∧
      ∃ r : Nat, addMiniFP 35 0x1C1 0x001 = some r ∧
        (signedValue 0x1C1 + signedValue 0x001 = 0 → r = 0x000) ∧
        (256 ≤ |signedValue 0x1C1 + signedValue 0x001| →
          r = if signedValue 0x1C1 + signedValue 0x001 < 0 then NEG_INFINITY
            else POS_INFINITY) ∧
        (signedValue 0x1C1 + signedValue 0x001 ≠ 0 →
          |signedValue 0x1C1 + signedValue 0x001| < 256 →
          r < 2048 ∧ expField r ≠ 15 ∧
          (is_negative r ≠ 0 ↔ signedValue 0x1C1 + signedValue 0x001 < 0) ∧
          absValue r ≤ |signedValue 0x1C1 + signedValue 0x001| ∧
          ∀ x : Nat, expField x ≠ 15 →
            absValue x ≤ |signedValue 0x1C1 + signedValue 0x001| →
            absValue x ≤ absValue r) ∧
        (∀ x : Nat, expField x ≠ 15 →
          signedValue x = signedValue 0x1C1 + signedValue 0x001 →
          signedValue r = signedValue 0x1C1 + signedValue 0x001) :=
  ⟨by decide, add_truncates 35 0x1C1 0x001 (by decide) (by decide) (by decide) (by decide)
    (by decide) (by decide) (by decide) (by decide) (by decide)⟩

/-- Claim C20.  The guard `val1 == negateMiniFP(val1)` of `addMiniFP` is false
for every value, and `addMiniFP` returns, for every pair and every amount of
fuel, what the function without the guard returns. -/
theorem add_guard_never_fires (fuel a b : Nat) :
    a ≠ negateMiniFP a ∧ addMiniFP fuel a b = addMiniFP_noGuard fuel a b := by
  refine ⟨ne_negateMiniFP a, ?_⟩
  unfold addMiniFP addMiniFP_noGuard
  simp only [if_neg (ne_negateMiniFP a)]

end MiniFP
